import Mathlib

/-!
Chess engine of `script.js`: move generation, move application, turn handling.

A shallow embedding of the game logic of `src/script.js`.  The global variables
of the script (`gameMode`, `boardState`, `selectedCell`, `currentTurn`,
`gameActive`, `playerNames`, `scoreData`) and the text of `gameMessage` become the
fields of one `State` record that every operation takes and returns; a counter
`pendingTimers` stands for the `computerMove` callbacks handed to `setTimeout`.
Drawing, highlighting, speech and theming touch only the page and are left out.

Rows and columns are integers, as in the script, where `row + dir` may be `-1`.
Every function that reads or writes `boardState[r][c]` runs in `Except Fault`:

* `Fault.offGrid`   an access to `boardState` outside rows 0..7, columns 0..7
  (JavaScript throws only when the row is outside and yields `undefined` when the
  column is; the model faults on both, so "no fault" is the stronger statement);
* `Fault.nullDeref` the expression `boardState[fromRow][fromCol][0]` evaluated on an
  empty square, or a field read on `moves[i]` past the end of `moves`
  (a `TypeError` in JavaScript);
* `Fault.fuel`      the `while` loop of `slidingMoves` did not stop within its fuel.

`Math.random()` is a parameter of `computerMove`: the double `mant / 2 ^ exp`; the
product `Math.random() * moves.length` is rounded as a double before `Math.floor`.
-/

namespace Chess

/-! ## Data model -/

/-- First character of a piece tag: `"w"` or `"b"`. -/
inductive Side where
  | w | b
  deriving DecidableEq, Repr

/-- Second character of a piece tag. -/
inductive Kind where
  | P | N | B | R | Q | K
  deriving DecidableEq, Repr

/-- A piece tag such as `"wP"`: `piece[0]` is `color`, `piece[1]` is `type`. -/
structure Piece where
  color : Side
  type : Kind
  deriving DecidableEq, Repr

/-- A destination object `{ row, col }`. -/
structure Square where
  row : Int
  col : Int
  deriving DecidableEq, Repr

/-- The array of arrays `boardState`; `none` is `null`. -/
abbrev Board := List (List (Option Piece))

/-- Ways in which the script can go wrong on a board access or a loop. -/
inductive Fault where
  | offGrid | nullDeref | fuel
  deriving DecidableEq, Repr

deriving instance DecidableEq for Except

/-- An 8x8 board: eight rows of eight cells. -/
def Board.wellFormed (boardState : Board) : Prop :=
  boardState.length = 8 ∧ ∀ cells ∈ boardState, cells.length = 8

instance (boardState : Board) : Decidable boardState.wellFormed := by
  unfold Board.wellFormed; infer_instance

/-- `isOnBoard(row, col)`. -/
def isOnBoard (row col : Int) : Bool :=
  decide (row ≥ 0) && decide (row < 8) && decide (col ≥ 0) && decide (col < 8)

/-- The read `boardState[r][c]`, faulting outside the 8x8 grid. -/
def readCell (boardState : Board) (r c : Int) : Except Fault (Option Piece) :=
  if 0 ≤ r ∧ r < 8 ∧ 0 ≤ c ∧ c < 8 then
    match (boardState[r.toNat]?) with
    | none => .error .offGrid
    | some cells =>
      match (cells[c.toNat]?) with
      | none => .error .offGrid
      | some cell => .ok cell
  else .error .offGrid

/-- The write `boardState[r][c] = v`, faulting outside the 8x8 grid. -/
def writeCell (boardState : Board) (r c : Int) (v : Option Piece) : Except Fault Board :=
  if 0 ≤ r ∧ r < 8 ∧ 0 ≤ c ∧ c < 8 then
    match (boardState[r.toNat]?) with
    | none => .error .offGrid
    | some cells =>
      if c.toNat < cells.length then .ok (boardState.set r.toNat (cells.set c.toNat v))
      else .error .offGrid
  else .error .offGrid

/-- Total view of the board used in specifications: the piece on `(r, c)`, and
`none` both for an empty square and for a square outside the grid. -/
def pieceAt (boardState : Board) (r c : Int) : Option Piece :=
  match readCell boardState r c with
  | .ok cell => cell
  | .error _ => none

/-! ## Move generator -/

/-- The guard `isOnBoard(r, c) && !boardState[r][c]`; `&&` short-circuits, so the
board is read only when the square is on it. -/
def onBoardEmpty (boardState : Board) (r c : Int) : Except Fault Bool :=
  if isOnBoard r c then do
    let cell ← readCell boardState r c
    pure cell.isNone
  else pure false

/-- The guard
`isOnBoard(r, c) && boardState[r][c] && boardState[r][c][0] !== color`. -/
def onBoardEnemy (boardState : Board) (color : Side) (r c : Int) : Except Fault Bool :=
  if isOnBoard r c then do
    let cell ← readCell boardState r c
    match cell with
    | none => pure false
    | some q => pure (decide (q.color ≠ color))
  else pure false

/-- The guard
`isOnBoard(r2, c2) && (!boardState[r2][c2] || boardState[r2][c2][0] !== color)`. -/
def onBoardFree (boardState : Board) (color : Side) (r c : Int) : Except Fault Bool :=
  if isOnBoard r c then do
    let cell ← readCell boardState r c
    match cell with
    | none => pure true
    | some q => pure (decide (q.color ≠ color))
  else pure false

/-- The body `deltas.forEach(d => ...)` shared by the knight and king branches:
each offset whose target passes `onBoardFree` is pushed onto `moves`. -/
def deltaMoves (boardState : Board) (row col : Int) (color : Side) :
    List (Int × Int) → List Square → Except Fault (List Square)
  | [], moves => pure moves
  | d :: rest, moves => do
    let r2 := row + d.1
    let c2 := col + d.2
    let ok ← onBoardFree boardState color r2 c2
    deltaMoves boardState row col color rest (if ok then moves ++ [⟨r2, c2⟩] else moves)

/-- The loop `while (isOnBoard(r, c)) { ... r += d[0]; c += d[1]; }` of
`slidingMoves` for one direction `d`, started at `(r, c)` with `moves` collected
so far.  Each iteration uses one unit of fuel. -/
def slideRay (boardState : Board) (color : Side) (d : Int × Int) :
    Nat → Int → Int → List Square → Except Fault (List Square)
  | 0, r, c, moves => if isOnBoard r c then .error .fuel else pure moves
  | fuel + 1, r, c, moves =>
    if isOnBoard r c then do
      let cell ← readCell boardState r c
      match cell with
      | none => slideRay boardState color d fuel (r + d.1) (c + d.2) (moves ++ [⟨r, c⟩])
      | some q =>
        if q.color ≠ color then pure (moves ++ [⟨r, c⟩]) else pure moves
    else pure moves

/-- Fuel given to each ray: a ray leaves the board after at most seven steps. -/
def rayFuel : Nat := 8

/-- `slidingMoves(row, col, color, directions)`, with `moves` the list built so far. -/
def slidingMovesFrom (boardState : Board) (row col : Int) (color : Side) :
    List (Int × Int) → List Square → Except Fault (List Square)
  | [], moves => pure moves
  | d :: rest, moves => do
    let moves ← slideRay boardState color d rayFuel (row + d.1) (col + d.2) moves
    slidingMovesFrom boardState row col color rest moves

/-- `slidingMoves(row, col, color, directions)`. -/
def slidingMoves (boardState : Board) (row col : Int) (color : Side)
    (directions : List (Int × Int)) : Except Fault (List Square) :=
  slidingMovesFrom boardState row col color directions []

/-- Offsets of the knight branch. -/
def knightDeltas : List (Int × Int) :=
  [(-2, -1), (-2, 1), (-1, -2), (-1, 2), (1, -2), (1, 2), (2, -1), (2, 1)]

/-- Offsets of the king branch. -/
def kingDeltas : List (Int × Int) :=
  [(-1, -1), (-1, 0), (-1, 1), (0, -1), (0, 1), (1, -1), (1, 0), (1, 1)]

/-- Directions of the bishop branch. -/
def bishopDirs : List (Int × Int) := [(-1, -1), (-1, 1), (1, -1), (1, 1)]

/-- Directions of the rook branch. -/
def rookDirs : List (Int × Int) := [(-1, 0), (1, 0), (0, -1), (0, 1)]

/-- Directions of the queen branch. -/
def queenDirs : List (Int × Int) :=
  [(-1, -1), (-1, 1), (1, -1), (1, 1), (-1, 0), (1, 0), (0, -1), (0, 1)]

/-- The pawn branch of `getLegalMoves`. -/
def pawnMoves (boardState : Board) (row col : Int) (color : Side) :
    Except Fault (List Square) := do
  let dir : Int := if color = Side.w then -1 else 1
  let moves : List Square := []
  let fwd ← onBoardEmpty boardState (row + dir) col
  let moves := if fwd then moves ++ [⟨row + dir, col⟩] else moves
  let left ← onBoardEnemy boardState color (row + dir) (col - 1)
  let moves := if left then moves ++ [⟨row + dir, col - 1⟩] else moves
  let right ← onBoardEnemy boardState color (row + dir) (col + 1)
  let moves := if right then moves ++ [⟨row + dir, col + 1⟩] else moves
  pure moves

/-- `getLegalMoves(row, col)`. -/
def getLegalMoves (boardState : Board) (row col : Int) : Except Fault (List Square) := do
  let piece ← readCell boardState row col
  match piece with
  | none => pure []
  | some p =>
    match p.type with
    | .P => pawnMoves boardState row col p.color
    | .N => deltaMoves boardState row col p.color knightDeltas []
    | .B => do
      let s ← slidingMoves boardState row col p.color bishopDirs
      pure ([] ++ s)
    | .R => do
      let s ← slidingMoves boardState row col p.color rookDirs
      pure ([] ++ s)
    | .Q => do
      let s ← slidingMoves boardState row col p.color queenDirs
      pure ([] ++ s)
    | .K => deltaMoves boardState row col p.color kingDeltas []

/-- `initBoardState()`: the standard starting position. -/
def initBoardState : Board :=
  let bl (k : Kind) : Option Piece := some ⟨.b, k⟩
  let wh (k : Kind) : Option Piece := some ⟨.w, k⟩
  [ [bl .R, bl .N, bl .B, bl .Q, bl .K, bl .B, bl .N, bl .R],
    [bl .P, bl .P, bl .P, bl .P, bl .P, bl .P, bl .P, bl .P],
    [none, none, none, none, none, none, none, none],
    [none, none, none, none, none, none, none, none],
    [none, none, none, none, none, none, none, none],
    [none, none, none, none, none, none, none, none],
    [wh .P, wh .P, wh .P, wh .P, wh .P, wh .P, wh .P, wh .P],
    [wh .R, wh .N, wh .B, wh .Q, wh .K, wh .B, wh .N, wh .R] ]

/-! ## Session state -/

/-- One entry of `scoreData`: `{ points, matches }`. -/
structure Score where
  points : Nat
  matchesWon : Nat
  deriving DecidableEq, Repr

/-- The object `scoreData = { w: ..., b: ... }`. -/
structure ScoreData where
  w : Score
  b : Score
  deriving DecidableEq, Repr

/-- The lookup `scoreData[side]`. -/
def ScoreData.get (sd : ScoreData) : Side → Score
  | .w => sd.w
  | .b => sd.b

/-- The update `scoreData[side].points += v`. -/
def ScoreData.addPoints (sd : ScoreData) (side : Side) (v : Nat) : ScoreData :=
  match side with
  | .w => { sd with w := { sd.w with points := sd.w.points + v } }
  | .b => { sd with b := { sd.b with points := sd.b.points + v } }

/-- The update `scoreData[side].matches++`. -/
def ScoreData.incMatches (sd : ScoreData) (side : Side) : ScoreData :=
  match side with
  | .w => { sd with w := { sd.w with matchesWon := sd.w.matchesWon + 1 } }
  | .b => { sd with b := { sd.b with matchesWon := sd.b.matchesWon + 1 } }

/-- The object `playerNames = { w: ..., b: ... }`. -/
structure Names where
  w : String
  b : String
  deriving DecidableEq, Repr

/-- The value of `gameMode`: `"human"` or `"computer"`. -/
inductive Mode where
  | human | computer
  deriving DecidableEq, Repr

/-- The global variables of the script.  `pendingTimers` counts the
`setTimeout(computerMove, 500)` callbacks scheduled and not yet run. -/
structure State where
  gameMode : Mode
  boardState : Board
  selectedCell : Option Square
  currentTurn : Side
  gameActive : Bool
  playerNames : Names
  scoreData : ScoreData
  gameMessage : String
  pendingTimers : Nat
  deriving DecidableEq, Repr

/-- The table `pieceValues`; the king has no entry. -/
def pieceValues : Kind → Option Nat
  | .P => some 1
  | .N => some 3
  | .B => some 3
  | .R => some 5
  | .Q => some 9
  | .K => none

/-- JavaScript `v || d` on a table lookup: `d` when the entry is missing or `0`. -/
def orDefault (v : Option Nat) (d : Nat) : Nat :=
  match v with
  | none => d
  | some 0 => d
  | some n => n

/-- `clearHighlights()`: besides the page, it resets `selectedCell`. -/
def clearHighlights (s : State) : State :=
  { s with selectedCell := none }

/-- `switchTurn()`. -/
def switchTurn (s : State) : State :=
  let s := { s with currentTurn := if s.currentTurn = Side.w then Side.b else Side.w }
  let s := clearHighlights s
  if s.gameMode = Mode.computer ∧ s.currentTurn = Side.b ∧ s.gameActive = true then
    { s with pendingTimers := s.pendingTimers + 1 }
  else s

/-- `movePiece(fromRow, fromCol, toRow, toCol)`. -/
def movePiece (s : State) (fromRow fromCol toRow toCol : Int) : Except Fault State := do
  let destPiece ← readCell s.boardState toRow toCol
  let s ← match destPiece with
    | none => pure s
    | some dp => do
      let fromPiece ← readCell s.boardState fromRow fromCol
      match fromPiece with
      | none => throw Fault.nullDeref
      | some fp =>
        if dp.color ≠ fp.color then
          if dp.type = Kind.K then
            let winner := if fp.color = Side.w then s.playerNames.w else s.playerNames.b
            pure { s with
              gameActive := false
              gameMessage := winner ++ " wins by capturing the king!"
              scoreData := s.scoreData.incMatches fp.color }
          else
            pure { s with
              scoreData := s.scoreData.addPoints fp.color (orDefault (pieceValues dp.type) 1) }
        else pure s
  let moving ← readCell s.boardState fromRow fromCol
  let b1 ← writeCell s.boardState toRow toCol moving
  let b2 ← writeCell b1 fromRow fromCol none
  pure { s with boardState := b2 }

/-- The selection step of `handleCellClick`, the same in both of its branches:
`if (piece && piece[0] === currentTurn) { ... selectedCell = { row, col }; ... }`.
`highlightLegalMoves(getLegalMoves(row, col))` only paints, but it does call
`getLegalMoves`. -/
def selectIfOwn (s : State) (piece : Option Piece) (row col : Int) (clear : Bool) :
    Except Fault State :=
  match piece with
  | none => pure s
  | some p =>
    if p.color = s.currentTurn then do
      let s := if clear then clearHighlights s else s
      let s := { s with selectedCell := some ⟨row, col⟩ }
      let _ ← getLegalMoves s.boardState row col
      pure s
    else pure s

/-- `handleCellClick(e)` for a click on the cell `(row, col)`. -/
def handleCellClick (s : State) (row col : Int) : Except Fault State :=
  if s.gameActive = false then pure s
  else do
    let piece ← readCell s.boardState row col
    match s.selectedCell with
    | some sel =>
      if sel.row = row ∧ sel.col = col then pure (clearHighlights s)
      else do
        let legalMoves ← getLegalMoves s.boardState sel.row sel.col
        if legalMoves.any (fun m => decide (m.row = row) && decide (m.col = col)) then do
          let s ← movePiece s sel.row sel.col row col
          let s := clearHighlights s
          let s := { s with selectedCell := none }
          pure (switchTurn s)
        else selectIfOwn s piece row col true
    | none => selectIfOwn s piece row col false

/-- The inner loop of `computerMove` for one row: columns `col, col+1, ...`
(`n` of them), pushing `{ from, to }` for every destination of a black piece. -/
def collectRow (boardState : Board) (row : Int) :
    Nat → Int → List (Square × Square) → Except Fault (List (Square × Square))
  | 0, _, moves => pure moves
  | n + 1, col, moves => do
    let piece ← readCell boardState row col
    let moves ← match piece with
      | none => pure moves
      | some p =>
        if p.color = Side.b then do
          let legal ← getLegalMoves boardState row col
          pure (moves ++ legal.map (fun m => ((⟨row, col⟩ : Square), m)))
        else pure moves
    collectRow boardState row n (col + 1) moves

/-- The outer loop of `computerMove`: rows `row, row+1, ...` (`n` of them). -/
def collectRows (boardState : Board) :
    Nat → Int → List (Square × Square) → Except Fault (List (Square × Square))
  | 0, _, moves => pure moves
  | n + 1, row, moves => do
    let moves ← collectRow boardState row 8 0 moves
    collectRows boardState n (row + 1) moves

/-- A value returned by `Math.random()`: the number `mant / 2 ^ exp`. -/
structure Draw where
  mant : Nat
  exp : Nat
  deriving DecidableEq, Repr

/-- The draw is a double in `[0, 1)`: a significand of at most 53 bits, an
exponent not below that of the smallest subnormal, a value below one.  Every
double in `[0, 1)` has this form, and every such `mant / 2 ^ exp` is a double. -/
def Draw.inUnit (rnd : Draw) : Prop :=
  rnd.mant < 2 ^ 53 ∧ rnd.mant < 2 ^ rnd.exp ∧ rnd.exp ≤ 1074

instance (rnd : Draw) : Decidable rnd.inUnit := by
  unfold Draw.inUnit; infer_instance

/-- The number of low bits that `a` has beyond a 53-bit significand: the least
`s` with `a / 2 ^ s < 2 ^ 53`, for `a ≤ fuel`. -/
def excessBits : Nat → Nat → Nat
  | 0, _ => 0
  | fuel + 1, a => if a < 2 ^ 53 then 0 else excessBits fuel (a / 2) + 1

/-- The integer `a` rounded to 53 significant bits, to nearest, ties to the even
significand.  This is the rounding of the double-precision product
`a / 2 ^ exp` with `exp ≤ 1074`, applied to its numerator: a numerator below
`2 ^ 53` is a double as it stands, and a larger one gives a normal number, of
which 53 bits are kept. -/
def roundDouble (a : Nat) : Nat :=
  let s := excessBits a a
  let hi := a / 2 ^ s
  let lo := a % 2 ^ s
  if 2 * lo < 2 ^ s then hi * 2 ^ s
  else if 2 * lo = 2 ^ s ∧ hi % 2 = 0 then hi * 2 ^ s
  else (hi + 1) * 2 ^ s

/-- The index `Math.floor(Math.random() * length)` for the draw `rnd`: `length`,
an array length, is a double as it stands; the product
`mant * length / 2 ^ exp` is rounded to a double, which `Math.floor` then rounds
down to an integer exactly. -/
def randomIndex (rnd : Draw) (length : Nat) : Nat :=
  roundDouble (rnd.mant * length) / 2 ^ rnd.exp

/-- `computerMove()`, with `rnd` the value `Math.random()` returns. -/
def computerMove (s : State) (rnd : Draw) : Except Fault State := do
  let moves ← collectRows s.boardState 8 0 []
  if moves.length = 0 then pure s
  else
    match moves[randomIndex rnd moves.length]? with
    | none => throw Fault.nullDeref
    | some move => do
      let s ← movePiece s move.1.row move.1.col move.2.row move.2.col
      pure (switchTurn s)

/-- The click handler of `restartBtn`. -/
def restart (s : State) : State :=
  let s := { s with boardState := initBoardState }
  let s := { s with currentTurn := Side.w, gameActive := true, gameMessage := "" }
  clearHighlights s

/-- `initGame()`. -/
def initGame (s : State) : State :=
  { s with
    boardState := initBoardState
    currentTurn := Side.w
    gameActive := true
    scoreData :=
      { w := { s.scoreData.w with points := 0 }, b := { s.scoreData.b with points := 0 } }
    gameMessage := ""
    selectedCell := none }

/-- The code points that `String.prototype.trim` removes: the white space and
line terminators of ECMAScript (tab, line feed, vertical tab, form feed, carriage
return, space, no-break space, U+1680, U+2000 to U+200A, U+2028, U+2029, U+202F,
U+205F, U+3000, U+FEFF). -/
def isJsWhiteSpace (c : Char) : Bool :=
  (0x9 ≤ c.toNat && c.toNat ≤ 0xD) || c.toNat == 0x20 || c.toNat == 0xA0 ||
    c.toNat == 0x1680 || (0x2000 ≤ c.toNat && c.toNat ≤ 0x200A) ||
    c.toNat == 0x2028 || c.toNat == 0x2029 || c.toNat == 0x202F ||
    c.toNat == 0x205F || c.toNat == 0x3000 || c.toNat == 0xFEFF

/-- The method `trim()` of a string: leading and trailing white space removed. -/
def jsTrim (value : String) : String :=
  String.mk ((value.data.dropWhile isJsWhiteSpace).reverse.dropWhile isJsWhiteSpace).reverse

/-- The field read `input.value.trim() || dflt`: the empty string is falsy. -/
def nameOr (value dflt : String) : String :=
  if jsTrim value = "" then dflt else jsTrim value

/-- The click handler of `startGameBtn`: `mode` is the checked mode,
`p1`, `p2`, `p` the three name fields and `side` the checked side. -/
def startGame (s : State) (mode : Mode) (p1 p2 p : String) (side : Side) : State :=
  let s := { s with gameMode := mode }
  let s :=
    match mode with
    | .human => { s with playerNames := { w := nameOr p1 "White", b := nameOr p2 "Black" } }
    | .computer =>
      if side = Side.w then { s with playerNames := { w := nameOr p "Player", b := "Computer" } }
      else { s with playerNames := { w := "Computer", b := nameOr p "Player" } }
  let s := { s with scoreData := { w := ⟨0, 0⟩, b := ⟨0, 0⟩ } }
  initGame s

/-- The state after the script has loaded: the initial values of the globals,
then the final `initGame()`. -/
def loaded : State :=
  initGame
    { gameMode := Mode.human
      boardState := []
      selectedCell := none
      currentTurn := Side.w
      gameActive := true
      playerNames := { w := "White", b := "Black" }
      scoreData := { w := ⟨0, 0⟩, b := ⟨0, 0⟩ }
      gameMessage := ""
      pendingTimers := 0 }

/-- What can happen to a session: the start button, a click on a cell, a
scheduled `computerMove` running (with its random draw), the restart button. -/
inductive Event where
  | start (mode : Mode) (p1 p2 p : String) (side : Side)
  | click (row col : Int)
  | timer (rnd : Draw)
  | restart
  deriving DecidableEq, Repr

/-- One event handled to completion.  A `timer` event with no callback pending
cannot happen and leaves the state as it is. -/
def step (s : State) : Event → Except Fault State
  | .start mode p1 p2 p side => pure (startGame s mode p1 p2 p side)
  | .click row col => handleCellClick s row col
  | .timer rnd =>
    if s.pendingTimers = 0 then pure s
    else computerMove { s with pendingTimers := s.pendingTimers - 1 } rnd
  | .restart => pure (restart s)

/-- A sequence of events handled one after the other. -/
def run (s : State) : List Event → Except Fault State
  | [] => pure s
  | e :: es => do
    let s ← step s e
    run s es


/-! ## Specification vocabulary -/

/-- A square a piece of `color` may land on: empty, or holding a piece of the
other side. -/
def freeFor (boardState : Board) (color : Side) (r c : Int) : Prop :=
  pieceAt boardState r c = none ∨ ∃ q, pieceAt boardState r c = some q ∧ q.color ≠ color

/-- A square holding a piece of the side other than `color`. -/
def enemyOf (boardState : Board) (color : Side) (r c : Int) : Prop :=
  ∃ q, pieceAt boardState r c = some q ∧ q.color ≠ color

/-- The row step of a pawn: `-1` for white, `+1` for black. -/
def pawnDir (color : Side) : Int :=
  if color = Side.w then -1 else 1

/-- A row of eight empty cells. -/
def emptyRow : List (Option Piece) :=
  [none, none, none, none, none, none, none, none]

/-- The board holding only a white rook on `(7, 0)` and a black pawn on `(0, 0)`. -/
def rookBoard : Board :=
  [ [some ⟨.b, .P⟩, none, none, none, none, none, none, none],
    emptyRow, emptyRow, emptyRow, emptyRow, emptyRow, emptyRow,
    [some ⟨.w, .R⟩, none, none, none, none, none, none, none] ]

/-- The board holding only the piece `p`, on `(4, 4)`. -/
def soloBoard (p : Piece) : Board :=
  [ emptyRow, emptyRow, emptyRow, emptyRow,
    [none, none, none, none, some p, none, none, none],
    emptyRow, emptyRow, emptyRow ]

/-- Value of the guard `onBoardEmpty` on a well-formed board. -/
def emptyB (boardState : Board) (r c : Int) : Bool :=
  isOnBoard r c && (pieceAt boardState r c).isNone

/-- Value of the guard `onBoardEnemy` on a well-formed board. -/
def enemyB (boardState : Board) (color : Side) (r c : Int) : Bool :=
  isOnBoard r c &&
    (match pieceAt boardState r c with
     | none => false
     | some q => decide (q.color ≠ color))

/-- Value of the guard `onBoardFree` on a well-formed board. -/
def freeB (boardState : Board) (color : Side) (r c : Int) : Bool :=
  isOnBoard r c &&
    (match pieceAt boardState r c with
     | none => true
     | some q => decide (q.color ≠ color))

/-- The square `sq` is the `k`-th square of the ray that starts on `(r, c)` and
advances by `d`; the squares before it are on the board and empty, and `sq` is on
the board and empty or held by the side other than `color`. -/
def Reaches (boardState : Board) (color : Side) (d : Int × Int) (r c : Int) (k : Nat)
    (sq : Square) : Prop :=
  sq = ⟨r + k * d.1, c + k * d.2⟩ ∧
    (∀ j : Nat, j < k → isOnBoard (r + j * d.1) (c + j * d.2) = true ∧
      pieceAt boardState (r + j * d.1) (c + j * d.2) = none) ∧
    isOnBoard sq.row sq.col = true ∧ freeFor boardState color sq.row sq.col

/-- The direction set of a sliding piece; empty for the other kinds. -/
def directionSet : Kind → List (Int × Int)
  | .B => bishopDirs
  | .R => rookDirs
  | .Q => queenDirs
  | _ => []

/-- The scoring part of `movePiece` when the moving piece is `fp` and the
destination cell holds `dest`: the state after the `if (destPiece && ...)` block. -/
def captureEffect (s : State) (fp : Piece) : Option Piece → State
  | none => s
  | some dp =>
    if dp.color ≠ fp.color then
      if dp.type = Kind.K then
        { s with
          gameActive := false
          gameMessage :=
            (if fp.color = Side.w then s.playerNames.w else s.playerNames.b) ++
              " wins by capturing the king!"
          scoreData := s.scoreData.incMatches fp.color }
      else
        { s with
          scoreData := s.scoreData.addPoints fp.color (orDefault (pieceValues dp.type) 1) }
    else s

/-- The board holding only `p` on `(4, 4)` and `q` next to it on `(4, 5)`. -/
def duelBoard (p q : Piece) : Board :=
  [ emptyRow, emptyRow, emptyRow, emptyRow,
    [none, none, none, none, some p, some q, none, none],
    emptyRow, emptyRow, emptyRow ]

/-- The loaded session with `boardState` replaced by `board`. -/
def sessionOn (board : Board) : State :=
  { loaded with boardState := board }

/-- A session against the computer, the human playing white. -/
def computerSession : State :=
  startGame loaded Mode.computer "" "" "" Side.w

/-- White plays f2-f3, g2-g3, g3-g4 and the computer answers e7-e6, Qd8-h4.
After g3-g4 a `computerMove` is pending; before it runs the human clicks the black
queen on `(4, 7)` and then the white king on `(7, 4)`. -/
def kingCapturedTrace : List Event :=
  [ Event.click 6 5, Event.click 5 5, Event.timer ⟨11, 4⟩,
    Event.click 6 6, Event.click 5 6, Event.timer ⟨1, 2⟩,
    Event.click 5 6, Event.click 4 6,
    Event.click 4 7, Event.click 7 4 ]

/-- The loaded session with the white king's pawn selected. -/
def pawnSelected : State :=
  { loaded with selectedCell := some ⟨6, 4⟩ }

/-- Material value of a captured kind: Pawn 1, Knight 3, Bishop 3, Rook 5, Queen 9;
the king has none. -/
def materialValue : Kind → Nat
  | .P => 1
  | .N => 3
  | .B => 3
  | .R => 5
  | .Q => 9
  | .K => 0

/-- The square `dst` is among the destinations `getLegalMoves` returns for `src`. -/
def IsLegal (boardState : Board) (src dst : Square) : Prop :=
  ∃ moves, getLegalMoves boardState src.row src.col = .ok moves ∧ dst ∈ moves

/-- The square `sq` holds a piece of `side`. -/
def holdsSide (boardState : Board) (side : Side) (sq : Square) : Prop :=
  ∃ p, pieceAt boardState sq.row sq.col = some p ∧ p.color = side

/-- The move handed to `movePiece` when the event is handled in state `s`, if
there is one: for a click, the selected square and the clicked square when the
game is active and the clicked square is a destination of the selected one; for a
scheduled `computerMove`, the candidate picked by the draw. -/
def appliedMove (s : State) : Event → Option (Square × Square)
  | .click row col =>
    if s.gameActive = false then none
    else
      match s.selectedCell with
      | none => none
      | some sel =>
        if sel.row = row ∧ sel.col = col then none
        else
          match getLegalMoves s.boardState sel.row sel.col with
          | .ok moves => if (⟨row, col⟩ : Square) ∈ moves then some (sel, ⟨row, col⟩) else none
          | .error _ => none
  | .timer rnd =>
    if s.pendingTimers = 0 then none
    else
      match collectRows s.boardState 8 0 [] with
      | .ok moves => moves[randomIndex rnd moves.length]?
      | .error _ => none
  | _ => none

/-- What the move `mv` made on the board of `s` captures for `side`: the material
value of the piece on the destination when the moving piece is of `side` and the
piece on the destination is a piece other than a king of the other side; `0`
otherwise. -/
def captureValue (s : State) (side : Side) (mv : Square × Square) : Nat :=
  match pieceAt s.boardState mv.1.row mv.1.col, pieceAt s.boardState mv.2.row mv.2.col with
  | some fp, some dp =>
    if fp.color = side ∧ dp.color ≠ fp.color ∧ dp.type ≠ Kind.K then materialValue dp.type
    else 0
  | _, _ => 0

/-- Total material captured by `side` while the events are handled from `s`. -/
def capturedTotal (side : Side) : State → List Event → Nat
  | _, [] => 0
  | s, e :: es =>
    (match appliedMove s e with
      | some mv => captureValue s side mv
      | none => 0) +
    (match step s e with
      | .ok s' => capturedTotal side s' es
      | .error _ => 0)

/-- Events of a running session: clicks on cells of the grid, scheduled computer
moves with a draw in `[0, 1)`, restarts; not the start button. -/
def Event.inSession : Event → Prop
  | .click row col => 0 ≤ row ∧ row < 8 ∧ 0 ≤ col ∧ col < 8
  | .timer rnd => rnd.inUnit
  | .restart => True
  | .start _ _ _ _ _ => False

instance (e : Event) : Decidable e.inSession := by
  cases e <;> unfold Event.inSession <;> infer_instance

/-- The board is 8x8 and the selected cell, if any, is a cell of the grid. -/
def State.sound (s : State) : Prop :=
  s.boardState.wellFormed ∧
    ∀ sel, s.selectedCell = some sel → isOnBoard sel.row sel.col = true

/-- A two-player session in which white plays e2-e3, e3-e4 and takes on d5 the
pawn black has brought there by d7-d6, d6-d5. -/
def pawnCaptureTrace : List Event :=
  [ Event.click 6 4, Event.click 5 4, Event.click 1 3, Event.click 2 3,
    Event.click 5 4, Event.click 4 4, Event.click 2 3, Event.click 3 3,
    Event.click 4 4, Event.click 3 3 ]

/-- The session on `duelBoard` with a white queen beside the black king, the
queen selected. -/
def queenSelected : State :=
  { sessionOn (duelBoard ⟨Side.w, Kind.Q⟩ ⟨Side.b, Kind.K⟩) with selectedCell := some ⟨4, 4⟩ }

/-- A session against the computer in which the human has chosen black: the
side named "Computer" is white. -/
def humanBlackSession : State :=
  startGame loaded Mode.computer "" "" "Ann" Side.b
/-- Events that can happen to the page: the start button, clicks on cells of the
grid, scheduled computer moves with a draw in `[0, 1)`, restarts. -/
def Event.wellFormed : Event → Prop
  | .click row col => 0 ≤ row ∧ row < 8 ∧ 0 ≤ col ∧ col < 8
  | .timer rnd => rnd.inUnit
  | .restart => True
  | .start _ _ _ _ _ => True

instance (e : Event) : Decidable e.wellFormed := by
  cases e <;> unfold Event.wellFormed <;> infer_instance

/-- The selected cell, if any, holds a piece of the side to move. -/
def State.selectionOwn (s : State) : Prop :=
  ∀ sel, s.selectedCell = some sel → holdsSide s.boardState s.currentTurn sel
/-- The 64 squares of the grid, row by row. -/
def allSquares : List (Int × Int) :=
  (List.range 8).flatMap
    (fun r : Nat => (List.range 8).map (fun c : Nat => (Int.ofNat r, Int.ofNat c)))

/-- The number of squares of the grid that hold the piece `p`. -/
def countPiece (boardState : Board) (p : Piece) : Nat :=
  allSquares.countP (fun x => decide (pieceAt boardState x.1 x.2 = some p))

/-- While the game is active each side has exactly one king on the board. -/
def State.kingsPresent (s : State) : Prop :=
  s.gameActive = true → ∀ side : Side, countPiece s.boardState ⟨side, Kind.K⟩ = 1

/-! ## Reading the board -/

theorem isOnBoard_iff (r c : Int) :
    isOnBoard r c = true ↔ 0 ≤ r ∧ r < 8 ∧ 0 ≤ c ∧ c < 8 := by
  simp [isOnBoard, and_assoc]

theorem isOnBoard_eq_false_iff (r c : Int) :
    isOnBoard r c = false ↔ ¬ (0 ≤ r ∧ r < 8 ∧ 0 ≤ c ∧ c < 8) := by
  rw [← isOnBoard_iff]; simp

theorem readCell_of_onBoard {boardState : Board} (hb : boardState.wellFormed) {r c : Int}
    (h : isOnBoard r c = true) : readCell boardState r c = .ok (pieceAt boardState r c) := by
  have hrc := (isOnBoard_iff r c).1 h
  obtain ⟨hlen, hrows⟩ := hb
  have hr : r.toNat < boardState.length := by omega
  have hmem : boardState[r.toNat] ∈ boardState := List.getElem_mem hr
  have hc : c.toNat < (boardState[r.toNat]).length := by
    rw [hrows _ hmem]; omega
  have key : readCell boardState r c = .ok ((boardState[r.toNat])[c.toNat]) := by
    simp [readCell, hrc, List.getElem?_eq_getElem hr, List.getElem?_eq_getElem hc]
  simp [pieceAt, key]

theorem pieceAt_of_offBoard (boardState : Board) {r c : Int} (h : isOnBoard r c = false) :
    pieceAt boardState r c = none := by
  have := (isOnBoard_eq_false_iff r c).1 h
  simp [pieceAt, readCell, this]

/-! ## The three guards, evaluated -/

theorem onBoardEmpty_eq {boardState : Board} (hb : boardState.wellFormed) (r c : Int) :
    onBoardEmpty boardState r c = .ok (emptyB boardState r c) := by
  cases h : isOnBoard r c
  · simp [onBoardEmpty, emptyB, h, pure, Except.pure]
  · simp [onBoardEmpty, emptyB, h, readCell_of_onBoard hb h, bind, Except.bind, pure,
      Except.pure]

theorem onBoardEnemy_eq {boardState : Board} (hb : boardState.wellFormed) (color : Side)
    (r c : Int) : onBoardEnemy boardState color r c = .ok (enemyB boardState color r c) := by
  cases h : isOnBoard r c
  · simp [onBoardEnemy, enemyB, h, pure, Except.pure]
  · simp only [onBoardEnemy, enemyB, h, readCell_of_onBoard hb h, bind, Except.bind, pure,
      Except.pure, if_true, Bool.true_and]
    cases pieceAt boardState r c <;> rfl

theorem onBoardFree_eq {boardState : Board} (hb : boardState.wellFormed) (color : Side)
    (r c : Int) : onBoardFree boardState color r c = .ok (freeB boardState color r c) := by
  cases h : isOnBoard r c
  · simp [onBoardFree, freeB, h, pure, Except.pure]
  · simp only [onBoardFree, freeB, h, readCell_of_onBoard hb h, bind, Except.bind, pure,
      Except.pure, if_true, Bool.true_and]
    cases pieceAt boardState r c <;> rfl

theorem emptyB_iff (boardState : Board) (r c : Int) :
    emptyB boardState r c = true ↔ isOnBoard r c = true ∧ pieceAt boardState r c = none := by
  simp [emptyB]

theorem enemyB_iff (boardState : Board) (color : Side) (r c : Int) :
    enemyB boardState color r c = true ↔
      isOnBoard r c = true ∧ enemyOf boardState color r c := by
  unfold enemyB enemyOf
  cases pieceAt boardState r c <;> simp

theorem freeB_iff (boardState : Board) (color : Side) (r c : Int) :
    freeB boardState color r c = true ↔
      isOnBoard r c = true ∧ freeFor boardState color r c := by
  unfold freeB freeFor
  cases pieceAt boardState r c <;> simp

/-! ## Knight and king: the offset loop -/

theorem deltaMoves_eq {boardState : Board} (hb : boardState.wellFormed) (row col : Int)
    (color : Side) (deltas : List (Int × Int)) (moves : List Square) :
    deltaMoves boardState row col color deltas moves =
      .ok (moves ++ (deltas.filter
        (fun d => freeB boardState color (row + d.1) (col + d.2))).map
          (fun d => (⟨row + d.1, col + d.2⟩ : Square))) := by
  induction deltas generalizing moves with
  | nil => simp [deltaMoves, pure, Except.pure]
  | cons d rest ih =>
    simp only [deltaMoves, onBoardFree_eq hb, bind, Except.bind]
    rw [ih]
    cases h : freeB boardState color (row + d.1) (col + d.2) <;> simp [List.filter, h]

theorem mem_deltaMoves {boardState : Board} (hb : boardState.wellFormed) (row col : Int)
    (color : Side) (deltas : List (Int × Int)) (sq : Square) :
    ∃ moves, deltaMoves boardState row col color deltas [] = .ok moves ∧
      (sq ∈ moves ↔ ∃ d ∈ deltas, sq = ⟨row + d.1, col + d.2⟩ ∧
        isOnBoard sq.row sq.col = true ∧ freeFor boardState color sq.row sq.col) := by
  refine ⟨_, deltaMoves_eq hb row col color deltas [], ?_⟩
  simp only [List.nil_append, List.mem_map, List.mem_filter, freeB_iff]
  constructor
  · rintro ⟨d, ⟨hd, hon, hfree⟩, rfl⟩
    exact ⟨d, hd, rfl, hon, hfree⟩
  · rintro ⟨d, hd, rfl, hon, hfree⟩
    exact ⟨d, ⟨hd, hon, hfree⟩, rfl⟩

/-! ## Pawn -/

theorem pawnMoves_eq {boardState : Board} (hb : boardState.wellFormed) (row col : Int)
    (color : Side) :
    pawnMoves boardState row col color =
      .ok ((if emptyB boardState (row + (if color = Side.w then -1 else 1)) col
              then [(⟨row + (if color = Side.w then -1 else 1), col⟩ : Square)] else []) ++
           (if enemyB boardState color (row + (if color = Side.w then -1 else 1)) (col - 1)
              then [(⟨row + (if color = Side.w then -1 else 1), col - 1⟩ : Square)] else []) ++
           (if enemyB boardState color (row + (if color = Side.w then -1 else 1)) (col + 1)
              then [(⟨row + (if color = Side.w then -1 else 1), col + 1⟩ : Square)] else [])) := by
  simp only [pawnMoves, onBoardEmpty_eq hb, onBoardEnemy_eq hb, bind, Except.bind, pure,
    Except.pure]
  split_ifs <;> simp

/-! ## Sliding pieces: one ray -/

theorem reaches_zero (boardState : Board) (color : Side) (d : Int × Int) (r c : Int)
    (sq : Square) :
    Reaches boardState color d r c 0 sq ↔
      sq = ⟨r, c⟩ ∧ isOnBoard r c = true ∧ freeFor boardState color r c := by
  unfold Reaches
  constructor
  · rintro ⟨h, -, h2, h3⟩
    simp only [Nat.cast_zero, zero_mul, add_zero] at h
    subst h
    exact ⟨rfl, h2, h3⟩
  · rintro ⟨h, h2, h3⟩
    subst h
    refine ⟨by simp, ?_, h2, h3⟩
    intro j hj
    omega

theorem reaches_succ (boardState : Board) (color : Side) (d : Int × Int) (r c : Int)
    (k : Nat) (sq : Square) :
    Reaches boardState color d r c (k + 1) sq ↔
      isOnBoard r c = true ∧ pieceAt boardState r c = none ∧
        Reaches boardState color d (r + d.1) (c + d.2) k sq := by
  have e1 : ∀ j : Nat, r + ((j + 1 : Nat) : Int) * d.1 = r + d.1 + (j : Int) * d.1 := by
    intro j; push_cast; ring
  have e2 : ∀ j : Nat, c + ((j + 1 : Nat) : Int) * d.2 = c + d.2 + (j : Int) * d.2 := by
    intro j; push_cast; ring
  unfold Reaches
  constructor
  · rintro ⟨h, hmid, h2, h3⟩
    have h0 := hmid 0 (Nat.succ_pos k)
    simp only [Nat.cast_zero, zero_mul, add_zero] at h0
    refine ⟨h0.1, h0.2, ?_, ?_, h2, h3⟩
    · rw [h, e1, e2]
    · intro j hj
      have := hmid (j + 1) (Nat.succ_lt_succ hj)
      rwa [e1, e2] at this
  · rintro ⟨hon, hemp, h, hmid, h2, h3⟩
    refine ⟨?_, ?_, h2, h3⟩
    · rw [h, e1, e2]
    · intro j hj
      cases j with
      | zero => simpa using ⟨hon, hemp⟩
      | succ j =>
        have := hmid j (Nat.lt_of_succ_lt_succ hj)
        rwa [e1, e2]

theorem reaches_blocked (boardState : Board) (color : Side) (d : Int × Int) (r c : Int)
    (h : ¬ (isOnBoard r c = true ∧ pieceAt boardState r c = none)) (k : Nat) (sq : Square) :
    Reaches boardState color d r c k sq ↔
      sq = ⟨r, c⟩ ∧ isOnBoard r c = true ∧ freeFor boardState color r c ∧ k = 0 := by
  cases k with
  | zero => simp [reaches_zero]
  | succ k =>
    rw [reaches_succ]
    constructor
    · rintro ⟨h1, h2, -⟩
      exact absurd ⟨h1, h2⟩ h
    · rintro ⟨-, -, -, h4⟩
      omega

theorem slideRay_spec {boardState : Board} (hb : boardState.wellFormed) (color : Side)
    (d : Int × Int) (fuel : Nat) : ∀ (r c : Int) (moves : List Square),
    (∃ k : Nat, k ≤ fuel ∧ isOnBoard (r + k * d.1) (c + k * d.2) = false) →
    ∃ ray, slideRay boardState color d fuel r c moves = .ok (moves ++ ray) ∧
      ∀ sq, sq ∈ ray ↔ ∃ k, Reaches boardState color d r c k sq := by
  induction fuel with
  | zero =>
    rintro r c moves ⟨k, hk, hoff⟩
    have hk0 : k = 0 := by omega
    subst hk0
    simp only [Nat.cast_zero, zero_mul, add_zero] at hoff
    refine ⟨[], by simp [slideRay, hoff, pure, Except.pure], ?_⟩
    intro sq
    have hblk : ¬ (isOnBoard r c = true ∧ pieceAt boardState r c = none) := by simp [hoff]
    simp [reaches_blocked boardState color d r c hblk, hoff]
  | succ fuel ih =>
    rintro r c moves ⟨k, hk, hoff⟩
    cases hon : isOnBoard r c with
    | false =>
      refine ⟨[], by simp [slideRay, hon, pure, Except.pure], ?_⟩
      intro sq
      have hblk : ¬ (isOnBoard r c = true ∧ pieceAt boardState r c = none) := by simp [hon]
      simp [reaches_blocked boardState color d r c hblk, hon]
    | true =>
      cases hp : pieceAt boardState r c with
      | none =>
        have hk1 : ∃ k' : Nat, k' ≤ fuel ∧
            isOnBoard (r + d.1 + k' * d.1) (c + d.2 + k' * d.2) = false := by
          cases k with
          | zero => simp [hon] at hoff
          | succ k' =>
            refine ⟨k', by omega, ?_⟩
            have e1 : r + ((k' + 1 : Nat) : Int) * d.1 = r + d.1 + (k' : Int) * d.1 := by
              push_cast; ring
            have e2 : c + ((k' + 1 : Nat) : Int) * d.2 = c + d.2 + (k' : Int) * d.2 := by
              push_cast; ring
            rwa [e1, e2] at hoff
        obtain ⟨ray, hray, hmem⟩ := ih (r + d.1) (c + d.2) (moves ++ [⟨r, c⟩]) hk1
        refine ⟨⟨r, c⟩ :: ray, ?_, ?_⟩
        · simp [slideRay, hon, readCell_of_onBoard hb hon, hp, bind, Except.bind, hray]
        · intro sq
          rw [List.mem_cons, hmem]
          constructor
          · rintro (h | ⟨k', hk'⟩)
            · exact ⟨0, (reaches_zero _ _ _ _ _ _).2 ⟨h, hon, Or.inl hp⟩⟩
            · exact ⟨k' + 1, (reaches_succ _ _ _ _ _ _ _).2 ⟨hon, hp, hk'⟩⟩
          · rintro ⟨k', hk'⟩
            cases k' with
            | zero => exact Or.inl ((reaches_zero _ _ _ _ _ _).1 hk').1
            | succ k' => exact Or.inr ⟨k', ((reaches_succ _ _ _ _ _ _ _).1 hk').2.2⟩
      | some q =>
        have hblk : ¬ (isOnBoard r c = true ∧ pieceAt boardState r c = none) := by simp [hp]
        by_cases hc : q.color = color
        · refine ⟨[], ?_, ?_⟩
          · simp [slideRay, hon, readCell_of_onBoard hb hon, hp, bind, Except.bind, hc, pure,
              Except.pure]
          · intro sq
            simp [reaches_blocked boardState color d r c hblk, freeFor, hp, hc]
        · refine ⟨[⟨r, c⟩], ?_, ?_⟩
          · simp [slideRay, hon, readCell_of_onBoard hb hon, hp, bind, Except.bind, hc, pure,
              Except.pure]
          · intro sq
            simp [reaches_blocked boardState color d r c hblk, freeFor, hp, hc, hon]

/-! ## Sliding pieces: all rays -/

theorem ray_leaves {row col : Int} (hon : isOnBoard row col = true) {d : Int × Int}
    (hd : d ∈ queenDirs) :
    ∃ k : Nat, k ≤ rayFuel ∧ isOnBoard (row + d.1 + k * d.1) (col + d.2 + k * d.2) = false := by
  have h := (isOnBoard_iff row col).1 hon
  refine ⟨7, by decide, ?_⟩
  rw [isOnBoard_eq_false_iff]
  simp only [queenDirs, List.mem_cons, List.mem_singleton, List.not_mem_nil, or_false] at hd
  rcases hd with rfl | rfl | rfl | rfl | rfl | rfl | rfl | rfl <;> simp <;> omega

theorem slidingMovesFrom_spec {boardState : Board} (hb : boardState.wellFormed)
    {row col : Int} (hon : isOnBoard row col = true) (color : Side)
    (directions : List (Int × Int)) (hdirs : ∀ d ∈ directions, d ∈ queenDirs) :
    ∀ moves : List Square,
    ∃ out, slidingMovesFrom boardState row col color directions moves = .ok (moves ++ out) ∧
      ∀ sq, sq ∈ out ↔
        ∃ d ∈ directions, ∃ k, Reaches boardState color d (row + d.1) (col + d.2) k sq := by
  induction directions with
  | nil =>
    intro moves
    exact ⟨[], by simp [slidingMovesFrom, pure, Except.pure], by simp⟩
  | cons d rest ih =>
    intro moves
    obtain ⟨ray, hray, hmem⟩ := slideRay_spec hb color d rayFuel (row + d.1) (col + d.2) moves
      (ray_leaves hon (hdirs d (List.mem_cons_self _ _)))
    obtain ⟨out, hout, hmem2⟩ :=
      ih (fun e he => hdirs e (List.mem_cons_of_mem _ he)) (moves ++ ray)
    refine ⟨ray ++ out, ?_, ?_⟩
    · simp [slidingMovesFrom, hray, bind, Except.bind, hout]
    · intro sq
      rw [List.mem_append, hmem, hmem2]
      simp only [List.mem_cons, exists_eq_or_imp]

theorem bishopDirs_sub : ∀ d ∈ bishopDirs, d ∈ queenDirs := by decide

theorem rookDirs_sub : ∀ d ∈ rookDirs, d ∈ queenDirs := by decide

theorem directionSet_sub (k : Kind) : ∀ d ∈ directionSet k, d ∈ queenDirs := by
  cases k <;> decide

/-! ## `getLegalMoves`, kind by kind -/

theorem getLegalMoves_empty {boardState : Board} (hb : boardState.wellFormed) {row col : Int}
    (hon : isOnBoard row col = true) (hp : pieceAt boardState row col = none) :
    getLegalMoves boardState row col = .ok [] := by
  simp [getLegalMoves, readCell_of_onBoard hb hon, hp, bind, Except.bind, pure, Except.pure]

theorem getLegalMoves_pawn {boardState : Board} (hb : boardState.wellFormed) {row col : Int}
    (hon : isOnBoard row col = true) {p : Piece} (hp : pieceAt boardState row col = some p)
    (hk : p.type = Kind.P) :
    getLegalMoves boardState row col = pawnMoves boardState row col p.color := by
  simp [getLegalMoves, readCell_of_onBoard hb hon, hp, bind, Except.bind, hk]

theorem getLegalMoves_knight {boardState : Board} (hb : boardState.wellFormed) {row col : Int}
    (hon : isOnBoard row col = true) {p : Piece} (hp : pieceAt boardState row col = some p)
    (hk : p.type = Kind.N) :
    getLegalMoves boardState row col =
      deltaMoves boardState row col p.color knightDeltas [] := by
  simp [getLegalMoves, readCell_of_onBoard hb hon, hp, bind, Except.bind, hk]

theorem getLegalMoves_king {boardState : Board} (hb : boardState.wellFormed) {row col : Int}
    (hon : isOnBoard row col = true) {p : Piece} (hp : pieceAt boardState row col = some p)
    (hk : p.type = Kind.K) :
    getLegalMoves boardState row col =
      deltaMoves boardState row col p.color kingDeltas [] := by
  simp [getLegalMoves, readCell_of_onBoard hb hon, hp, bind, Except.bind, hk]

theorem getLegalMoves_slider {boardState : Board} (hb : boardState.wellFormed) {row col : Int}
    (hon : isOnBoard row col = true) {p : Piece} (hp : pieceAt boardState row col = some p)
    (hk : p.type = Kind.B ∨ p.type = Kind.R ∨ p.type = Kind.Q) :
    ∃ moves, getLegalMoves boardState row col = .ok moves ∧
      ∀ sq, sq ∈ moves ↔ ∃ d ∈ directionSet p.type, ∃ k,
        Reaches boardState p.color d (row + d.1) (col + d.2) k sq := by
  obtain ⟨out, hout, hmem⟩ := slidingMovesFrom_spec hb hon p.color (directionSet p.type)
    (directionSet_sub p.type) []
  refine ⟨out, ?_, hmem⟩
  rw [List.nil_append] at hout
  rcases hk with hk | hk | hk <;>
  · simp only [hk, directionSet] at hout
    simp [getLegalMoves, readCell_of_onBoard hb hon, hp, bind, Except.bind, hk, slidingMoves,
      hout, pure, Except.pure]

/-! ## Every destination is on the board and not held by the mover's side -/

theorem reaches_sound {boardState : Board} {color : Side} {d : Int × Int} {r c : Int}
    {k : Nat} {sq : Square} (h : Reaches boardState color d r c k sq) :
    isOnBoard sq.row sq.col = true ∧ freeFor boardState color sq.row sq.col :=
  ⟨h.2.2.1, h.2.2.2⟩

theorem freeFor_of_enemyOf {boardState : Board} {color : Side} {r c : Int}
    (h : enemyOf boardState color r c) : freeFor boardState color r c :=
  Or.inr h

theorem mem_pawnMoves {boardState : Board} (hb : boardState.wellFormed) (row col : Int)
    (color : Side) (sq : Square) :
    ∃ moves, pawnMoves boardState row col color = .ok moves ∧
      (sq ∈ moves ↔
        (sq = ⟨row + (if color = Side.w then -1 else 1), col⟩ ∧
          isOnBoard sq.row sq.col = true ∧ pieceAt boardState sq.row sq.col = none) ∨
        (sq = ⟨row + (if color = Side.w then -1 else 1), col - 1⟩ ∧
          isOnBoard sq.row sq.col = true ∧ enemyOf boardState color sq.row sq.col) ∨
        (sq = ⟨row + (if color = Side.w then -1 else 1), col + 1⟩ ∧
          isOnBoard sq.row sq.col = true ∧ enemyOf boardState color sq.row sq.col)) := by
  refine ⟨_, pawnMoves_eq hb row col color, ?_⟩
  simp only [List.mem_append, List.mem_ite_nil_right, List.mem_singleton, emptyB_iff,
    enemyB_iff, or_assoc]
  constructor
  · rintro (⟨h, rfl⟩ | ⟨h, rfl⟩ | ⟨h, rfl⟩)
    · exact Or.inl ⟨rfl, h⟩
    · exact Or.inr (Or.inl ⟨rfl, h⟩)
    · exact Or.inr (Or.inr ⟨rfl, h⟩)
  · rintro (⟨rfl, h⟩ | ⟨rfl, h⟩ | ⟨rfl, h⟩)
    · exact Or.inl ⟨h, rfl⟩
    · exact Or.inr (Or.inl ⟨h, rfl⟩)
    · exact Or.inr (Or.inr ⟨h, rfl⟩)

theorem getLegalMoves_sound {boardState : Board} (hb : boardState.wellFormed) {row col : Int}
    (hon : isOnBoard row col = true) :
    ∃ moves, getLegalMoves boardState row col = .ok moves ∧
      ∀ sq ∈ moves, isOnBoard sq.row sq.col = true ∧
        ∃ p, pieceAt boardState row col = some p ∧
          freeFor boardState p.color sq.row sq.col := by
  cases hp : pieceAt boardState row col with
  | none => exact ⟨[], getLegalMoves_empty hb hon hp, by simp⟩
  | some p =>
    have hkind : p.type = Kind.P ∨ p.type = Kind.N ∨ p.type = Kind.K ∨
        (p.type = Kind.B ∨ p.type = Kind.R ∨ p.type = Kind.Q) := by
      cases p.type <;> simp
    rcases hkind with hk | hk | hk | hk
    · refine ⟨_, (getLegalMoves_pawn hb hon hp hk).trans (pawnMoves_eq hb row col p.color), ?_⟩
      intro sq hsq
      obtain ⟨moves, hm, hiff⟩ := mem_pawnMoves hb row col p.color sq
      rw [pawnMoves_eq hb row col p.color] at hm
      cases hm
      rcases hiff.1 hsq with ⟨-, h1, h2⟩ | ⟨-, h1, h2⟩ | ⟨-, h1, h2⟩
      · exact ⟨h1, p, rfl, Or.inl h2⟩
      · exact ⟨h1, p, rfl, Or.inr h2⟩
      · exact ⟨h1, p, rfl, Or.inr h2⟩
    · refine ⟨_, (getLegalMoves_knight hb hon hp hk).trans
        (deltaMoves_eq hb row col p.color knightDeltas []), ?_⟩
      intro sq hsq
      obtain ⟨moves, hm, hiff⟩ := mem_deltaMoves hb row col p.color knightDeltas sq
      rw [deltaMoves_eq hb row col p.color knightDeltas []] at hm
      cases hm
      obtain ⟨d, -, -, h1, h2⟩ := hiff.1 hsq
      exact ⟨h1, p, rfl, h2⟩
    · refine ⟨_, (getLegalMoves_king hb hon hp hk).trans
        (deltaMoves_eq hb row col p.color kingDeltas []), ?_⟩
      intro sq hsq
      obtain ⟨moves, hm, hiff⟩ := mem_deltaMoves hb row col p.color kingDeltas sq
      rw [deltaMoves_eq hb row col p.color kingDeltas []] at hm
      cases hm
      obtain ⟨d, -, -, h1, h2⟩ := hiff.1 hsq
      exact ⟨h1, p, rfl, h2⟩
    · obtain ⟨moves, hm, hiff⟩ := getLegalMoves_slider hb hon hp hk
      refine ⟨moves, hm, ?_⟩
      intro sq hsq
      obtain ⟨d, -, k, hr⟩ := (hiff sq).1 hsq
      exact ⟨(reaches_sound hr).1, p, rfl, (reaches_sound hr).2⟩

theorem initBoardState_wellFormed : initBoardState.wellFormed := by decide

/-! ## Rays seen from the piece's own square -/

theorem onBoard_between {r c : Int} {d : Int × Int} {j k : Nat}
    (h0 : isOnBoard r c = true) (hk : isOnBoard (r + k * d.1) (c + k * d.2) = true)
    (hj : j ≤ k) : isOnBoard (r + j * d.1) (c + j * d.2) = true := by
  rw [isOnBoard_iff] at *
  have hjk : (j : Int) ≤ (k : Int) := Nat.cast_le.2 hj
  have hj0 : (0 : Int) ≤ (j : Int) := Nat.cast_nonneg j
  have key : ∀ x : Int, (0 ≤ (j : Int) * x ∧ (j : Int) * x ≤ (k : Int) * x) ∨
      ((k : Int) * x ≤ (j : Int) * x ∧ (j : Int) * x ≤ 0) := by
    intro x
    rcases le_total 0 x with hx | hx
    · exact Or.inl ⟨mul_nonneg hj0 hx, mul_le_mul_of_nonneg_right hjk hx⟩
    · exact Or.inr ⟨mul_le_mul_of_nonpos_right hjk hx, mul_nonpos_of_nonneg_of_nonpos hj0 hx⟩
  rcases key d.1 with h1 | h1 <;> rcases key d.2 with h2 | h2 <;>
    refine ⟨?_, ?_, ?_, ?_⟩ <;> linarith

theorem reaches_iff_steps (boardState : Board) (color : Side) (d : Int × Int) {row col : Int}
    (hon : isOnBoard row col = true) (k : Nat) (sq : Square) :
    Reaches boardState color d (row + d.1) (col + d.2) k sq ↔
      sq = ⟨row + ((k + 1 : Nat) : Int) * d.1, col + ((k + 1 : Nat) : Int) * d.2⟩ ∧
        isOnBoard sq.row sq.col = true ∧
        (∀ j : Nat, 1 ≤ j → j < k + 1 →
          pieceAt boardState (row + j * d.1) (col + j * d.2) = none) ∧
        freeFor boardState color sq.row sq.col := by
  have e1 : ∀ j : Nat, row + ((j + 1 : Nat) : Int) * d.1 = row + d.1 + (j : Int) * d.1 := by
    intro j; push_cast; ring
  have e2 : ∀ j : Nat, col + ((j + 1 : Nat) : Int) * d.2 = col + d.2 + (j : Int) * d.2 := by
    intro j; push_cast; ring
  unfold Reaches
  constructor
  · rintro ⟨h, hmid, h2, h3⟩
    refine ⟨by rw [h, e1, e2], h2, ?_, h3⟩
    intro j hj1 hjk
    obtain ⟨j', rfl⟩ : ∃ j', j = j' + 1 := ⟨j - 1, by omega⟩
    rw [e1, e2]
    exact (hmid j' (by omega)).2
  · rintro ⟨h, h2, hmid, h3⟩
    refine ⟨by rw [h, e1, e2], ?_, h2, h3⟩
    intro j hj
    have hsq : isOnBoard (row + ((k + 1 : Nat) : Int) * d.1)
        (col + ((k + 1 : Nat) : Int) * d.2) = true := by
      rw [h] at h2; exact h2
    have hbetween := onBoard_between (j := j + 1) hon hsq (by omega)
    rw [e1, e2] at hbetween
    refine ⟨hbetween, ?_⟩
    have := hmid (j + 1) (by omega) (by omega)
    rwa [e1, e2] at this

theorem ray_square_injective {v v' : Int × Int} (hv : v ∈ queenDirs) (hv' : v' ∈ queenDirs)
    {k k' : Nat} (hk : 1 ≤ k) (hk' : 1 ≤ k')
    (h1 : (k : Int) * v.1 = (k' : Int) * v'.1) (h2 : (k : Int) * v.2 = (k' : Int) * v'.2) :
    v = v' ∧ k = k' := by
  simp only [queenDirs, List.mem_cons, List.mem_singleton, List.not_mem_nil, or_false] at hv hv'
  rcases hv with rfl | rfl | rfl | rfl | rfl | rfl | rfl | rfl <;>
    rcases hv' with rfl | rfl | rfl | rfl | rfl | rfl | rfl | rfl <;>
    first
    | exact ⟨rfl, by omega⟩
    | (exfalso; omega)

/-! ## Claims about the move generator -/

/-- C1: on an 8x8 board and for an on-board square, `getLegalMoves` finishes
without reading `boardState` outside the grid (no fault), and every destination
it returns has row and column in `0..7`, whatever piece stands on the square. -/
theorem getLegalMoves_within_board (boardState : Board) (row col : Int)
    (hb : boardState.wellFormed) (hrow : 0 ≤ row ∧ row < 8) (hcol : 0 ≤ col ∧ col < 8) :
    ∃ moves, getLegalMoves boardState row col = .ok moves ∧
      ∀ m ∈ moves, 0 ≤ m.row ∧ m.row < 8 ∧ 0 ≤ m.col ∧ m.col < 8 := by
  have hon : isOnBoard row col = true :=
    (isOnBoard_iff row col).2 ⟨hrow.1, hrow.2, hcol.1, hcol.2⟩
  obtain ⟨moves, hm, hall⟩ := getLegalMoves_sound hb hon
  exact ⟨moves, hm, fun m hmem => (isOnBoard_iff m.row m.col).1 (hall m hmem).1⟩

/-- Witness for C1: the queen's knight of the starting position. -/
theorem getLegalMoves_within_board_witness :
    initBoardState.wellFormed ∧ ((0 : Int) ≤ 7 ∧ (7 : Int) < 8) ∧ ((0 : Int) ≤ 1 ∧ (1 : Int) < 8) ∧
      getLegalMoves initBoardState 7 1 = .ok [⟨5, 0⟩, ⟨5, 2⟩] ∧
      ∃ moves, getLegalMoves initBoardState 7 1 = .ok moves ∧
        ∀ m ∈ moves, 0 ≤ m.row ∧ m.row < 8 ∧ 0 ≤ m.col ∧ m.col < 8 :=
  ⟨by decide, by decide, by decide, by decide,
    getLegalMoves_within_board initBoardState 7 1 (by decide) (by decide) (by decide)⟩

/-- C2: on an 8x8 board, for an occupied on-board square, every destination
returned by `getLegalMoves` is empty or holds a piece of the other side, and
never holds a piece of the side of the piece on the queried square. -/
theorem getLegalMoves_never_own_side (boardState : Board) (row col : Int) (p : Piece)
    (hb : boardState.wellFormed) (hrow : 0 ≤ row ∧ row < 8) (hcol : 0 ≤ col ∧ col < 8)
    (hp : pieceAt boardState row col = some p) :
    ∃ moves, getLegalMoves boardState row col = .ok moves ∧
      ∀ m ∈ moves,
        (pieceAt boardState m.row m.col = none ∨
          ∃ q, pieceAt boardState m.row m.col = some q ∧ q.color ≠ p.color) ∧
        ¬ ∃ q, pieceAt boardState m.row m.col = some q ∧ q.color = p.color := by
  have hon : isOnBoard row col = true :=
    (isOnBoard_iff row col).2 ⟨hrow.1, hrow.2, hcol.1, hcol.2⟩
  obtain ⟨moves, hm, hall⟩ := getLegalMoves_sound hb hon
  refine ⟨moves, hm, fun m hmem => ?_⟩
  obtain ⟨-, p', hp', hfree⟩ := hall m hmem
  rw [hp] at hp'
  cases hp'
  refine ⟨hfree, ?_⟩
  rintro ⟨q, hq, hcol'⟩
  rcases hfree with h | ⟨q', hq', hne⟩
  · rw [h] at hq; cases hq
  · rw [hq] at hq'; cases hq'; exact hne hcol'

/-- Witness for C2: the queen's knight of the starting position. -/
theorem getLegalMoves_never_own_side_witness :
    initBoardState.wellFormed ∧ pieceAt initBoardState 7 1 = some ⟨Side.w, Kind.N⟩ ∧
      ∃ moves, getLegalMoves initBoardState 7 1 = .ok moves ∧
        ∀ m ∈ moves,
          (pieceAt initBoardState m.row m.col = none ∨
            ∃ q, pieceAt initBoardState m.row m.col = some q ∧ q.color ≠ Side.w) ∧
          ¬ ∃ q, pieceAt initBoardState m.row m.col = some q ∧ q.color = Side.w :=
  ⟨by decide, by decide,
    getLegalMoves_never_own_side initBoardState 7 1 ⟨Side.w, Kind.N⟩ (by decide)
      (by decide) (by decide) (by decide)⟩

/-- C3: for a bishop, rook or queen on an on-board square of an 8x8 board, a
square is returned by `getLegalMoves` exactly when it is `k >= 1` steps away along
one direction of the piece's direction set, is on the board, all squares strictly
between are empty, and it is empty or holds an opposing piece.  Moreover no square
behind an occupied square of a ray is returned. -/
theorem slider_moves_exact (boardState : Board) (row col : Int) (p : Piece)
    (hb : boardState.wellFormed) (hrow : 0 ≤ row ∧ row < 8) (hcol : 0 ≤ col ∧ col < 8)
    (hp : pieceAt boardState row col = some p)
    (hk : p.type = Kind.B ∨ p.type = Kind.R ∨ p.type = Kind.Q) :
    ∃ moves, getLegalMoves boardState row col = .ok moves ∧
      (∀ d : Square, d ∈ moves ↔
        ∃ v ∈ directionSet p.type, ∃ k : Nat, 1 ≤ k ∧
          d = ⟨row + k * v.1, col + k * v.2⟩ ∧
          (0 ≤ d.row ∧ d.row < 8 ∧ 0 ≤ d.col ∧ d.col < 8) ∧
          (∀ j : Nat, 1 ≤ j → j < k →
            pieceAt boardState (row + j * v.1) (col + j * v.2) = none) ∧
          (pieceAt boardState d.row d.col = none ∨
            ∃ q, pieceAt boardState d.row d.col = some q ∧ q.color ≠ p.color)) ∧
      (∀ v ∈ directionSet p.type, ∀ j k : Nat, 1 ≤ j → j < k →
        pieceAt boardState (row + j * v.1) (col + j * v.2) ≠ none →
        (⟨row + k * v.1, col + k * v.2⟩ : Square) ∉ moves) := by
  have hon : isOnBoard row col = true :=
    (isOnBoard_iff row col).2 ⟨hrow.1, hrow.2, hcol.1, hcol.2⟩
  obtain ⟨moves, hm, hiff⟩ := getLegalMoves_slider hb hon hp hk
  have hchar : ∀ d : Square, d ∈ moves ↔
      ∃ v ∈ directionSet p.type, ∃ k : Nat, 1 ≤ k ∧
        d = ⟨row + k * v.1, col + k * v.2⟩ ∧
        (0 ≤ d.row ∧ d.row < 8 ∧ 0 ≤ d.col ∧ d.col < 8) ∧
        (∀ j : Nat, 1 ≤ j → j < k →
          pieceAt boardState (row + j * v.1) (col + j * v.2) = none) ∧
        (pieceAt boardState d.row d.col = none ∨
          ∃ q, pieceAt boardState d.row d.col = some q ∧ q.color ≠ p.color) := by
    intro d
    rw [hiff]
    constructor
    · rintro ⟨v, hv, k, hr⟩
      obtain ⟨h1, h2, h3, h4⟩ := (reaches_iff_steps boardState p.color v hon k d).1 hr
      exact ⟨v, hv, k + 1, by omega, h1, (isOnBoard_iff _ _).1 h2, h3, h4⟩
    · rintro ⟨v, hv, k, hk1, h1, h2, h3, h4⟩
      obtain ⟨k', rfl⟩ : ∃ k', k = k' + 1 := ⟨k - 1, by omega⟩
      exact ⟨v, hv, k', (reaches_iff_steps boardState p.color v hon k' d).2
        ⟨h1, (isOnBoard_iff _ _).2 h2, h3, h4⟩⟩
  refine ⟨moves, hm, hchar, ?_⟩
  intro v hv j k hj hjk hocc hmem
  obtain ⟨v', hv', k', hk', heq, -, hmid, -⟩ := (hchar _).1 hmem
  have e1 : (k : Int) * v.1 = (k' : Int) * v'.1 := by
    have := congrArg Square.row heq
    simp only at this
    linarith
  have e2 : (k : Int) * v.2 = (k' : Int) * v'.2 := by
    have := congrArg Square.col heq
    simp only at this
    linarith
  obtain ⟨rfl, rfl⟩ := ray_square_injective (directionSet_sub _ v hv)
    (directionSet_sub _ v' hv') (by omega) hk' e1 e2
  exact hocc (hmid j hj hjk)

/-- Witness for C3: the rook of `rookBoard` gets exactly `(6,0)..(0,0)` and
`(7,1)..(7,7)`, the black pawn on `(0,0)` included. -/
theorem slider_moves_exact_witness :
    getLegalMoves rookBoard 7 0 =
        .ok [⟨6, 0⟩, ⟨5, 0⟩, ⟨4, 0⟩, ⟨3, 0⟩, ⟨2, 0⟩, ⟨1, 0⟩, ⟨0, 0⟩,
             ⟨7, 1⟩, ⟨7, 2⟩, ⟨7, 3⟩, ⟨7, 4⟩, ⟨7, 5⟩, ⟨7, 6⟩, ⟨7, 7⟩] ∧
      rookBoard.wellFormed ∧ pieceAt rookBoard 7 0 = some ⟨Side.w, Kind.R⟩ ∧
      ∃ moves, getLegalMoves rookBoard 7 0 = .ok moves ∧
        (∀ d : Square, d ∈ moves ↔
          ∃ v ∈ directionSet Kind.R, ∃ k : Nat, 1 ≤ k ∧
            d = ⟨7 + k * v.1, 0 + k * v.2⟩ ∧
            (0 ≤ d.row ∧ d.row < 8 ∧ 0 ≤ d.col ∧ d.col < 8) ∧
            (∀ j : Nat, 1 ≤ j → j < k →
              pieceAt rookBoard (7 + j * v.1) (0 + j * v.2) = none) ∧
            (pieceAt rookBoard d.row d.col = none ∨
              ∃ q, pieceAt rookBoard d.row d.col = some q ∧ q.color ≠ Side.w)) ∧
        (∀ v ∈ directionSet Kind.R, ∀ j k : Nat, 1 ≤ j → j < k →
          pieceAt rookBoard (7 + j * v.1) (0 + j * v.2) ≠ none →
          (⟨7 + k * v.1, 0 + k * v.2⟩ : Square) ∉ moves) :=
  ⟨by decide, by decide, by decide,
    slider_moves_exact rookBoard 7 0 ⟨Side.w, Kind.R⟩ (by decide) (by decide) (by decide)
      (by decide) (by decide)⟩

/-- C4: for a pawn on an on-board square `(row, col)` of an 8x8 board, with `dir`
its row step, `getLegalMoves` returns exactly `(row+dir, col)` when that square is
on the board and empty, and `(row+dir, col-1)`, `(row+dir, col+1)` when on the
board and held by an opposing piece.  So there is no two-square advance, no
straight move onto an occupied square, no diagonal move onto an empty or own
square, and every destination lies one row forward. -/
theorem pawn_moves_exact (boardState : Board) (row col : Int) (p : Piece)
    (hb : boardState.wellFormed) (hrow : 0 ≤ row ∧ row < 8) (hcol : 0 ≤ col ∧ col < 8)
    (hp : pieceAt boardState row col = some p) (hk : p.type = Kind.P) :
    ∃ moves, getLegalMoves boardState row col = .ok moves ∧
      (∀ sq : Square, sq ∈ moves ↔
        (sq = ⟨row + pawnDir p.color, col⟩ ∧
          (0 ≤ sq.row ∧ sq.row < 8 ∧ 0 ≤ sq.col ∧ sq.col < 8) ∧
          pieceAt boardState sq.row sq.col = none) ∨
        (sq = ⟨row + pawnDir p.color, col - 1⟩ ∧
          (0 ≤ sq.row ∧ sq.row < 8 ∧ 0 ≤ sq.col ∧ sq.col < 8) ∧
          ∃ q, pieceAt boardState sq.row sq.col = some q ∧ q.color ≠ p.color) ∨
        (sq = ⟨row + pawnDir p.color, col + 1⟩ ∧
          (0 ≤ sq.row ∧ sq.row < 8 ∧ 0 ≤ sq.col ∧ sq.col < 8) ∧
          ∃ q, pieceAt boardState sq.row sq.col = some q ∧ q.color ≠ p.color)) ∧
      (⟨row + 2 * pawnDir p.color, col⟩ : Square) ∉ moves ∧
      (∀ sq ∈ moves, sq.row = row + pawnDir p.color) ∧
      (∀ sq ∈ moves, sq.col = col → pieceAt boardState sq.row sq.col = none) ∧
      (∀ sq ∈ moves, sq.col ≠ col →
        ∃ q, pieceAt boardState sq.row sq.col = some q ∧ q.color ≠ p.color) := by
  have hon : isOnBoard row col = true :=
    (isOnBoard_iff row col).2 ⟨hrow.1, hrow.2, hcol.1, hcol.2⟩
  have hm := (getLegalMoves_pawn hb hon hp hk).trans (pawnMoves_eq hb row col p.color)
  have hchar : ∀ sq : Square,
      sq ∈ (if emptyB boardState (row + (if p.color = Side.w then -1 else 1)) col
              then [(⟨row + (if p.color = Side.w then -1 else 1), col⟩ : Square)] else []) ++
           (if enemyB boardState p.color (row + (if p.color = Side.w then -1 else 1)) (col - 1)
              then [(⟨row + (if p.color = Side.w then -1 else 1), col - 1⟩ : Square)]
              else []) ++
           (if enemyB boardState p.color (row + (if p.color = Side.w then -1 else 1)) (col + 1)
              then [(⟨row + (if p.color = Side.w then -1 else 1), col + 1⟩ : Square)]
              else []) ↔
        (sq = ⟨row + pawnDir p.color, col⟩ ∧
          (0 ≤ sq.row ∧ sq.row < 8 ∧ 0 ≤ sq.col ∧ sq.col < 8) ∧
          pieceAt boardState sq.row sq.col = none) ∨
        (sq = ⟨row + pawnDir p.color, col - 1⟩ ∧
          (0 ≤ sq.row ∧ sq.row < 8 ∧ 0 ≤ sq.col ∧ sq.col < 8) ∧
          ∃ q, pieceAt boardState sq.row sq.col = some q ∧ q.color ≠ p.color) ∨
        (sq = ⟨row + pawnDir p.color, col + 1⟩ ∧
          (0 ≤ sq.row ∧ sq.row < 8 ∧ 0 ≤ sq.col ∧ sq.col < 8) ∧
          ∃ q, pieceAt boardState sq.row sq.col = some q ∧ q.color ≠ p.color) := by
    intro sq
    obtain ⟨moves, hmv, hiff⟩ := mem_pawnMoves hb row col p.color sq
    rw [pawnMoves_eq hb row col p.color] at hmv
    cases hmv
    rw [hiff]
    simp only [pawnDir, isOnBoard_iff, enemyOf]
  refine ⟨_, hm, hchar, ?_, ?_, ?_, ?_⟩
  · intro hmem
    have hd : pawnDir p.color = -1 ∨ pawnDir p.color = 1 := by
      unfold pawnDir; split_ifs <;> simp
    rcases (hchar _).1 hmem with ⟨h, -⟩ | ⟨h, -⟩ | ⟨h, -⟩ <;>
      · simp only [Square.mk.injEq] at h
        omega
  · intro sq hmem
    rcases (hchar _).1 hmem with ⟨h, -⟩ | ⟨h, -⟩ | ⟨h, -⟩ <;> rw [h]
  · intro sq hmem hc
    rcases (hchar _).1 hmem with ⟨h, -, h3⟩ | ⟨h, -⟩ | ⟨h, -⟩
    · exact h3
    · rw [h] at hc; simp only at hc; omega
    · rw [h] at hc; simp only at hc; omega
  · intro sq hmem hc
    rcases (hchar _).1 hmem with ⟨h, -⟩ | ⟨-, -, h3⟩ | ⟨-, -, h3⟩
    · rw [h] at hc; simp at hc
    · exact h3
    · exact h3

/-- Witness for C4: the white king's pawn of the starting position may only step
to `(5, 4)`. -/
theorem pawn_moves_exact_witness :
    getLegalMoves initBoardState 6 4 = .ok [⟨5, 4⟩] ∧
      initBoardState.wellFormed ∧ pieceAt initBoardState 6 4 = some ⟨Side.w, Kind.P⟩ ∧
      ∃ moves, getLegalMoves initBoardState 6 4 = .ok moves ∧
        (∀ sq : Square, sq ∈ moves ↔
          (sq = ⟨6 + pawnDir Side.w, 4⟩ ∧
            (0 ≤ sq.row ∧ sq.row < 8 ∧ 0 ≤ sq.col ∧ sq.col < 8) ∧
            pieceAt initBoardState sq.row sq.col = none) ∨
          (sq = ⟨6 + pawnDir Side.w, 4 - 1⟩ ∧
            (0 ≤ sq.row ∧ sq.row < 8 ∧ 0 ≤ sq.col ∧ sq.col < 8) ∧
            ∃ q, pieceAt initBoardState sq.row sq.col = some q ∧ q.color ≠ Side.w) ∨
          (sq = ⟨6 + pawnDir Side.w, 4 + 1⟩ ∧
            (0 ≤ sq.row ∧ sq.row < 8 ∧ 0 ≤ sq.col ∧ sq.col < 8) ∧
            ∃ q, pieceAt initBoardState sq.row sq.col = some q ∧ q.color ≠ Side.w)) ∧
        (⟨6 + 2 * pawnDir Side.w, 4⟩ : Square) ∉ moves ∧
        (∀ sq ∈ moves, sq.row = 6 + pawnDir Side.w) ∧
        (∀ sq ∈ moves, sq.col = 4 → pieceAt initBoardState sq.row sq.col = none) ∧
        (∀ sq ∈ moves, sq.col ≠ 4 →
          ∃ q, pieceAt initBoardState sq.row sq.col = some q ∧ q.color ≠ Side.w) :=
  ⟨by decide, by decide, by decide,
    pawn_moves_exact initBoardState 6 4 ⟨Side.w, Kind.P⟩ (by decide) (by decide) (by decide)
      (by decide) rfl⟩

theorem mem_knightDeltas (dr dc : Int) :
    (dr, dc) ∈ knightDeltas ↔
      ((dr = 1 ∨ dr = -1) ∧ (dc = 2 ∨ dc = -2)) ∨ ((dr = 2 ∨ dr = -2) ∧ (dc = 1 ∨ dc = -1)) := by
  simp only [knightDeltas, List.mem_cons, List.mem_singleton, List.not_mem_nil, or_false,
    Prod.mk.injEq]
  omega

/-- C5: for a knight on an on-board square of an 8x8 board, `getLegalMoves`
returns exactly the squares at an offset `(+-1, +-2)` or `(+-2, +-1)` that are on
the board and are empty or hold an opposing piece. -/
theorem knight_moves_exact (boardState : Board) (row col : Int) (p : Piece)
    (hb : boardState.wellFormed) (hrow : 0 ≤ row ∧ row < 8) (hcol : 0 ≤ col ∧ col < 8)
    (hp : pieceAt boardState row col = some p) (hk : p.type = Kind.N) :
    ∃ moves, getLegalMoves boardState row col = .ok moves ∧
      ∀ sq : Square, sq ∈ moves ↔
        ∃ dr dc : Int,
          (((dr = 1 ∨ dr = -1) ∧ (dc = 2 ∨ dc = -2)) ∨
            ((dr = 2 ∨ dr = -2) ∧ (dc = 1 ∨ dc = -1))) ∧
          sq = ⟨row + dr, col + dc⟩ ∧
          (0 ≤ sq.row ∧ sq.row < 8 ∧ 0 ≤ sq.col ∧ sq.col < 8) ∧
          (pieceAt boardState sq.row sq.col = none ∨
            ∃ q, pieceAt boardState sq.row sq.col = some q ∧ q.color ≠ p.color) := by
  have hon : isOnBoard row col = true :=
    (isOnBoard_iff row col).2 ⟨hrow.1, hrow.2, hcol.1, hcol.2⟩
  refine ⟨_, (getLegalMoves_knight hb hon hp hk).trans
    (deltaMoves_eq hb row col p.color knightDeltas []), ?_⟩
  intro sq
  obtain ⟨moves, hm, hiff⟩ := mem_deltaMoves hb row col p.color knightDeltas sq
  rw [deltaMoves_eq hb row col p.color knightDeltas []] at hm
  cases hm
  rw [hiff]
  constructor
  · rintro ⟨⟨dr, dc⟩, hd, h1, h2, h3⟩
    exact ⟨dr, dc, (mem_knightDeltas dr dc).1 hd, h1, (isOnBoard_iff _ _).1 h2, h3⟩
  · rintro ⟨dr, dc, hd, h1, h2, h3⟩
    exact ⟨(dr, dc), (mem_knightDeltas dr dc).2 hd, h1, (isOnBoard_iff _ _).2 h2, h3⟩

/-- Witness for C5: a knight alone on `(4, 4)` gets exactly its eight squares. -/
theorem knight_moves_exact_witness :
    getLegalMoves (soloBoard ⟨Side.w, Kind.N⟩) 4 4 =
        .ok [⟨2, 3⟩, ⟨2, 5⟩, ⟨3, 2⟩, ⟨3, 6⟩, ⟨5, 2⟩, ⟨5, 6⟩, ⟨6, 3⟩, ⟨6, 5⟩] ∧
      getLegalMoves (soloBoard ⟨Side.b, Kind.N⟩) 4 4 =
        .ok [⟨2, 3⟩, ⟨2, 5⟩, ⟨3, 2⟩, ⟨3, 6⟩, ⟨5, 2⟩, ⟨5, 6⟩, ⟨6, 3⟩, ⟨6, 5⟩] ∧
      (soloBoard ⟨Side.w, Kind.N⟩).wellFormed ∧
      pieceAt (soloBoard ⟨Side.w, Kind.N⟩) 4 4 = some ⟨Side.w, Kind.N⟩ ∧
      ∃ moves, getLegalMoves (soloBoard ⟨Side.w, Kind.N⟩) 4 4 = .ok moves ∧
        ∀ sq : Square, sq ∈ moves ↔
          ∃ dr dc : Int,
            (((dr = 1 ∨ dr = -1) ∧ (dc = 2 ∨ dc = -2)) ∨
              ((dr = 2 ∨ dr = -2) ∧ (dc = 1 ∨ dc = -1))) ∧
            sq = ⟨4 + dr, 4 + dc⟩ ∧
            (0 ≤ sq.row ∧ sq.row < 8 ∧ 0 ≤ sq.col ∧ sq.col < 8) ∧
            (pieceAt (soloBoard ⟨Side.w, Kind.N⟩) sq.row sq.col = none ∨
              ∃ q, pieceAt (soloBoard ⟨Side.w, Kind.N⟩) sq.row sq.col = some q ∧
                q.color ≠ Side.w) :=
  ⟨by decide, by decide, by decide, by decide,
    knight_moves_exact (soloBoard ⟨Side.w, Kind.N⟩) 4 4 ⟨Side.w, Kind.N⟩ (by decide)
      (by decide) (by decide) (by decide) rfl⟩



/-! ## Writing the board -/

theorem pieceAt_eq_get (boardState : Board) (r c : Int) :
    pieceAt boardState r c =
      if isOnBoard r c = true then
        ((boardState[r.toNat]?).bind (fun cells => cells[c.toNat]?)).join
      else none := by
  cases hon : isOnBoard r c with
  | false => simp [pieceAt_of_offBoard boardState hon]
  | true =>
    have h := (isOnBoard_iff r c).1 hon
    simp only [pieceAt, readCell, h, and_self, if_true]
    cases h1 : boardState[r.toNat]? with
    | none => simp
    | some cells =>
      cases h2 : cells[c.toNat]? with
      | none => simp [h2]
      | some cell => simp [h2]

theorem writeCell_spec {boardState : Board} (hb : boardState.wellFormed) {r c : Int}
    (hon : isOnBoard r c = true) (v : Option Piece) :
    ∃ b', writeCell boardState r c v = .ok b' ∧ b'.wellFormed ∧
      ∀ r' c', pieceAt b' r' c' =
        if r' = r ∧ c' = c then v else pieceAt boardState r' c' := by
  have hrc := (isOnBoard_iff r c).1 hon
  obtain ⟨hlen, hrows⟩ := hb
  have hr : r.toNat < boardState.length := by omega
  have hmem : boardState[r.toNat] ∈ boardState := List.getElem_mem hr
  have hclen : (boardState[r.toNat]).length = 8 := hrows _ hmem
  have hc : c.toNat < (boardState[r.toNat]).length := by omega
  refine ⟨boardState.set r.toNat ((boardState[r.toNat]).set c.toNat v), ?_, ?_, ?_⟩
  · simp [writeCell, hrc, List.getElem?_eq_getElem hr, hc]
  · refine ⟨by simp [hlen], ?_⟩
    intro cells hcells
    rcases List.mem_or_eq_of_mem_set hcells with h | h
    · exact hrows _ h
    · rw [h]; simp [hclen]
  · intro r' c'
    rw [pieceAt_eq_get, pieceAt_eq_get boardState r' c']
    cases hon' : isOnBoard r' c' with
    | false =>
      have hne : ¬ (r' = r ∧ c' = c) := by
        rintro ⟨rfl, rfl⟩
        rw [hon] at hon'
        cases hon'
      simp [hne]
    | true =>
      have hrc' := (isOnBoard_iff r' c').1 hon'
      simp only [if_true]
      by_cases hrr : r' = r
      · subst hrr
        simp only [List.getElem?_set_self hr, true_and, Option.some_bind]
        by_cases hcc : c' = c
        · subst hcc
          simp [List.getElem?_set_self hc]
        · have hcne : c.toNat ≠ c'.toNat := by omega
          simp [hcc, List.getElem?_set_ne hcne, List.getElem?_eq_getElem hr]
      · have hrne : r.toNat ≠ r'.toNat := by omega
        simp [hrr, List.getElem?_set_ne hrne]

/-! ## `movePiece` -/

theorem movePiece_eq (s : State) {fromRow fromCol toRow toCol : Int} {fp : Piece}
    (hb : s.boardState.wellFormed) (hfrom : isOnBoard fromRow fromCol = true)
    (hto : isOnBoard toRow toCol = true)
    (hf : pieceAt s.boardState fromRow fromCol = some fp) :
    ∃ b2, movePiece s fromRow fromCol toRow toCol =
        .ok { captureEffect s fp (pieceAt s.boardState toRow toCol) with boardState := b2 } ∧
      b2.wellFormed ∧
      ∀ r c, pieceAt b2 r c =
        if r = fromRow ∧ c = fromCol then none
        else if r = toRow ∧ c = toCol then some fp
        else pieceAt s.boardState r c := by
  obtain ⟨b1, hw1, hwf1, hp1⟩ := writeCell_spec hb hto (some fp)
  obtain ⟨b2, hw2, hwf2, hp2⟩ := writeCell_spec hwf1 hfrom none
  refine ⟨b2, ?_, hwf2, ?_⟩
  · simp only [movePiece, readCell_of_onBoard hb hto, bind, Except.bind,
      readCell_of_onBoard hb hfrom, hf, pure, Except.pure]
    cases pieceAt s.boardState toRow toCol with
    | none => simp [captureEffect, hw1, hw2]
    | some dp =>
      simp only [captureEffect]
      split_ifs <;> simp [hw1, hw2]
  · intro r c
    rw [hp2, hp1]

/-- C6: when the pieces on `from` and `to` are of opposite sides and the one on
`to` is a king, `movePiece` sets `gameActive` to false, adds one to the moving
side's `matches`, leaves the other side's `matches` and both sides' `points` as
they were. -/
theorem movePiece_king_capture (s : State) (fromRow fromCol toRow toCol : Int)
    (fp dp : Piece) (hb : s.boardState.wellFormed)
    (hfrom : 0 ≤ fromRow ∧ fromRow < 8 ∧ 0 ≤ fromCol ∧ fromCol < 8)
    (hto : 0 ≤ toRow ∧ toRow < 8 ∧ 0 ≤ toCol ∧ toCol < 8)
    (hf : pieceAt s.boardState fromRow fromCol = some fp)
    (hd : pieceAt s.boardState toRow toCol = some dp)
    (hopp : dp.color ≠ fp.color) (hking : dp.type = Kind.K) :
    ∃ s', movePiece s fromRow fromCol toRow toCol = .ok s' ∧
      s'.gameActive = false ∧
      (s'.scoreData.get fp.color).matchesWon = (s.scoreData.get fp.color).matchesWon + 1 ∧
      (s'.scoreData.get dp.color).matchesWon = (s.scoreData.get dp.color).matchesWon ∧
      (s'.scoreData.get fp.color).points = (s.scoreData.get fp.color).points ∧
      (s'.scoreData.get dp.color).points = (s.scoreData.get dp.color).points := by
  obtain ⟨b2, hm, -, -⟩ :=
    movePiece_eq s hb ((isOnBoard_iff _ _).2 hfrom) ((isOnBoard_iff _ _).2 hto) hf
  refine ⟨_, hm, ?_⟩
  rw [hd]
  simp only [captureEffect, hopp, hking, ne_eq, not_false_eq_true, if_true]
  cases hfc : fp.color <;> cases hdc : dp.color <;>
    simp_all [ScoreData.get, ScoreData.incMatches]

/-- Witness for C6: a white queen on `(4, 4)` takes the black king on `(4, 5)`
and the game is over. -/
theorem movePiece_king_capture_witness :
    (duelBoard ⟨Side.w, Kind.Q⟩ ⟨Side.b, Kind.K⟩).wellFormed ∧
      pieceAt (duelBoard ⟨Side.w, Kind.Q⟩ ⟨Side.b, Kind.K⟩) 4 4 = some ⟨Side.w, Kind.Q⟩ ∧
      pieceAt (duelBoard ⟨Side.w, Kind.Q⟩ ⟨Side.b, Kind.K⟩) 4 5 = some ⟨Side.b, Kind.K⟩ ∧
      getLegalMoves (duelBoard ⟨Side.w, Kind.Q⟩ ⟨Side.b, Kind.K⟩) 4 4 =
        .ok [⟨3, 3⟩, ⟨2, 2⟩, ⟨1, 1⟩, ⟨0, 0⟩, ⟨3, 5⟩, ⟨2, 6⟩, ⟨1, 7⟩, ⟨5, 3⟩, ⟨6, 2⟩, ⟨7, 1⟩,
          ⟨5, 5⟩, ⟨6, 6⟩, ⟨7, 7⟩, ⟨3, 4⟩, ⟨2, 4⟩, ⟨1, 4⟩, ⟨0, 4⟩, ⟨5, 4⟩, ⟨6, 4⟩, ⟨7, 4⟩,
          ⟨4, 3⟩, ⟨4, 2⟩, ⟨4, 1⟩, ⟨4, 0⟩, ⟨4, 5⟩] ∧
      ∃ s', movePiece (sessionOn (duelBoard ⟨Side.w, Kind.Q⟩ ⟨Side.b, Kind.K⟩)) 4 4 4 5 =
          .ok s' ∧
        s'.gameActive = false ∧
        (s'.scoreData.get Side.w).matchesWon =
          ((sessionOn (duelBoard ⟨Side.w, Kind.Q⟩ ⟨Side.b, Kind.K⟩)).scoreData.get
            Side.w).matchesWon + 1 ∧
        (s'.scoreData.get Side.b).matchesWon =
          ((sessionOn (duelBoard ⟨Side.w, Kind.Q⟩ ⟨Side.b, Kind.K⟩)).scoreData.get
            Side.b).matchesWon ∧
        (s'.scoreData.get Side.w).points =
          ((sessionOn (duelBoard ⟨Side.w, Kind.Q⟩ ⟨Side.b, Kind.K⟩)).scoreData.get
            Side.w).points ∧
        (s'.scoreData.get Side.b).points =
          ((sessionOn (duelBoard ⟨Side.w, Kind.Q⟩ ⟨Side.b, Kind.K⟩)).scoreData.get
            Side.b).points :=
  ⟨by decide, by decide, by decide, by decide,
    movePiece_king_capture (sessionOn (duelBoard ⟨Side.w, Kind.Q⟩ ⟨Side.b, Kind.K⟩)) 4 4 4 5
      ⟨Side.w, Kind.Q⟩ ⟨Side.b, Kind.K⟩ (by decide) (by decide) (by decide) (by decide)
      (by decide) (by decide) rfl⟩

/-- C8: for a move with `from` occupied and `from` different from `to`, after
`movePiece` the square `to` holds the piece that was on `from`, `from` is empty,
every other square is as before, and `currentTurn` is unchanged; when `to` was
empty or held a piece of the mover's side, `scoreData` and `gameActive` are
unchanged too. -/
theorem movePiece_frame (s : State) (fromRow fromCol toRow toCol : Int) (fp : Piece)
    (hb : s.boardState.wellFormed)
    (hfrom : 0 ≤ fromRow ∧ fromRow < 8 ∧ 0 ≤ fromCol ∧ fromCol < 8)
    (hto : 0 ≤ toRow ∧ toRow < 8 ∧ 0 ≤ toCol ∧ toCol < 8)
    (hf : pieceAt s.boardState fromRow fromCol = some fp)
    (hne : ¬ (fromRow = toRow ∧ fromCol = toCol)) :
    ∃ s', movePiece s fromRow fromCol toRow toCol = .ok s' ∧
      pieceAt s'.boardState toRow toCol = some fp ∧
      pieceAt s'.boardState fromRow fromCol = none ∧
      (∀ r c, ¬ (r = fromRow ∧ c = fromCol) → ¬ (r = toRow ∧ c = toCol) →
        pieceAt s'.boardState r c = pieceAt s.boardState r c) ∧
      s'.boardState.wellFormed ∧
      s'.currentTurn = s.currentTurn ∧
      ((pieceAt s.boardState toRow toCol = none ∨
          ∃ q, pieceAt s.boardState toRow toCol = some q ∧ q.color = fp.color) →
        s'.scoreData = s.scoreData ∧ s'.gameActive = s.gameActive) := by
  obtain ⟨b2, hm, hwf, hcells⟩ :=
    movePiece_eq s hb ((isOnBoard_iff _ _).2 hfrom) ((isOnBoard_iff _ _).2 hto) hf
  have hne' : ¬ (toRow = fromRow ∧ toCol = fromCol) := fun h => hne ⟨h.1.symm, h.2.symm⟩
  refine ⟨_, hm, ?_, ?_, ?_, hwf, ?_, ?_⟩
  · simp [hcells, hne']
  · simp [hcells]
  · intro r c h1 h2
    simp [hcells, h1, h2]
  · cases pieceAt s.boardState toRow toCol with
    | none => rfl
    | some dp => simp only [captureEffect]; split_ifs <;> rfl
  · rintro (h | ⟨q, hq, hcol⟩)
    · simp [h, captureEffect]
    · simp [hq, captureEffect, hcol]

/-- Witness for C8: the white king's pawn of the starting position steps forward. -/
theorem movePiece_frame_witness :
    loaded.boardState.wellFormed ∧
      pieceAt loaded.boardState 6 4 = some ⟨Side.w, Kind.P⟩ ∧
      ∃ s', movePiece loaded 6 4 5 4 = .ok s' ∧
        pieceAt s'.boardState 5 4 = some ⟨Side.w, Kind.P⟩ ∧
        pieceAt s'.boardState 6 4 = none ∧
        (∀ r c, ¬ (r = 6 ∧ c = 4) → ¬ (r = 5 ∧ c = 4) →
          pieceAt s'.boardState r c = pieceAt loaded.boardState r c) ∧
        s'.boardState.wellFormed ∧
        s'.currentTurn = loaded.currentTurn ∧
        ((pieceAt loaded.boardState 5 4 = none ∨
            ∃ q, pieceAt loaded.boardState 5 4 = some q ∧ q.color = Side.w) →
          s'.scoreData = loaded.scoreData ∧ s'.gameActive = loaded.gameActive) :=
  ⟨by decide, by decide,
    movePiece_frame loaded 6 4 5 4 ⟨Side.w, Kind.P⟩ (by decide) (by decide) (by decide)
      (by decide) (by decide)⟩

/-! ## `handleCellClick` -/

theorem any_square_iff (moves : List Square) (row col : Int) :
    moves.any (fun m => decide (m.row = row) && decide (m.col = col)) = true ↔
      (⟨row, col⟩ : Square) ∈ moves := by
  simp only [List.any_eq_true, Bool.and_eq_true, decide_eq_true_eq]
  constructor
  · rintro ⟨⟨r, c⟩, hm, h1, h2⟩
    simp only at h1 h2
    subst h1 h2
    exact hm
  · intro h
    exact ⟨_, h, rfl, rfl⟩

theorem getLegalMoves_ok {boardState : Board} (hb : boardState.wellFormed) {row col : Int}
    (hon : isOnBoard row col = true) :
    ∃ moves, getLegalMoves boardState row col = .ok moves := by
  obtain ⟨moves, hm, -⟩ := getLegalMoves_sound hb hon
  exact ⟨moves, hm⟩

theorem selectIfOwn_eq (s : State) (hb : s.boardState.wellFormed) (piece : Option Piece)
    {row col : Int} (hon : isOnBoard row col = true) (clear : Bool) :
    selectIfOwn s piece row col clear =
      .ok { s with selectedCell :=
        if (∃ p, piece = some p ∧ p.color = s.currentTurn) then some ⟨row, col⟩
        else s.selectedCell } := by
  obtain ⟨moves, hm⟩ := getLegalMoves_ok hb hon
  cases piece with
  | none => simp [selectIfOwn, pure, Except.pure]
  | some p =>
    by_cases hc : p.color = s.currentTurn
    · cases clear <;>
        simp [selectIfOwn, hc, clearHighlights, hm, bind, Except.bind, pure, Except.pure]
    · simp [selectIfOwn, hc, pure, Except.pure]

theorem handleCellClick_ended (s : State) (row col : Int) (h : s.gameActive = false) :
    handleCellClick s row col = .ok s := by
  simp [handleCellClick, h, pure, Except.pure]

theorem handleCellClick_unselected (s : State) (hb : s.boardState.wellFormed) {row col : Int}
    (hon : isOnBoard row col = true) (hact : s.gameActive = true)
    (hsel : s.selectedCell = none) :
    handleCellClick s row col =
      .ok { s with selectedCell :=
        if (∃ p, pieceAt s.boardState row col = some p ∧ p.color = s.currentTurn)
          then some ⟨row, col⟩ else s.selectedCell } := by
  simp only [handleCellClick, hact, readCell_of_onBoard hb hon, bind, Except.bind, hsel,
    selectIfOwn_eq s hb _ hon]
  simp

theorem handleCellClick_same (s : State) (hb : s.boardState.wellFormed) {row col : Int}
    (hon : isOnBoard row col = true) (hact : s.gameActive = true)
    (hsel : s.selectedCell = some ⟨row, col⟩) :
    handleCellClick s row col = .ok (clearHighlights s) := by
  simp [handleCellClick, hact, readCell_of_onBoard hb hon, bind, Except.bind, hsel, pure,
    Except.pure]

theorem handleCellClick_reselect (s : State) (hb : s.boardState.wellFormed) {row col : Int}
    (hon : isOnBoard row col = true) (hact : s.gameActive = true) {sel : Square}
    (hsel : s.selectedCell = some sel) (hne : ¬ (sel.row = row ∧ sel.col = col))
    {moves : List Square} (hm : getLegalMoves s.boardState sel.row sel.col = .ok moves)
    (hnot : (⟨row, col⟩ : Square) ∉ moves) :
    handleCellClick s row col =
      .ok { s with selectedCell :=
        if (∃ p, pieceAt s.boardState row col = some p ∧ p.color = s.currentTurn)
          then some ⟨row, col⟩ else s.selectedCell } := by
  have hany : moves.any (fun m => decide (m.row = row) && decide (m.col = col)) = false := by
    rw [← Bool.not_eq_true, any_square_iff]
    exact hnot
  simp only [handleCellClick, hact, readCell_of_onBoard hb hon, bind, Except.bind, hsel, hne,
    hm, hany, selectIfOwn_eq s hb _ hon]
  simp

theorem handleCellClick_move (s : State) (hb : s.boardState.wellFormed) {row col : Int}
    (hon : isOnBoard row col = true) (hact : s.gameActive = true) {sel : Square}
    (hsel : s.selectedCell = some sel) (hne : ¬ (sel.row = row ∧ sel.col = col))
    {moves : List Square} (hm : getLegalMoves s.boardState sel.row sel.col = .ok moves)
    (hmem : (⟨row, col⟩ : Square) ∈ moves) :
    handleCellClick s row col =
      (movePiece s sel.row sel.col row col).map
        (fun s' => switchTurn { clearHighlights s' with selectedCell := none }) := by
  have hany : moves.any (fun m => decide (m.row = row) && decide (m.col = col)) = true :=
    (any_square_iff moves row col).2 hmem
  simp only [handleCellClick, hact, readCell_of_onBoard hb hon, bind, Except.bind, hsel, hne,
    hm, hany]
  cases movePiece s sel.row sel.col row col <;> simp [Except.map, pure, Except.pure]

/-- C9 (the part the code breaks): a session against the computer reaches, by
clicks and scheduled computer moves only, a state in which the game is over
(`gameActive` false) while one `computerMove` is still pending.  There every
click is rejected, the state staying as it is, but the pending `computerMove` is
not: it moves the knight from `(0, 1)` to `(2, 0)` and flips the turn, so
`boardState` and `currentTurn` change after the game has ended. -/
theorem computerMove_after_game_over :
    ∃ s, run computerSession kingCapturedTrace = .ok s ∧
      s.gameActive = false ∧ s.pendingTimers = 1 ∧
      (∀ row col, handleCellClick s row col = .ok s) ∧
      ∃ s', computerMove s ⟨0, 1⟩ = .ok s' ∧
        pieceAt s.boardState 0 1 = some ⟨Side.b, Kind.N⟩ ∧
        pieceAt s'.boardState 0 1 = none ∧
        s'.boardState ≠ s.boardState ∧ s'.currentTurn ≠ s.currentTurn := by
  have h1 : (run computerSession kingCapturedTrace).toOption.map
      (fun s => (s.gameActive, s.pendingTimers, pieceAt s.boardState 0 1, s.currentTurn)) =
        some (false, 1, some ⟨Side.b, Kind.N⟩, Side.w) := by decide
  have h2 : ((run computerSession kingCapturedTrace).toOption.bind
      (fun s => (computerMove s ⟨0, 1⟩).toOption)).map
      (fun s => (pieceAt s.boardState 0 1, s.currentTurn)) = some (none, Side.b) := by decide
  cases hrun : run computerSession kingCapturedTrace with
  | error e => simp [hrun, Except.toOption] at h1
  | ok s =>
    simp only [hrun, Except.toOption, Option.map_some', Option.some.injEq, Prod.mk.injEq] at h1
    obtain ⟨hact, hpend, hknight, hturn⟩ := h1
    refine ⟨s, rfl, hact, hpend, fun row col => handleCellClick_ended s row col hact, ?_⟩
    cases hcm : computerMove s ⟨0, 1⟩ with
    | error e => simp [hrun, hcm, Except.toOption] at h2
    | ok s' =>
      simp only [hrun, hcm, Except.toOption, Option.some_bind, Option.map_some',
        Option.some.injEq, Prod.mk.injEq] at h2
      refine ⟨s', rfl, hknight, h2.1, ?_, ?_⟩
      · intro hEq
        rw [hEq, hknight] at h2
        exact absurd h2.1 (by simp)
      · rw [h2.2, hturn]
        decide

theorem handleCellClick_no_move (s : State) (row col : Int)
    (hb : s.boardState.wellFormed) (hon : 0 ≤ row ∧ row < 8 ∧ 0 ≤ col ∧ col < 8) :
    (∀ sel : Square, s.selectedCell = some sel →
      (0 ≤ sel.row ∧ sel.row < 8 ∧ 0 ≤ sel.col ∧ sel.col < 8) →
      ((∃ moves, getLegalMoves s.boardState sel.row sel.col = .ok moves ∧
          (⟨row, col⟩ : Square) ∉ moves) ∨
        pieceAt s.boardState sel.row sel.col = none) →
      ∃ s', handleCellClick s row col = .ok s' ∧
        s'.boardState = s.boardState ∧ s'.scoreData = s.scoreData ∧
        s'.currentTurn = s.currentTurn ∧ s'.gameActive = s.gameActive) ∧
    (s.selectedCell = none →
      (pieceAt s.boardState row col = none ∨
        ∃ p, pieceAt s.boardState row col = some p ∧ p.color ≠ s.currentTurn) →
      handleCellClick s row col = .ok s) := by
  have hon' : isOnBoard row col = true := (isOnBoard_iff row col).2 hon
  constructor
  · intro sel hsel hselOn hrej
    have hselOn' : isOnBoard sel.row sel.col = true := (isOnBoard_iff _ _).2 hselOn
    cases hact : s.gameActive with
    | false => exact ⟨s, handleCellClick_ended s row col hact, rfl, rfl, rfl, hact⟩
    | true =>
      by_cases hsame : sel.row = row ∧ sel.col = col
      · have hsel' : s.selectedCell = some ⟨row, col⟩ := by
          rw [hsel, ← hsame.1, ← hsame.2]
        exact ⟨_, handleCellClick_same s hb hon' hact hsel', rfl, rfl, rfl, hact⟩
      · have hnot : ∃ moves, getLegalMoves s.boardState sel.row sel.col = .ok moves ∧
            (⟨row, col⟩ : Square) ∉ moves := by
          rcases hrej with h | h
          · exact h
          · exact ⟨[], getLegalMoves_empty hb hselOn' h, by simp⟩
        obtain ⟨moves, hm, hnm⟩ := hnot
        exact ⟨_, handleCellClick_reselect s hb hon' hact hsel hsame hm hnm, rfl, rfl, rfl,
          hact⟩
  · intro hsel hother
    cases hact : s.gameActive with
    | false => exact handleCellClick_ended s row col hact
    | true =>
      rw [handleCellClick_unselected s hb hon' hact hsel]
      have hno : ¬ ∃ p, pieceAt s.boardState row col = some p ∧ p.color = s.currentTurn := by
        rintro ⟨p, hp, hc⟩
        rcases hother with h | ⟨q, hq, hne⟩
        · rw [h] at hp; cases hp
        · rw [hq] at hp; cases hp; exact hne hc
      simp [hno]

/-! ## `computerMove`: the candidate list -/

theorem collectRow_succ {boardState : Board} (hb : boardState.wellFormed) {row col : Int}
    (hon : isOnBoard row col = true) :
    ∃ here, (∀ (n : Nat) (moves : List (Square × Square)),
        collectRow boardState row (n + 1) col moves =
          collectRow boardState row n (col + 1) (moves ++ here)) ∧
      ∀ mv : Square × Square, mv ∈ here ↔
        (mv.1.row = row ∧ mv.1.col = col) ∧
          holdsSide boardState Side.b mv.1 ∧ IsLegal boardState mv.1 mv.2 := by
  obtain ⟨legal, hlegal⟩ := getLegalMoves_ok hb hon
  cases hp : pieceAt boardState row col with
  | none =>
    refine ⟨[], ?_, ?_⟩
    · intro n moves
      simp [collectRow, readCell_of_onBoard hb hon, hp, bind, Except.bind, pure, Except.pure]
    · rintro ⟨⟨r, c⟩, dst⟩
      simp only [List.not_mem_nil, false_iff, holdsSide]
      rintro ⟨⟨h1, h2⟩, ⟨p, hp', -⟩, -⟩
      cases h1
      cases h2
      rw [hp] at hp'
      cases hp'
  | some p =>
    by_cases hc : p.color = Side.b
    · refine ⟨legal.map (fun m => ((⟨row, col⟩ : Square), m)), ?_, ?_⟩
      · intro n moves
        simp [collectRow, readCell_of_onBoard hb hon, hp, hc, hlegal, bind, Except.bind, pure,
          Except.pure]
      · rintro ⟨⟨r, c⟩, dst⟩
        simp only [List.mem_map, Prod.mk.injEq, holdsSide, IsLegal]
        constructor
        · rintro ⟨m, hm, h1, rfl⟩
          cases h1
          exact ⟨⟨rfl, rfl⟩, ⟨p, hp, hc⟩, legal, hlegal, hm⟩
        · rintro ⟨⟨h1, h2⟩, -, moves', hm', hmem⟩
          cases h1
          cases h2
          rw [hlegal] at hm'
          cases hm'
          exact ⟨dst, hmem, rfl, rfl⟩
    · refine ⟨[], ?_, ?_⟩
      · intro n moves
        simp [collectRow, readCell_of_onBoard hb hon, hp, hc, bind, Except.bind, pure,
          Except.pure]
      · rintro ⟨⟨r, c⟩, dst⟩
        simp only [List.not_mem_nil, false_iff, holdsSide]
        rintro ⟨⟨h1, h2⟩, ⟨q, hq, hqc⟩, -⟩
        cases h1
        cases h2
        rw [hp] at hq
        cases hq
        exact hc hqc

theorem collectRow_spec {boardState : Board} (hb : boardState.wellFormed) {row : Int}
    (hrow : 0 ≤ row ∧ row < 8) (n : Nat) :
    ∀ (col : Int) (moves : List (Square × Square)), 0 ≤ col → col + n ≤ 8 →
    ∃ out, collectRow boardState row n col moves = .ok (moves ++ out) ∧
      ∀ mv : Square × Square, mv ∈ out ↔
        (mv.1.row = row ∧ col ≤ mv.1.col ∧ mv.1.col < col + n) ∧
          holdsSide boardState Side.b mv.1 ∧ IsLegal boardState mv.1 mv.2 := by
  induction n with
  | zero =>
    intro col moves _ _
    refine ⟨[], by simp [collectRow, pure, Except.pure], ?_⟩
    intro mv
    simp only [List.not_mem_nil, false_iff, Nat.cast_zero, add_zero]
    rintro ⟨⟨-, h1, h2⟩, -⟩
    omega
  | succ n ih =>
    intro col moves hcol hlim
    have hon : isOnBoard row col = true := by
      rw [isOnBoard_iff]; push_cast at hlim; omega
    have hnext : col + 1 + (n : Int) ≤ 8 := by push_cast at hlim; omega
    obtain ⟨here, hhere, hmemHere⟩ := collectRow_succ hb hon
    obtain ⟨out, hout, hmemOut⟩ := ih (col + 1) (moves ++ here) (by omega) hnext
    refine ⟨here ++ out, ?_, ?_⟩
    · rw [hhere, hout, List.append_assoc]
    · intro mv
      rw [List.mem_append, hmemHere, hmemOut]
      push_cast
      constructor
      · rintro (⟨⟨h1, h2⟩, h3⟩ | ⟨⟨h1, h2, h4⟩, h3⟩)
        · exact ⟨⟨h1, by omega, by omega⟩, h3⟩
        · exact ⟨⟨h1, by omega, by omega⟩, h3⟩
      · rintro ⟨⟨h1, h2, h4⟩, h3⟩
        by_cases hcc : mv.1.col = col
        · exact Or.inl ⟨⟨h1, hcc⟩, h3⟩
        · exact Or.inr ⟨⟨h1, by omega, by omega⟩, h3⟩

theorem collectRows_spec {boardState : Board} (hb : boardState.wellFormed) (n : Nat) :
    ∀ (row : Int) (moves : List (Square × Square)), 0 ≤ row → row + n ≤ 8 →
    ∃ out, collectRows boardState n row moves = .ok (moves ++ out) ∧
      ∀ mv : Square × Square, mv ∈ out ↔
        ((row ≤ mv.1.row ∧ mv.1.row < row + n) ∧ 0 ≤ mv.1.col ∧ mv.1.col < 8) ∧
          holdsSide boardState Side.b mv.1 ∧ IsLegal boardState mv.1 mv.2 := by
  induction n with
  | zero =>
    intro row moves _ _
    refine ⟨[], by simp [collectRows, pure, Except.pure], ?_⟩
    intro mv
    simp only [List.not_mem_nil, false_iff, Nat.cast_zero, add_zero]
    rintro ⟨⟨⟨h1, h2⟩, -⟩, -⟩
    omega
  | succ n ih =>
    intro row moves hrow hlim
    have hnext : row + 1 + (n : Int) ≤ 8 := by push_cast at hlim; omega
    have hrow' : 0 ≤ row ∧ row < 8 := by push_cast at hlim; omega
    obtain ⟨here, hhere, hmemHere⟩ := collectRow_spec hb hrow' 8 0 moves (le_refl 0) (by simp)
    obtain ⟨out, hout, hmemOut⟩ := ih (row + 1) (moves ++ here) (by omega) hnext
    refine ⟨here ++ out, ?_, ?_⟩
    · simp only [collectRows, hhere, bind, Except.bind, hout, List.append_assoc]
    · intro mv
      rw [List.mem_append, hmemHere, hmemOut]
      push_cast
      constructor
      · rintro (⟨⟨h1, h2, h4⟩, h3⟩ | ⟨⟨⟨h1, h2⟩, h4⟩, h3⟩)
        · exact ⟨⟨⟨by omega, by omega⟩, h2, by omega⟩, h3⟩
        · exact ⟨⟨⟨by omega, by omega⟩, h4⟩, h3⟩
      · rintro ⟨⟨⟨h1, h2⟩, h4, h5⟩, h3⟩
        by_cases hrr : mv.1.row = row
        · exact Or.inl ⟨⟨hrr, h4, by omega⟩, h3⟩
        · exact Or.inr ⟨⟨⟨by omega, by omega⟩, h4, h5⟩, h3⟩

theorem candidates_spec {boardState : Board} (hb : boardState.wellFormed) :
    ∃ cands, collectRows boardState 8 0 [] = .ok cands ∧
      ∀ mv : Square × Square, mv ∈ cands ↔
        isOnBoard mv.1.row mv.1.col = true ∧ holdsSide boardState Side.b mv.1 ∧
          IsLegal boardState mv.1 mv.2 := by
  obtain ⟨out, hout, hmem⟩ := collectRows_spec hb 8 0 [] (le_refl 0) (by simp)
  refine ⟨out, by simpa using hout, ?_⟩
  intro mv
  rw [hmem, isOnBoard_iff]
  push_cast
  constructor
  · rintro ⟨⟨⟨h1, h2⟩, h3, h4⟩, h5⟩
    exact ⟨⟨h1, by omega, h3, h4⟩, h5⟩
  · rintro ⟨⟨h1, h2, h3, h4⟩, h5⟩
    exact ⟨⟨⟨h1, by omega⟩, h3, h4⟩, h5⟩

theorem excessBits_small (fuel a : Nat) (h : a < 2 ^ 53) : excessBits fuel a = 0 := by
  cases fuel with
  | zero => rfl
  | succ f => rw [excessBits, if_pos h]

theorem excessBits_le (fuel : Nat) : ∀ a : Nat,
    excessBits fuel a = 0 ∨ 2 ^ 53 * 2 ^ (excessBits fuel a - 1) ≤ a := by
  induction fuel with
  | zero => intro a; exact Or.inl rfl
  | succ f ih =>
    intro a
    by_cases h : a < 2 ^ 53
    · exact Or.inl (excessBits_small _ a h)
    · right
      rw [excessBits, if_neg h, Nat.add_sub_cancel]
      by_cases hx : excessBits f (a / 2) = 0
      · rw [hx, pow_zero, Nat.mul_one]
        exact Nat.le_of_not_lt h
      · rcases ih (a / 2) with h0 | h1
        · exact absurd h0 hx
        · obtain ⟨k, hk⟩ := Nat.exists_eq_succ_of_ne_zero hx
          rw [hk] at h1 ⊢
          rw [Nat.succ_sub_one] at h1
          have h2 : 2 * (a / 2) ≤ a := Nat.mul_div_le a 2
          calc 2 ^ 53 * 2 ^ (k + 1) = 2 * (2 ^ 53 * 2 ^ k) := by ring
            _ ≤ 2 * (a / 2) := Nat.mul_le_mul_left 2 h1
            _ ≤ a := h2

theorem excessBits_mantissa (fuel : Nat) : ∀ a : Nat, a ≤ fuel →
    a / 2 ^ excessBits fuel a < 2 ^ 53 := by
  induction fuel with
  | zero =>
    intro a ha
    have : a = 0 := by omega
    subst this
    rw [excessBits, pow_zero, Nat.div_one]
    exact Nat.pow_pos (by decide)
  | succ f ih =>
    intro a ha
    by_cases h : a < 2 ^ 53
    · rw [excessBits, if_pos h, pow_zero, Nat.div_one]
      exact h
    · rw [excessBits, if_neg h]
      have h2 : a / 2 ≤ f := by
        have h53 : 2 ≤ a := le_trans (by decide : 2 ≤ 2 ^ 53) (Nat.le_of_not_lt h)
        have := Nat.div_lt_self (by omega : 0 < a) (by decide : 1 < 2)
        omega
      have := ih (a / 2) h2
      rwa [pow_succ, Nat.mul_comm, ← Nat.div_div_eq_div_mul]

theorem roundDouble_exact {a : Nat} (h : a < 2 ^ 53) : roundDouble a = a := by
  simp only [roundDouble, excessBits_small a a h, pow_zero, Nat.mod_one, Nat.mul_zero,
    Nat.div_one, Nat.mul_one]
  rfl

theorem roundDouble_le (a : Nat) :
    2 * roundDouble a ≤ 2 * a + 2 ^ excessBits a a := by
  have hdiv := Nat.div_add_mod a (2 ^ excessBits a a)
  have hdiv' : a / 2 ^ excessBits a a * 2 ^ excessBits a a + a % 2 ^ excessBits a a = a := by
    rw [Nat.mul_comm]; exact hdiv
  simp only [roundDouble]
  split_ifs with h1 h2
  · omega
  · omega
  · rw [Nat.add_mul, Nat.one_mul]
    omega

theorem roundDouble_ge (a : Nat) :
    2 * a ≤ 2 * roundDouble a + 2 ^ excessBits a a := by
  have hdiv := Nat.div_add_mod a (2 ^ excessBits a a)
  have hdiv' : a / 2 ^ excessBits a a * 2 ^ excessBits a a + a % 2 ^ excessBits a a = a := by
    rw [Nat.mul_comm]; exact hdiv
  have hlt : a % 2 ^ excessBits a a < 2 ^ excessBits a a := Nat.mod_lt _ (by positivity)
  simp only [roundDouble]
  split_ifs with h1 h2
  · omega
  · omega
  · rw [Nat.add_mul, Nat.one_mul]
    omega

theorem randomIndex_lt {rnd : Draw} (hr : rnd.inUnit) {length : Nat}
    (hl : 0 < length) : randomIndex rnd length < length := by
  obtain ⟨hm, hlt, -⟩ := hr
  unfold randomIndex
  rw [Nat.div_lt_iff_lt_mul (by positivity)]
  have hround := roundDouble_le (rnd.mant * length)
  have hprod : rnd.mant * length + length ≤ length * 2 ^ rnd.exp := by
    have : rnd.mant + 1 ≤ 2 ^ rnd.exp := hlt
    calc rnd.mant * length + length = (rnd.mant + 1) * length := by ring
      _ ≤ 2 ^ rnd.exp * length := Nat.mul_le_mul_right _ this
      _ = length * 2 ^ rnd.exp := Nat.mul_comm _ _
  have hs : 2 ^ excessBits (rnd.mant * length) (rnd.mant * length) < 2 * length := by
    rcases excessBits_le (rnd.mant * length) (rnd.mant * length) with h0 | h1
    · rw [h0]; simp; omega
    · have hlt2 : rnd.mant * length < 2 ^ 53 * length := Nat.mul_lt_mul_of_pos_right hm hl
      have h3 : 2 ^ 53 * 2 ^ (excessBits (rnd.mant * length) (rnd.mant * length) - 1) <
          2 ^ 53 * length := lt_of_le_of_lt h1 hlt2
      have h4 : 2 ^ (excessBits (rnd.mant * length) (rnd.mant * length) - 1) < length :=
        Nat.lt_of_mul_lt_mul_left h3
      have hpos : excessBits (rnd.mant * length) (rnd.mant * length) ≠ 0 ∨
          excessBits (rnd.mant * length) (rnd.mant * length) = 0 := by omega
      rcases hpos with hp | hp
      · have : 2 ^ excessBits (rnd.mant * length) (rnd.mant * length) =
            2 * 2 ^ (excessBits (rnd.mant * length) (rnd.mant * length) - 1) := by
          obtain ⟨k, hk⟩ := Nat.exists_eq_succ_of_ne_zero hp
          rw [hk]
          simp [pow_succ, Nat.mul_comm]
        omega
      · rw [hp]; simp; omega
  omega

theorem computerMove_spec (s : State) (hb : s.boardState.wellFormed) {rnd : Draw}
    (hr : rnd.inUnit) :
    ∃ cands, collectRows s.boardState 8 0 [] = .ok cands ∧
      (cands = [] → computerMove s rnd = .ok s) ∧
      (cands ≠ [] → ∃ mv, cands[randomIndex rnd cands.length]? = some mv ∧ mv ∈ cands ∧
        computerMove s rnd =
          (movePiece s mv.1.row mv.1.col mv.2.row mv.2.col).map switchTurn) := by
  obtain ⟨cands, hc, -⟩ := candidates_spec hb
  refine ⟨cands, hc, ?_, ?_⟩
  · intro hnil
    simp [computerMove, hc, hnil, bind, Except.bind, pure, Except.pure]
  · intro hne
    have hlen : 0 < cands.length := List.length_pos.2 hne
    have hidx := randomIndex_lt hr hlen
    refine ⟨cands[randomIndex rnd cands.length], List.getElem?_eq_getElem hidx,
      List.getElem_mem hidx, ?_⟩
    have hlen0 : cands.length ≠ 0 := by omega
    simp only [computerMove, hc, bind, Except.bind, hlen0, if_false,
      List.getElem?_eq_getElem hidx]
    cases movePiece s cands[randomIndex rnd cands.length].1.row
      cands[randomIndex rnd cands.length].1.col cands[randomIndex rnd cands.length].2.row
      cands[randomIndex rnd cands.length].2.col <;> simp [Except.map, pure, Except.pure]

/-! ## Points and captured material -/

theorem orDefault_pieceValues {k : Kind} (hk : k ≠ Kind.K) :
    orDefault (pieceValues k) 1 = materialValue k := by
  cases k <;> first | rfl | exact absurd rfl hk

theorem captureEffect_points (s : State) (fp : Piece) (dest : Option Piece) (side : Side) :
    ((captureEffect s fp dest).scoreData.get side).points =
      (s.scoreData.get side).points +
        (match dest with
          | some dp =>
            if fp.color = side ∧ dp.color ≠ fp.color ∧ dp.type ≠ Kind.K then
              materialValue dp.type
            else 0
          | none => 0) := by
  cases dest with
  | none => simp [captureEffect]
  | some dp =>
    simp only [captureEffect]
    by_cases hopp : dp.color = fp.color
    · simp [hopp]
    · by_cases hk : dp.type = Kind.K
      · cases hfc : fp.color <;> cases side <;>
          simp_all [ScoreData.get, ScoreData.incMatches]
      · rw [if_pos hopp, if_neg hk, orDefault_pieceValues hk]
        cases hfc : fp.color <;> cases side <;>
          simp_all [ScoreData.get, ScoreData.addPoints]

theorem movePiece_points (s : State) {fromRow fromCol toRow toCol : Int} {fp : Piece}
    (hb : s.boardState.wellFormed) (hfrom : isOnBoard fromRow fromCol = true)
    (hto : isOnBoard toRow toCol = true)
    (hf : pieceAt s.boardState fromRow fromCol = some fp) :
    ∃ s', movePiece s fromRow fromCol toRow toCol = .ok s' ∧ s'.boardState.wellFormed ∧
      ∀ side, (s'.scoreData.get side).points =
        (s.scoreData.get side).points +
          captureValue s side (⟨fromRow, fromCol⟩, ⟨toRow, toCol⟩) := by
  obtain ⟨b2, hm, hwf, -⟩ := movePiece_eq s hb hfrom hto hf
  refine ⟨_, hm, hwf, ?_⟩
  intro side
  have := captureEffect_points s fp (pieceAt s.boardState toRow toCol) side
  simp only [captureValue, hf]
  rw [this]
  cases pieceAt s.boardState toRow toCol <;> rfl

theorem switchTurn_scoreData (s : State) : (switchTurn s).scoreData = s.scoreData := by
  simp only [switchTurn, clearHighlights]
  split_ifs <;> rfl

theorem switchTurn_boardState (s : State) : (switchTurn s).boardState = s.boardState := by
  simp only [switchTurn, clearHighlights]
  split_ifs <;> rfl

theorem switchTurn_selectedCell (s : State) : (switchTurn s).selectedCell = none := by
  simp only [switchTurn, clearHighlights]
  split_ifs <;> rfl

theorem isLegal_source_piece {boardState : Board} (hb : boardState.wellFormed) {src dst : Square}
    (hon : isOnBoard src.row src.col = true) (h : IsLegal boardState src dst) :
    isOnBoard dst.row dst.col = true ∧ ∃ p, pieceAt boardState src.row src.col = some p := by
  obtain ⟨moves, hm, hmem⟩ := h
  obtain ⟨moves', hm', hall⟩ := getLegalMoves_sound hb hon
  rw [hm] at hm'
  cases hm'
  obtain ⟨h1, p, hp, -⟩ := hall dst hmem
  exact ⟨h1, p, hp⟩

theorem click_points (s : State) (hs : s.sound) {row col : Int}
    (hon : 0 ≤ row ∧ row < 8 ∧ 0 ≤ col ∧ col < 8) :
    ∃ s', handleCellClick s row col = .ok s' ∧ s'.sound ∧
      ∀ side, (s'.scoreData.get side).points =
        (s.scoreData.get side).points +
          (match appliedMove s (Event.click row col) with
            | some mv => captureValue s side mv
            | none => 0) := by
  obtain ⟨hb, hselOn⟩ := hs
  have hon' : isOnBoard row col = true := (isOnBoard_iff row col).2 hon
  cases hact : s.gameActive with
  | false =>
    refine ⟨s, handleCellClick_ended s row col hact, ⟨hb, hselOn⟩, ?_⟩
    simp [appliedMove, hact]
  | true =>
    cases hsel : s.selectedCell with
    | none =>
      refine ⟨_, handleCellClick_unselected s hb hon' hact hsel, ⟨hb, ?_⟩, ?_⟩
      · intro sel hsel'
        simp only [hsel] at hsel'
        split_ifs at hsel' with h
        · cases hsel'; exact hon'
      · simp [appliedMove, hact, hsel]
    | some sel =>
      have hselOn' := hselOn sel hsel
      by_cases hsame : sel.row = row ∧ sel.col = col
      · have hsel' : s.selectedCell = some ⟨row, col⟩ := by
          rw [hsel, ← hsame.1, ← hsame.2]
        refine ⟨_, handleCellClick_same s hb hon' hact hsel', ⟨hb, ?_⟩, ?_⟩
        · intro sel' h
          simp [clearHighlights] at h
        · simp [appliedMove, hact, hsel, hsame, clearHighlights]
      · obtain ⟨moves, hm⟩ := getLegalMoves_ok hb hselOn'
        by_cases hmem : (⟨row, col⟩ : Square) ∈ moves
        · obtain ⟨-, fp, hf⟩ := isLegal_source_piece hb hselOn' ⟨moves, hm, hmem⟩
          obtain ⟨s1, hmove, hwf1, hpts⟩ := movePiece_points s hb hselOn' hon' hf
          refine ⟨switchTurn { clearHighlights s1 with selectedCell := none }, ?_, ⟨?_, ?_⟩, ?_⟩
          · rw [handleCellClick_move s hb hon' hact hsel hsame hm hmem, hmove]
            rfl
          · rw [switchTurn_boardState]; exact hwf1
          · intro sel' h
            rw [switchTurn_selectedCell] at h
            cases h
          · intro side
            rw [switchTurn_scoreData]
            simp only [clearHighlights, appliedMove, hact, hsel, hsame, hm, hmem, if_true,
              if_false]
            exact hpts side
        · refine ⟨_, handleCellClick_reselect s hb hon' hact hsel hsame hm hmem, ⟨hb, ?_⟩, ?_⟩
          · intro sel' hsel'
            simp only [hsel] at hsel'
            split_ifs at hsel' with h
            · cases hsel'; exact hon'
            · cases hsel'; exact hselOn'
          · simp [appliedMove, hact, hsel, hsame, hm, hmem]

theorem timer_points (s : State) (hs : s.sound) {rnd : Draw} (hr : rnd.inUnit) :
    ∃ s', step s (Event.timer rnd) = .ok s' ∧ s'.sound ∧
      ∀ side, (s'.scoreData.get side).points =
        (s.scoreData.get side).points +
          (match appliedMove s (Event.timer rnd) with
            | some mv => captureValue s side mv
            | none => 0) := by
  obtain ⟨hb, hselOn⟩ := hs
  by_cases hp : s.pendingTimers = 0
  · exact ⟨s, by simp [step, hp, pure, Except.pure], ⟨hb, hselOn⟩, by simp [appliedMove, hp]⟩
  · have hb1 : ({ s with pendingTimers := s.pendingTimers - 1 } : State).boardState.wellFormed :=
      hb
    obtain ⟨cands, hc, hnil, hcons⟩ :=
      computerMove_spec { s with pendingTimers := s.pendingTimers - 1 } hb1 hr
    obtain ⟨cands', hc', hmemC⟩ := candidates_spec hb
    have hcc : cands' = cands := by
      have : (Except.ok cands' : Except Fault _) = .ok cands := hc'.symm.trans hc
      cases this
      rfl
    subst hcc
    by_cases hne : cands' = []
    · refine ⟨{ s with pendingTimers := s.pendingTimers - 1 }, ?_, ⟨hb, hselOn⟩, ?_⟩
      · simp only [step, hp, if_false]
        exact hnil hne
      · simp [appliedMove, hp, hc', hne]
    · obtain ⟨mv, hidx, hmem, hcm⟩ := hcons hne
      obtain ⟨hfromOn, ⟨fp, hf, -⟩, hlegal⟩ := (hmemC mv).1 hmem
      obtain ⟨htoOn, -⟩ := isLegal_source_piece hb hfromOn hlegal
      obtain ⟨s1, hmove, hwf1, hpts⟩ :=
        movePiece_points { s with pendingTimers := s.pendingTimers - 1 } hb1 hfromOn htoOn hf
      refine ⟨switchTurn s1, ?_, ⟨?_, ?_⟩, ?_⟩
      · simp only [step, hp, if_false]
        rw [hcm, hmove]
        rfl
      · rw [switchTurn_boardState]; exact hwf1
      · intro sel h
        rw [switchTurn_selectedCell] at h
        cases h
      · intro side
        rw [switchTurn_scoreData, hpts side]
        simp only [appliedMove, hp, if_false, hc', hidx]
        rfl

theorem step_points (s : State) (hs : s.sound) (e : Event) (he : e.inSession) :
    ∃ s', step s e = .ok s' ∧ s'.sound ∧
      ∀ side, (s'.scoreData.get side).points =
        (s.scoreData.get side).points +
          (match appliedMove s e with
            | some mv => captureValue s side mv
            | none => 0) := by
  cases e with
  | start mode p1 p2 p side => exact absurd he (by simp [Event.inSession])
  | click row col => exact click_points s hs he
  | timer rnd => exact timer_points s hs he
  | restart =>
    refine ⟨restart s, rfl, ⟨initBoardState_wellFormed, ?_⟩, ?_⟩
    · intro sel h
      simp [restart, clearHighlights] at h
    · intro side
      simp [restart, clearHighlights, appliedMove]

theorem run_points (es : List Event) :
    ∀ s : State, s.sound → (∀ e ∈ es, e.inSession) →
    ∃ s', run s es = .ok s' ∧ s'.sound ∧
      ∀ side, (s'.scoreData.get side).points =
        (s.scoreData.get side).points + capturedTotal side s es := by
  induction es with
  | nil =>
    intro s hs _
    exact ⟨s, rfl, hs, by simp [capturedTotal]⟩
  | cons e es ih =>
    intro s hs hall
    obtain ⟨s1, hstep, hs1, hp1⟩ := step_points s hs e (hall e (List.mem_cons_self _ _))
    obtain ⟨s2, hrun, hs2, hp2⟩ := ih s1 hs1 (fun e' he' => hall e' (List.mem_cons_of_mem _ he'))
    refine ⟨s2, by simp [run, hstep, bind, Except.bind, hrun], hs2, ?_⟩
    intro side
    rw [hp2 side, hp1 side]
    simp only [capturedTotal, hstep]
    omega

theorem startGame_sound (s0 : State) (mode : Mode) (p1 p2 p : String) (side : Side) :
    (startGame s0 mode p1 p2 p side).sound ∧
      ∀ sd, ((startGame s0 mode p1 p2 p side).scoreData.get sd).points = 0 := by
  refine ⟨⟨initBoardState_wellFormed, ?_⟩, ?_⟩
  · intro sel h
    simp [startGame, initGame] at h
  · intro sd
    cases sd <;> simp [startGame, initGame, ScoreData.get]

/-- C7: a `movePiece` that captures an opposing piece other than a king adds that
piece's material value (Pawn 1, Knight 3, Bishop 3, Rook 5, Queen 9) to the
moving side's `points` and changes no other score field; and after any sequence
of clicks, scheduled computer moves and restarts following a session start, each
side's `points` equal the total material value of the non-king pieces that side
has captured since the start. -/
theorem points_equal_captured_material :
    (materialValue Kind.P = 1 ∧ materialValue Kind.N = 3 ∧ materialValue Kind.B = 3 ∧
      materialValue Kind.R = 5 ∧ materialValue Kind.Q = 9) ∧
    (∀ (s : State) (fromRow fromCol toRow toCol : Int) (fp dp : Piece),
      s.boardState.wellFormed →
      (0 ≤ fromRow ∧ fromRow < 8 ∧ 0 ≤ fromCol ∧ fromCol < 8) →
      (0 ≤ toRow ∧ toRow < 8 ∧ 0 ≤ toCol ∧ toCol < 8) →
      pieceAt s.boardState fromRow fromCol = some fp →
      pieceAt s.boardState toRow toCol = some dp →
      dp.color ≠ fp.color → dp.type ≠ Kind.K →
      ∃ s', movePiece s fromRow fromCol toRow toCol = .ok s' ∧
        (s'.scoreData.get fp.color).points =
          (s.scoreData.get fp.color).points + materialValue dp.type ∧
        (s'.scoreData.get dp.color).points = (s.scoreData.get dp.color).points ∧
        (∀ side, (s'.scoreData.get side).matchesWon = (s.scoreData.get side).matchesWon)) ∧
    (∀ (s0 : State) (mode : Mode) (p1 p2 p : String) (side : Side) (es : List Event),
      (∀ e ∈ es, e.inSession) →
      ∃ s', run (startGame s0 mode p1 p2 p side) es = .ok s' ∧
        ∀ sd, (s'.scoreData.get sd).points =
          capturedTotal sd (startGame s0 mode p1 p2 p side) es) := by
  refine ⟨⟨rfl, rfl, rfl, rfl, rfl⟩, ?_, ?_⟩
  · intro s fromRow fromCol toRow toCol fp dp hb hfrom hto hf hd hopp hk
    obtain ⟨b2, hm, -, -⟩ :=
      movePiece_eq s hb ((isOnBoard_iff _ _).2 hfrom) ((isOnBoard_iff _ _).2 hto) hf
    refine ⟨_, hm, ?_, ?_, ?_⟩
    · have := captureEffect_points s fp (some dp) fp.color
      rw [hd]
      simpa [hopp, hk] using this
    · have := captureEffect_points s fp (some dp) dp.color
      rw [hd]
      simpa [hopp, hk, Ne.symm hopp] using this
    · intro side
      rw [hd]
      simp only [captureEffect, hopp, hk, ne_eq, not_false_eq_true, if_true, if_false]
      cases hfc : fp.color <;> cases side <;> simp [ScoreData.get, ScoreData.addPoints]
  · intro s0 mode p1 p2 p side es hall
    obtain ⟨hsound, hzero⟩ := startGame_sound s0 mode p1 p2 p side
    obtain ⟨s', hrun, -, hpts⟩ := run_points es _ hsound hall
    refine ⟨s', hrun, ?_⟩
    intro sd
    rw [hpts sd, hzero sd, Nat.zero_add]

/-- Witness for C7: a queen taking a rook gains 5 points; and in a two-player
session where white's pawn takes a pawn on d5, white has 1 point, which is the
material white has captured. -/
theorem points_equal_captured_material_witness :
    (∃ s', movePiece (sessionOn (duelBoard ⟨Side.w, Kind.Q⟩ ⟨Side.b, Kind.R⟩)) 4 4 4 5 =
        .ok s' ∧
      (s'.scoreData.get Side.w).points =
        ((sessionOn (duelBoard ⟨Side.w, Kind.Q⟩ ⟨Side.b, Kind.R⟩)).scoreData.get
          Side.w).points + 5 ∧
      (s'.scoreData.get Side.b).points =
        ((sessionOn (duelBoard ⟨Side.w, Kind.Q⟩ ⟨Side.b, Kind.R⟩)).scoreData.get
          Side.b).points ∧
      (∀ side, (s'.scoreData.get side).matchesWon =
        ((sessionOn (duelBoard ⟨Side.w, Kind.Q⟩ ⟨Side.b, Kind.R⟩)).scoreData.get
          side).matchesWon)) ∧
    (∀ e ∈ pawnCaptureTrace, e.inSession) ∧
    capturedTotal Side.w (startGame loaded Mode.human "" "" "" Side.w) pawnCaptureTrace = 1 ∧
    capturedTotal Side.b (startGame loaded Mode.human "" "" "" Side.w) pawnCaptureTrace = 0 ∧
    (∃ s', run (startGame loaded Mode.human "" "" "" Side.w) pawnCaptureTrace = .ok s' ∧
      ∀ sd, (s'.scoreData.get sd).points =
        capturedTotal sd (startGame loaded Mode.human "" "" "" Side.w) pawnCaptureTrace) :=
  ⟨points_equal_captured_material.2.1 (sessionOn (duelBoard ⟨Side.w, Kind.Q⟩ ⟨Side.b, Kind.R⟩))
      4 4 4 5 ⟨Side.w, Kind.Q⟩ ⟨Side.b, Kind.R⟩ (by decide) (by decide) (by decide)
      (by decide) (by decide) (by decide) (by decide),
    by decide, by decide, by decide,
    points_equal_captured_material.2.2 loaded Mode.human "" "" "" Side.w pawnCaptureTrace
      (by decide)⟩

/-! ## `appliedMove` is the move the handlers make -/

theorem appliedMove_click (s : State) (hs : s.sound) {row col : Int}
    (hon : 0 ≤ row ∧ row < 8 ∧ 0 ≤ col ∧ col < 8) :
    (∀ mv, appliedMove s (Event.click row col) = some mv →
      handleCellClick s row col =
        (movePiece s mv.1.row mv.1.col mv.2.row mv.2.col).map
          (fun s' => switchTurn { clearHighlights s' with selectedCell := none })) ∧
    (appliedMove s (Event.click row col) = none →
      ∃ s', handleCellClick s row col = .ok s' ∧
        s'.boardState = s.boardState ∧ s'.scoreData = s.scoreData ∧
        s'.currentTurn = s.currentTurn ∧ s'.gameActive = s.gameActive) := by
  obtain ⟨hb, hselOn⟩ := hs
  have hon' : isOnBoard row col = true := (isOnBoard_iff row col).2 hon
  cases hact : s.gameActive with
  | false =>
    refine ⟨?_, fun _ => ⟨s, handleCellClick_ended s row col hact, rfl, rfl, rfl, hact⟩⟩
    intro mv h
    simp [appliedMove, hact] at h
  | true =>
    cases hsel : s.selectedCell with
    | none =>
      refine ⟨?_, fun _ => ⟨_, handleCellClick_unselected s hb hon' hact hsel, rfl, rfl, rfl,
        hact⟩⟩
      intro mv h
      simp [appliedMove, hact, hsel] at h
    | some sel =>
      have hselOn' := hselOn sel hsel
      by_cases hsame : sel.row = row ∧ sel.col = col
      · have hsel' : s.selectedCell = some ⟨row, col⟩ := by
          rw [hsel, ← hsame.1, ← hsame.2]
        refine ⟨?_, fun _ => ⟨_, handleCellClick_same s hb hon' hact hsel', rfl, rfl, rfl,
          hact⟩⟩
        intro mv h
        simp [appliedMove, hact, hsel, hsame] at h
      · obtain ⟨moves, hm⟩ := getLegalMoves_ok hb hselOn'
        by_cases hmem : (⟨row, col⟩ : Square) ∈ moves
        · refine ⟨?_, ?_⟩
          · intro mv h
            simp [appliedMove, hact, hsel, hsame, hm, hmem] at h
            subst h
            exact handleCellClick_move s hb hon' hact hsel hsame hm hmem
          · intro h
            simp [appliedMove, hact, hsel, hsame, hm, hmem] at h
        · refine ⟨?_, fun _ => ⟨_, handleCellClick_reselect s hb hon' hact hsel hsame hm hmem,
            rfl, rfl, rfl, hact⟩⟩
          intro mv h
          simp [appliedMove, hact, hsel, hsame, hm, hmem] at h

theorem appliedMove_timer (s : State) (hs : s.sound) {rnd : Draw} (hr : rnd.inUnit) :
    (∀ mv, appliedMove s (Event.timer rnd) = some mv →
      step s (Event.timer rnd) =
        (movePiece { s with pendingTimers := s.pendingTimers - 1 }
          mv.1.row mv.1.col mv.2.row mv.2.col).map switchTurn) ∧
    (appliedMove s (Event.timer rnd) = none →
      ∃ s', step s (Event.timer rnd) = .ok s' ∧
        s'.boardState = s.boardState ∧ s'.scoreData = s.scoreData ∧
        s'.currentTurn = s.currentTurn ∧ s'.gameActive = s.gameActive) := by
  obtain ⟨hb, -⟩ := hs
  by_cases hp : s.pendingTimers = 0
  · refine ⟨?_, fun _ => ⟨s, by simp [step, hp, pure, Except.pure], rfl, rfl, rfl, rfl⟩⟩
    intro mv h
    simp [appliedMove, hp] at h
  · have hb1 : ({ s with pendingTimers := s.pendingTimers - 1 } : State).boardState.wellFormed :=
      hb
    obtain ⟨cands, hc, hnil, hcons⟩ :=
      computerMove_spec { s with pendingTimers := s.pendingTimers - 1 } hb1 hr
    have hc' : collectRows s.boardState 8 0 [] = .ok cands := hc
    by_cases hne : cands = []
    · refine ⟨?_, fun _ => ⟨{ s with pendingTimers := s.pendingTimers - 1 }, ?_, rfl, rfl, rfl,
        rfl⟩⟩
      · intro mv h
        simp [appliedMove, hp, hc', hne] at h
      · simp only [step, hp, if_false]
        exact hnil hne
    · obtain ⟨mv, hidx, -, hcm⟩ := hcons hne
      refine ⟨?_, ?_⟩
      · intro mv' h
        simp [appliedMove, hp, hc', hidx] at h
        subst h
        simp only [step, hp, if_false]
        exact hcm
      · intro h
        simp [appliedMove, hp, hc', hidx] at h

/-! ## Restart, empty squares, the king -/

/-- C12: in every state the restart handler puts the standard initial position
on the board, makes white the side to move and the game active, and leaves
`scoreData`, the points and matches of both sides, as it was. -/
theorem restart_resets_board_keeps_score (s : State) :
    step s Event.restart = .ok (restart s) ∧
      (restart s).boardState = initBoardState ∧
      (restart s).currentTurn = Side.w ∧
      (restart s).gameActive = true ∧
      (restart s).scoreData = s.scoreData ∧
      (∀ side, ((restart s).scoreData.get side).points = (s.scoreData.get side).points ∧
        ((restart s).scoreData.get side).matchesWon = (s.scoreData.get side).matchesWon) :=
  ⟨rfl, rfl, rfl, rfl, rfl, fun _ => ⟨rfl, rfl⟩⟩

/-- C17: on an 8x8 board `getLegalMoves` returns the empty list for an empty
on-board square; and its result is a function of the board and the square only:
two states with the same board give the same list, whatever `currentTurn` and
`gameActive` are. -/
theorem getLegalMoves_empty_and_turn_blind (boardState : Board) (row col : Int)
    (hb : boardState.wellFormed) (hrow : 0 ≤ row ∧ row < 8) (hcol : 0 ≤ col ∧ col < 8) :
    (pieceAt boardState row col = none → getLegalMoves boardState row col = .ok []) ∧
    (∀ s s' : State, s.boardState = boardState → s'.boardState = boardState →
      getLegalMoves s.boardState row col = getLegalMoves s'.boardState row col) ∧
    (∀ (s : State) (turn : Side) (active : Bool), s.boardState = boardState →
      getLegalMoves ({ s with currentTurn := turn, gameActive := active } : State).boardState
        row col = getLegalMoves boardState row col) := by
  have hon : isOnBoard row col = true :=
    (isOnBoard_iff row col).2 ⟨hrow.1, hrow.2, hcol.1, hcol.2⟩
  refine ⟨fun hp => getLegalMoves_empty hb hon hp, ?_, ?_⟩
  · intro s s' h h'
    rw [h, h']
  · intro s turn active h
    rw [← h]

/-- Witness for C17: in the starting position the empty square `(3, 4)` has no
destination, and the black king's pawn has its destination although white is to
move, also when the game is not active. -/
theorem getLegalMoves_empty_and_turn_blind_witness :
    initBoardState.wellFormed ∧ pieceAt initBoardState 3 4 = none ∧
      loaded.currentTurn = Side.w ∧
      getLegalMoves loaded.boardState 1 4 = .ok [⟨2, 4⟩] ∧
      getLegalMoves ({ loaded with gameActive := false } : State).boardState 1 4 =
        .ok [⟨2, 4⟩] ∧
      (pieceAt initBoardState 3 4 = none → getLegalMoves initBoardState 3 4 = .ok []) ∧
      (∀ s s' : State, s.boardState = initBoardState → s'.boardState = initBoardState →
        getLegalMoves s.boardState 3 4 = getLegalMoves s'.boardState 3 4) ∧
      (∀ (s : State) (turn : Side) (active : Bool), s.boardState = initBoardState →
        getLegalMoves ({ s with currentTurn := turn, gameActive := active } : State).boardState
          3 4 = getLegalMoves initBoardState 3 4) :=
  ⟨by decide, by decide, rfl, by decide, by decide,
    getLegalMoves_empty_and_turn_blind initBoardState 3 4 (by decide) (by decide) (by decide)⟩

theorem mem_kingDeltas (dr dc : Int) :
    (dr, dc) ∈ kingDeltas ↔
      (dr = -1 ∨ dr = 0 ∨ dr = 1) ∧ (dc = -1 ∨ dc = 0 ∨ dc = 1) ∧ ¬ (dr = 0 ∧ dc = 0) := by
  simp only [kingDeltas, List.mem_cons, List.mem_singleton, List.not_mem_nil, or_false,
    Prod.mk.injEq]
  omega

/-- C16: for a king on an on-board square of an 8x8 board, `getLegalMoves`
returns exactly the squares at an offset in `{-1, 0, 1}^2` other than `(0, 0)`
that are on the board and are empty or hold an opposing piece.  Nothing else
decides membership, so a square attacked by an opposing piece is not filtered
out; and every destination is at most one step away in row and in column. -/
theorem king_moves_exact (boardState : Board) (row col : Int) (p : Piece)
    (hb : boardState.wellFormed) (hrow : 0 ≤ row ∧ row < 8) (hcol : 0 ≤ col ∧ col < 8)
    (hp : pieceAt boardState row col = some p) (hk : p.type = Kind.K) :
    ∃ moves, getLegalMoves boardState row col = .ok moves ∧
      (∀ sq : Square, sq ∈ moves ↔
        ∃ dr dc : Int,
          ((dr = -1 ∨ dr = 0 ∨ dr = 1) ∧ (dc = -1 ∨ dc = 0 ∨ dc = 1) ∧
            ¬ (dr = 0 ∧ dc = 0)) ∧
          sq = ⟨row + dr, col + dc⟩ ∧
          (0 ≤ sq.row ∧ sq.row < 8 ∧ 0 ≤ sq.col ∧ sq.col < 8) ∧
          (pieceAt boardState sq.row sq.col = none ∨
            ∃ q, pieceAt boardState sq.row sq.col = some q ∧ q.color ≠ p.color)) ∧
      (∀ sq ∈ moves, (sq.row - row).natAbs ≤ 1 ∧ (sq.col - col).natAbs ≤ 1) := by
  have hon : isOnBoard row col = true :=
    (isOnBoard_iff row col).2 ⟨hrow.1, hrow.2, hcol.1, hcol.2⟩
  have hchar : ∀ sq : Square,
      sq ∈ ([] ++ (kingDeltas.filter
        (fun d => freeB boardState p.color (row + d.1) (col + d.2))).map
          (fun d => (⟨row + d.1, col + d.2⟩ : Square))) ↔
        ∃ dr dc : Int,
          ((dr = -1 ∨ dr = 0 ∨ dr = 1) ∧ (dc = -1 ∨ dc = 0 ∨ dc = 1) ∧
            ¬ (dr = 0 ∧ dc = 0)) ∧
          sq = ⟨row + dr, col + dc⟩ ∧
          (0 ≤ sq.row ∧ sq.row < 8 ∧ 0 ≤ sq.col ∧ sq.col < 8) ∧
          (pieceAt boardState sq.row sq.col = none ∨
            ∃ q, pieceAt boardState sq.row sq.col = some q ∧ q.color ≠ p.color) := by
    intro sq
    obtain ⟨moves, hm, hiff⟩ := mem_deltaMoves hb row col p.color kingDeltas sq
    rw [deltaMoves_eq hb row col p.color kingDeltas []] at hm
    cases hm
    rw [hiff]
    constructor
    · rintro ⟨⟨dr, dc⟩, hd, h1, h2, h3⟩
      exact ⟨dr, dc, (mem_kingDeltas dr dc).1 hd, h1, (isOnBoard_iff _ _).1 h2, h3⟩
    · rintro ⟨dr, dc, hd, h1, h2, h3⟩
      exact ⟨(dr, dc), (mem_kingDeltas dr dc).2 hd, h1, (isOnBoard_iff _ _).2 h2, h3⟩
  refine ⟨_, (getLegalMoves_king hb hon hp hk).trans
    (deltaMoves_eq hb row col p.color kingDeltas []), hchar, ?_⟩
  intro sq hsq
  obtain ⟨dr, dc, hd, h1, -, -⟩ := (hchar sq).1 hsq
  rw [h1]
  simp only
  constructor <;> omega

/-- Witness for C16: a white king on `(4, 4)` beside a black rook on `(4, 5)` gets
all eight neighbours, the rook's square and the squares `(3, 5)` and `(5, 5)` the
rook attacks included. -/
theorem king_moves_exact_witness :
    getLegalMoves (duelBoard ⟨Side.w, Kind.K⟩ ⟨Side.b, Kind.R⟩) 4 4 =
        .ok [⟨3, 3⟩, ⟨3, 4⟩, ⟨3, 5⟩, ⟨4, 3⟩, ⟨4, 5⟩, ⟨5, 3⟩, ⟨5, 4⟩, ⟨5, 5⟩] ∧
      getLegalMoves (duelBoard ⟨Side.w, Kind.K⟩ ⟨Side.b, Kind.R⟩) 4 5 =
        .ok [⟨3, 5⟩, ⟨2, 5⟩, ⟨1, 5⟩, ⟨0, 5⟩, ⟨5, 5⟩, ⟨6, 5⟩, ⟨7, 5⟩, ⟨4, 4⟩, ⟨4, 6⟩, ⟨4, 7⟩] ∧
      (duelBoard ⟨Side.w, Kind.K⟩ ⟨Side.b, Kind.R⟩).wellFormed ∧
      pieceAt (duelBoard ⟨Side.w, Kind.K⟩ ⟨Side.b, Kind.R⟩) 4 4 = some ⟨Side.w, Kind.K⟩ ∧
      ∃ moves, getLegalMoves (duelBoard ⟨Side.w, Kind.K⟩ ⟨Side.b, Kind.R⟩) 4 4 = .ok moves ∧
        (∀ sq : Square, sq ∈ moves ↔
          ∃ dr dc : Int,
            ((dr = -1 ∨ dr = 0 ∨ dr = 1) ∧ (dc = -1 ∨ dc = 0 ∨ dc = 1) ∧
              ¬ (dr = 0 ∧ dc = 0)) ∧
            sq = ⟨4 + dr, 4 + dc⟩ ∧
            (0 ≤ sq.row ∧ sq.row < 8 ∧ 0 ≤ sq.col ∧ sq.col < 8) ∧
            (pieceAt (duelBoard ⟨Side.w, Kind.K⟩ ⟨Side.b, Kind.R⟩) sq.row sq.col = none ∨
              ∃ q, pieceAt (duelBoard ⟨Side.w, Kind.K⟩ ⟨Side.b, Kind.R⟩) sq.row sq.col =
                some q ∧ q.color ≠ Side.w)) ∧
        (∀ sq ∈ moves, (sq.row - 4).natAbs ≤ 1 ∧ (sq.col - 4).natAbs ≤ 1) :=
  ⟨by decide, by decide, by decide, by decide,
    king_moves_exact (duelBoard ⟨Side.w, Kind.K⟩ ⟨Side.b, Kind.R⟩) 4 4 ⟨Side.w, Kind.K⟩
      (by decide) (by decide) (by decide) (by decide) rfl⟩

/-! ## What a move leaves alone -/

theorem captureEffect_frame (s : State) (fp : Piece) (dest : Option Piece) :
    (captureEffect s fp dest).currentTurn = s.currentTurn ∧
      (captureEffect s fp dest).gameMode = s.gameMode ∧
      (captureEffect s fp dest).selectedCell = s.selectedCell ∧
      (captureEffect s fp dest).boardState = s.boardState ∧
      (captureEffect s fp dest).pendingTimers = s.pendingTimers ∧
      (captureEffect s fp dest).playerNames = s.playerNames := by
  cases dest with
  | none => exact ⟨rfl, rfl, rfl, rfl, rfl, rfl⟩
  | some dp =>
    simp only [captureEffect]
    split_ifs <;> exact ⟨rfl, rfl, rfl, rfl, rfl, rfl⟩

theorem captureEffect_gameActive (s : State) (fp : Piece) (dest : Option Piece) :
    (captureEffect s fp dest).gameActive =
      (if (∃ dp, dest = some dp ∧ dp.color ≠ fp.color ∧ dp.type = Kind.K) then false
       else s.gameActive) := by
  cases dest with
  | none => simp [captureEffect]
  | some dp =>
    simp only [captureEffect]
    by_cases h1 : dp.color = fp.color
    · simp [h1]
    · by_cases h2 : dp.type = Kind.K
      · simp [h1, h2]
      · simp [h1, h2]

theorem switchTurn_currentTurn (s : State) :
    (switchTurn s).currentTurn = (if s.currentTurn = Side.w then Side.b else Side.w) := by
  simp only [switchTurn, clearHighlights]
  split_ifs <;> rfl

theorem switchTurn_gameActive (s : State) : (switchTurn s).gameActive = s.gameActive := by
  simp only [switchTurn, clearHighlights]
  split_ifs <;> rfl

theorem legal_ne_source {boardState : Board} (hb : boardState.wellFormed) {src dst : Square}
    (hon : isOnBoard src.row src.col = true) (h : IsLegal boardState src dst) :
    ¬ (src.row = dst.row ∧ src.col = dst.col) ∧
      ∃ p, pieceAt boardState src.row src.col = some p ∧
        freeFor boardState p.color dst.row dst.col := by
  obtain ⟨moves, hm, hmem⟩ := h
  obtain ⟨moves', hm', hall⟩ := getLegalMoves_sound hb hon
  rw [hm] at hm'
  cases hm'
  obtain ⟨-, p, hp, hfree⟩ := hall dst hmem
  refine ⟨?_, p, hp, hfree⟩
  rintro ⟨h1, h2⟩
  unfold freeFor at hfree
  rw [← h1, ← h2, hp] at hfree
  rcases hfree with h | ⟨q, hq, hne⟩
  · cases h
  · cases hq
    exact hne rfl

/-! ## Claims about the agent and the turn -/

/-- C14: on an 8x8 board and for a draw that is a double in `[0, 1)`,
`computerMove` builds the list of all `(from, to)` with `from` an on-board square
holding a black piece and `to` among `getLegalMoves(from)`.  When the list is
empty it returns the state as it is.  Otherwise the index
`Math.floor(rnd * length)`, the product rounded as a double, lies within the
list, the candidate there, a black piece's square and one of its destinations, is
handed to `movePiece`, which succeeds, and `switchTurn` then flips the turn
once. -/
theorem computerMove_picks_candidate (s : State) (rnd : Draw)
    (hb : s.boardState.wellFormed) (hr : rnd.inUnit) :
    ∃ cands, collectRows s.boardState 8 0 [] = .ok cands ∧
      (∀ mv : Square × Square, mv ∈ cands ↔
        (0 ≤ mv.1.row ∧ mv.1.row < 8 ∧ 0 ≤ mv.1.col ∧ mv.1.col < 8) ∧
        (∃ p, pieceAt s.boardState mv.1.row mv.1.col = some p ∧ p.color = Side.b) ∧
        ∃ moves, getLegalMoves s.boardState mv.1.row mv.1.col = .ok moves ∧ mv.2 ∈ moves) ∧
      (cands = [] → computerMove s rnd = .ok s) ∧
      (cands ≠ [] →
        randomIndex rnd cands.length < cands.length ∧
        ∃ mv s1, cands[randomIndex rnd cands.length]? = some mv ∧ mv ∈ cands ∧
          movePiece s mv.1.row mv.1.col mv.2.row mv.2.col = .ok s1 ∧
          computerMove s rnd = .ok (switchTurn s1) ∧
          (switchTurn s1).currentTurn = (if s.currentTurn = Side.w then Side.b else Side.w) ∧
          pieceAt (switchTurn s1).boardState mv.2.row mv.2.col =
            pieceAt s.boardState mv.1.row mv.1.col ∧
          pieceAt (switchTurn s1).boardState mv.1.row mv.1.col = none) := by
  obtain ⟨cands, hc, hnil, hcons⟩ := computerMove_spec s hb hr
  obtain ⟨cands', hc', hmemC⟩ := candidates_spec hb
  have hcc : cands' = cands := by
    have : (Except.ok cands' : Except Fault _) = .ok cands := hc'.symm.trans hc
    cases this
    rfl
  subst hcc
  refine ⟨cands', hc, ?_, hnil, ?_⟩
  · intro mv
    rw [hmemC, isOnBoard_iff]
    rfl
  · intro hne
    obtain ⟨mv, hidx, hmem, hcm⟩ := hcons hne
    obtain ⟨hfromOn, -, hlegal⟩ := (hmemC mv).1 hmem
    obtain ⟨htoOn, -⟩ := isLegal_source_piece hb hfromOn hlegal
    obtain ⟨hne2, fp, hf, -⟩ := legal_ne_source hb hfromOn hlegal
    obtain ⟨b2, hmove, -, hcells⟩ := movePiece_eq s hb hfromOn htoOn hf
    refine ⟨randomIndex_lt hr (List.length_pos.2 hne), mv, _, hidx, hmem, hmove, ?_, ?_, ?_, ?_⟩
    · rw [hcm, hmove]
      rfl
    · rw [switchTurn_currentTurn]
      simp only [(captureEffect_frame s fp _).1]
    · have hne3 : ¬ (mv.2.row = mv.1.row ∧ mv.2.col = mv.1.col) :=
        fun h => hne2 ⟨h.1.symm, h.2.symm⟩
      rw [switchTurn_boardState]
      simp [hcells, hne3, hf]
    · rw [switchTurn_boardState]
      simp [hcells]

/-- Witness for C14: in the starting position black has 12 candidates.  For the
draw `3752999689475413 / 2 ^ 52` the product with 12 has 56 bits and rounds up, so
that the index is 10 where the exact quotient has floor 9: the pawn step
`(1, 6) -> (2, 6)` is played. -/
theorem computerMove_picks_candidate_witness :
    loaded.boardState.wellFormed ∧
      Draw.inUnit ⟨3752999689475413, 52⟩ ∧
      (collectRows loaded.boardState 8 0 []).toOption.map List.length = some 12 ∧
      3752999689475413 * 12 / 2 ^ 52 = 9 ∧
      randomIndex ⟨3752999689475413, 52⟩ 12 = 10 ∧
      (computerMove loaded ⟨3752999689475413, 52⟩).toOption.map
          (fun s => (pieceAt s.boardState 1 6, pieceAt s.boardState 2 6, s.currentTurn)) =
        some (none, some ⟨Side.b, Kind.P⟩, Side.b) ∧
      ∃ cands, collectRows loaded.boardState 8 0 [] = .ok cands ∧
        (∀ mv : Square × Square, mv ∈ cands ↔
          (0 ≤ mv.1.row ∧ mv.1.row < 8 ∧ 0 ≤ mv.1.col ∧ mv.1.col < 8) ∧
          (∃ p, pieceAt loaded.boardState mv.1.row mv.1.col = some p ∧ p.color = Side.b) ∧
          ∃ moves, getLegalMoves loaded.boardState mv.1.row mv.1.col = .ok moves ∧
            mv.2 ∈ moves) ∧
        (cands = [] → computerMove loaded ⟨3752999689475413, 52⟩ = .ok loaded) ∧
        (cands ≠ [] →
          randomIndex ⟨3752999689475413, 52⟩ cands.length < cands.length ∧
          ∃ mv s1, cands[randomIndex ⟨3752999689475413, 52⟩ cands.length]? = some mv ∧
            mv ∈ cands ∧
            movePiece loaded mv.1.row mv.1.col mv.2.row mv.2.col = .ok s1 ∧
            computerMove loaded ⟨3752999689475413, 52⟩ = .ok (switchTurn s1) ∧
            (switchTurn s1).currentTurn =
              (if loaded.currentTurn = Side.w then Side.b else Side.w) ∧
            pieceAt (switchTurn s1).boardState mv.2.row mv.2.col =
              pieceAt loaded.boardState mv.1.row mv.1.col ∧
            pieceAt (switchTurn s1).boardState mv.1.row mv.1.col = none) :=
  ⟨by decide, by decide, by decide, by decide, by decide, by decide,
    computerMove_picks_candidate loaded ⟨3752999689475413, 52⟩ (by decide) (by decide)⟩

/-- C15: in an active session with a square `sel` selected, a click on one of the
destinations `getLegalMoves` gives for `sel` makes `handleCellClick` apply the
move.  When the destination does not hold a king, `currentTurn` flips to the
other side and `gameActive` stays true; when it holds a king, `gameActive`
becomes false, whichever side moved. -/
theorem handleCellClick_applies_legal_move (s : State) (sel : Square) (row col : Int)
    (p : Piece) (hb : s.boardState.wellFormed) (hact : s.gameActive = true)
    (hsel : s.selectedCell = some sel)
    (hselOn : 0 ≤ sel.row ∧ sel.row < 8 ∧ 0 ≤ sel.col ∧ sel.col < 8)
    (hon : 0 ≤ row ∧ row < 8 ∧ 0 ≤ col ∧ col < 8)
    (hp : pieceAt s.boardState sel.row sel.col = some p)
    (hturn : p.color = s.currentTurn)
    (hlegal : ∃ moves, getLegalMoves s.boardState sel.row sel.col = .ok moves ∧
      (⟨row, col⟩ : Square) ∈ moves) :
    ∃ s', handleCellClick s row col = .ok s' ∧
      pieceAt s'.boardState row col = some p ∧
      pieceAt s'.boardState sel.row sel.col = none ∧
      ((¬ ∃ q, pieceAt s.boardState row col = some q ∧ q.type = Kind.K) →
        s'.currentTurn = (if s.currentTurn = Side.w then Side.b else Side.w) ∧
        s'.currentTurn ≠ p.color ∧ s'.gameActive = true) ∧
      ((∃ q, pieceAt s.boardState row col = some q ∧ q.type = Kind.K) →
        s'.gameActive = false) := by
  have hon' : isOnBoard row col = true := (isOnBoard_iff row col).2 hon
  have hselOn' : isOnBoard sel.row sel.col = true := (isOnBoard_iff _ _).2 hselOn
  obtain ⟨moves, hm, hmem⟩ := hlegal
  obtain ⟨hne, p', hp', hfree⟩ :=
    @legal_ne_source s.boardState hb sel ⟨row, col⟩ hselOn' ⟨moves, hm, hmem⟩
  rw [hp] at hp'
  cases hp'
  obtain ⟨b2, hmove, -, hcells⟩ := movePiece_eq s hb hselOn' hon' hp
  have hne3 : ¬ (row = sel.row ∧ col = sel.col) := fun h => hne ⟨h.1.symm, h.2.symm⟩
  refine ⟨switchTurn
    { clearHighlights
        { captureEffect s p (pieceAt s.boardState row col) with boardState := b2 } with
      selectedCell := none }, ?_, ?_, ?_, ?_, ?_⟩
  · rw [handleCellClick_move s hb hon' hact hsel hne hm hmem, hmove]
    rfl
  · rw [switchTurn_boardState]
    simp [clearHighlights, hcells, hne3]
  · rw [switchTurn_boardState]
    simp [clearHighlights, hcells]
  · intro hnoking
    have hflip : (switchTurn
        { clearHighlights
            { captureEffect s p (pieceAt s.boardState row col) with boardState := b2 } with
          selectedCell := none }).currentTurn =
        (if s.currentTurn = Side.w then Side.b else Side.w) := by
      rw [switchTurn_currentTurn]
      simp only [clearHighlights, (captureEffect_frame s p _).1]
    refine ⟨hflip, ?_, ?_⟩
    · rw [hflip, hturn]
      cases s.currentTurn <;> decide
    · rw [switchTurn_gameActive]
      simp only [clearHighlights, captureEffect_gameActive]
      rw [if_neg, hact]
      rintro ⟨dp, hdp, -, hk⟩
      exact hnoking ⟨dp, hdp, hk⟩
  · rintro ⟨q, hq, hk⟩
    rw [switchTurn_gameActive]
    simp only [clearHighlights, captureEffect_gameActive]
    rw [if_pos]
    refine ⟨q, hq, ?_, hk⟩
    rcases hfree with h | ⟨q', hq', hne'⟩
    · simp only at h
      rw [hq] at h
      cases h
    · simp only at hq'
      rw [hq] at hq'
      cases hq'
      exact hne'

/-- Witness for C15: with the white king's pawn selected, the click on `(5, 4)`
moves it and passes the turn to black; with the white queen selected beside the
black king, the click on the king ends the game. -/
theorem handleCellClick_applies_legal_move_witness :
    pawnSelected.boardState.wellFormed ∧ pawnSelected.gameActive = true ∧
      pawnSelected.selectedCell = some ⟨6, 4⟩ ∧
      pieceAt pawnSelected.boardState 6 4 = some ⟨Side.w, Kind.P⟩ ∧
      pawnSelected.currentTurn = Side.w ∧
      getLegalMoves pawnSelected.boardState 6 4 = .ok [⟨5, 4⟩] ∧
      (handleCellClick queenSelected 4 5).toOption.map (fun s => s.gameActive) = some false ∧
      ∃ s', handleCellClick pawnSelected 5 4 = .ok s' ∧
        pieceAt s'.boardState 5 4 = some ⟨Side.w, Kind.P⟩ ∧
        pieceAt s'.boardState 6 4 = none ∧
        ((¬ ∃ q, pieceAt pawnSelected.boardState 5 4 = some q ∧ q.type = Kind.K) →
          s'.currentTurn = (if pawnSelected.currentTurn = Side.w then Side.b else Side.w) ∧
          s'.currentTurn ≠ Side.w ∧ s'.gameActive = true) ∧
        ((∃ q, pieceAt pawnSelected.boardState 5 4 = some q ∧ q.type = Kind.K) →
          s'.gameActive = false) :=
  ⟨by decide, by decide, by decide, by decide, by decide, by decide, by decide,
    handleCellClick_applies_legal_move pawnSelected ⟨6, 4⟩ 5 4 ⟨Side.w, Kind.P⟩ (by decide)
      (by decide) (by decide) (by decide) (by decide) (by decide) (by decide)
      ⟨[⟨5, 4⟩], by decide, by decide⟩⟩

/-! ## The same move a second time -/

theorem handleCellClick_quiet (t : State) (ht : t.sound) {row col : Int}
    (hon : 0 ≤ row ∧ row < 8 ∧ 0 ≤ col ∧ col < 8)
    (hnone : appliedMove t (Event.click row col) = none) :
    ∃ t', handleCellClick t row col = .ok t' ∧ t'.sound ∧
      t'.boardState = t.boardState ∧ t'.scoreData = t.scoreData ∧
      t'.currentTurn = t.currentTurn ∧ t'.gameActive = t.gameActive := by
  obtain ⟨t', h1, h2, h3, h4, h5⟩ := (appliedMove_click t ht hon).2 hnone
  obtain ⟨t'', h1', hsound, -⟩ := click_points t ht hon
  rw [h1] at h1'
  cases h1'
  exact ⟨t', h1, hsound, h2, h3, h4, h5⟩

/-- C11, as stated, fails for `movePiece`: in the starting position `(5, 4)` is a
destination of the pawn on `(6, 4)` and `movePiece(6, 4, 5, 4)` succeeds, but the
same call repeated does not complete: it stops on `boardState[6][4][0]`, the
square `(6, 4)` being empty by then. -/
theorem movePiece_twice_faults :
    (∃ moves, getLegalMoves loaded.boardState 6 4 = .ok moves ∧ (⟨5, 4⟩ : Square) ∈ moves) ∧
      ∃ s1, movePiece loaded 6 4 5 4 = .ok s1 ∧
        movePiece s1 6 4 5 4 = .error Fault.nullDeref ∧
        ¬ ∃ s2, movePiece s1 6 4 5 4 = .ok s2 := by
  refine ⟨⟨[⟨5, 4⟩], by decide, by decide⟩, ?_⟩
  have h : ((movePiece loaded 6 4 5 4).toOption.map
      (fun s1 => decide (movePiece s1 6 4 5 4 = .error Fault.nullDeref))) = some true := by
    decide
  cases h1 : movePiece loaded 6 4 5 4 with
  | error e => simp [h1, Except.toOption] at h
  | ok s1 =>
    simp only [h1, Except.toOption, Option.map_some', Option.some.injEq,
      decide_eq_true_eq] at h
    refine ⟨s1, rfl, h, ?_⟩
    rintro ⟨s2, hs2⟩
    rw [h] at hs2
    cases hs2

theorem movePiece_again (s : State) {fromRow fromCol toRow toCol : Int} {fp : Piece}
    (hb : s.boardState.wellFormed) (hfrom : isOnBoard fromRow fromCol = true)
    (hto : isOnBoard toRow toCol = true)
    (hf : pieceAt s.boardState fromRow fromCol = some fp)
    (hne : ¬ (fromRow = toRow ∧ fromCol = toCol)) :
    ∃ s1, movePiece s fromRow fromCol toRow toCol = .ok s1 ∧
      movePiece s1 fromRow fromCol toRow toCol = .error Fault.nullDeref := by
  obtain ⟨b2, hm, hwf, hcells⟩ := movePiece_eq s hb hfrom hto hf
  refine ⟨_, hm, ?_⟩
  have hne' : ¬ (toRow = fromRow ∧ toCol = fromCol) := fun h => hne ⟨h.1.symm, h.2.symm⟩
  have h1 : pieceAt b2 toRow toCol = some fp := by simp [hcells, hne']
  have h2 : pieceAt b2 fromRow fromCol = none := by simp [hcells]
  have r1 : readCell b2 toRow toCol = .ok (some fp) := by
    rw [readCell_of_onBoard hwf hto, h1]
  have r2 : readCell b2 fromRow fromCol = .ok none := by
    rw [readCell_of_onBoard hwf hfrom, h2]
  simp [movePiece, r1, r2, bind, Except.bind, throw, throwThe, MonadExceptOf.throw]

/-- C11, amended: in an active session with `sel` selected and `(row, col)` one
of its destinations, the click applies the move, and a second attempt at the same
move through the click handler completes and changes none of `boardState`,
`scoreData`, `gameActive`: both with `sel` selected again and a click on
`(row, col)`, and with a click on `sel` followed by a click on `(row, col)`.
A second direct call of `movePiece` with the same arguments does not complete: it
stops on `boardState[from][0]` with `from` empty, before any change. -/
theorem second_attempt_rejected (s : State) (sel : Square) (row col : Int)
    (hb : s.boardState.wellFormed) (hact : s.gameActive = true)
    (hsel : s.selectedCell = some sel)
    (hselOn : 0 ≤ sel.row ∧ sel.row < 8 ∧ 0 ≤ sel.col ∧ sel.col < 8)
    (hon : 0 ≤ row ∧ row < 8 ∧ 0 ≤ col ∧ col < 8)
    (hlegal : ∃ moves, getLegalMoves s.boardState sel.row sel.col = .ok moves ∧
      (⟨row, col⟩ : Square) ∈ moves) :
    ∃ s1, handleCellClick s row col = .ok s1 ∧
      pieceAt s1.boardState sel.row sel.col = none ∧
      (∃ s2, handleCellClick { s1 with selectedCell := some sel } row col = .ok s2 ∧
        s2.boardState = s1.boardState ∧ s2.scoreData = s1.scoreData ∧
        s2.gameActive = s1.gameActive) ∧
      (∃ s2 s3, handleCellClick s1 sel.row sel.col = .ok s2 ∧
        handleCellClick s2 row col = .ok s3 ∧
        s3.boardState = s1.boardState ∧ s3.scoreData = s1.scoreData ∧
        s3.gameActive = s1.gameActive) ∧
      (∃ m1, movePiece s sel.row sel.col row col = .ok m1 ∧
        m1.boardState = s1.boardState ∧
        movePiece m1 sel.row sel.col row col = .error Fault.nullDeref) := by
  have hon' : isOnBoard row col = true := (isOnBoard_iff row col).2 hon
  have hselOn' : isOnBoard sel.row sel.col = true := (isOnBoard_iff _ _).2 hselOn
  obtain ⟨moves, hm, hmem⟩ := hlegal
  obtain ⟨hne, p, hp, -⟩ :=
    @legal_ne_source s.boardState hb sel ⟨row, col⟩ hselOn' ⟨moves, hm, hmem⟩
  obtain ⟨b2, hmove, hwf, hcells⟩ := movePiece_eq s hb hselOn' hon' hp
  have hempty : pieceAt b2 sel.row sel.col = none := by simp [hcells]
  have hs1 : handleCellClick s row col = .ok (switchTurn
      { clearHighlights
          { captureEffect s p (pieceAt s.boardState row col) with boardState := b2 } with
        selectedCell := none }) := by
    rw [handleCellClick_move s hb hon' hact hsel hne hm hmem, hmove]
    rfl
  generalize hs1def : switchTurn
      { clearHighlights
          { captureEffect s p (pieceAt s.boardState row col) with boardState := b2 } with
        selectedCell := none } = s1 at hs1
  have hb1 : s1.boardState = b2 := by
    rw [← hs1def, switchTurn_boardState]; rfl
  have hsel1 : s1.selectedCell = none := by
    rw [← hs1def, switchTurn_selectedCell]
  have hsound1 : s1.sound := by
    refine ⟨by rw [hb1]; exact hwf, ?_⟩
    intro x hx
    rw [hsel1] at hx
    cases hx
  refine ⟨s1, hs1, by rw [hb1]; exact hempty, ?_, ?_, ?_⟩
  · have hsoundT : ({ s1 with selectedCell := some sel } : State).sound := by
      refine ⟨hsound1.1, ?_⟩
      intro x hx
      cases hx
      exact hselOn'
    have hlegalT : getLegalMoves ({ s1 with selectedCell := some sel } : State).boardState
        sel.row sel.col = .ok [] := by
      apply getLegalMoves_empty hsound1.1 hselOn'
      rw [hb1]; exact hempty
    have hnone : appliedMove { s1 with selectedCell := some sel } (Event.click row col) =
        none := by
      simp only [appliedMove, hlegalT, List.not_mem_nil, if_false]
      split_ifs <;> rfl
    obtain ⟨s2, h1, -, h2, h3, -, h5⟩ := handleCellClick_quiet _ hsoundT hon hnone
    exact ⟨s2, h1, h2, h3, h5⟩
  · have hnone1 : appliedMove s1 (Event.click sel.row sel.col) = none := by
      simp only [appliedMove, hsel1]
      split_ifs <;> rfl
    obtain ⟨s2, h1, hsound2, h2, h3, h4, h5⟩ := handleCellClick_quiet s1 hsound1 hselOn hnone1
    have hsel2 : s2.selectedCell = none := by
      cases hact1 : s1.gameActive with
      | false =>
        rw [handleCellClick_ended s1 _ _ hact1] at h1
        cases h1
        exact hsel1
      | true =>
        rw [handleCellClick_unselected s1 hsound1.1 hselOn' hact1 hsel1] at h1
        cases h1
        have : ¬ ∃ q, pieceAt s1.boardState sel.row sel.col = some q ∧
            q.color = s1.currentTurn := by
          rintro ⟨q, hq, -⟩
          rw [hb1, hempty] at hq
          cases hq
        simp [this, hsel1]
    have hnone2 : appliedMove s2 (Event.click row col) = none := by
      simp only [appliedMove, hsel2]
      split_ifs <;> rfl
    obtain ⟨s3, h1', -, h2', h3', -, h5'⟩ := handleCellClick_quiet s2 hsound2 hon hnone2
    exact ⟨s2, s3, h1, h1', h2'.trans h2, h3'.trans h3, h5'.trans h5⟩
  · obtain ⟨m1, hm1, hm2⟩ := movePiece_again s hb hselOn' hon' hp hne
    refine ⟨m1, hm1, ?_, hm2⟩
    rw [hmove] at hm1
    cases hm1
    rw [hb1]

/-- Witness for C11: the white king's pawn of the starting position, selected,
is moved to `(5, 4)`; after that neither way of clicking the same move again
changes the board. -/
theorem second_attempt_rejected_witness :
    pawnSelected.boardState.wellFormed ∧ pawnSelected.gameActive = true ∧
      pawnSelected.selectedCell = some ⟨6, 4⟩ ∧
      getLegalMoves pawnSelected.boardState 6 4 = .ok [⟨5, 4⟩] ∧
      ∃ s1, handleCellClick pawnSelected 5 4 = .ok s1 ∧
        pieceAt s1.boardState 6 4 = none ∧
        (∃ s2, handleCellClick { s1 with selectedCell := some ⟨6, 4⟩ } 5 4 = .ok s2 ∧
          s2.boardState = s1.boardState ∧ s2.scoreData = s1.scoreData ∧
          s2.gameActive = s1.gameActive) ∧
        (∃ s2 s3, handleCellClick s1 6 4 = .ok s2 ∧
          handleCellClick s2 5 4 = .ok s3 ∧
          s3.boardState = s1.boardState ∧ s3.scoreData = s1.scoreData ∧
          s3.gameActive = s1.gameActive) ∧
        (∃ m1, movePiece pawnSelected 6 4 5 4 = .ok m1 ∧
          m1.boardState = s1.boardState ∧
          movePiece m1 6 4 5 4 = .error Fault.nullDeref) :=
  ⟨by decide, by decide, by decide, by decide,
    second_attempt_rejected pawnSelected ⟨6, 4⟩ 5 4 (by decide) (by decide) (by decide)
      (by decide) (by decide) ⟨[⟨5, 4⟩], by decide, by decide⟩⟩

/-! ## Scheduling the agent -/

theorem switchTurn_pendingTimers (s : State) :
    (switchTurn s).pendingTimers =
      (if s.gameMode = Mode.computer ∧ s.currentTurn = Side.w ∧ s.gameActive = true then
        s.pendingTimers + 1
       else s.pendingTimers) := by
  cases hm : s.gameMode <;> cases ht : s.currentTurn <;> cases ha : s.gameActive <;>
    simp [switchTurn, clearHighlights, hm, ht, ha]

/-- C13 (the part the code breaks): `switchTurn` schedules one `computerMove`
exactly when the mode is "computer", the new side to move is black and the game
is active, whichever side the human chose.  In a session where the human chose
black, the side named "Computer" is white: the transition to black, the human's
side, schedules a `computerMove`, and the transition to white, the automated
side, schedules none. -/
theorem switchTurn_schedules_for_black_only :
    (∀ s : State, (switchTurn s).pendingTimers =
      (if s.gameMode = Mode.computer ∧ (switchTurn s).currentTurn = Side.b ∧
          s.gameActive = true then s.pendingTimers + 1 else s.pendingTimers)) ∧
    humanBlackSession.gameMode = Mode.computer ∧
    humanBlackSession.playerNames.w = "Computer" ∧
    humanBlackSession.currentTurn = Side.w ∧
    humanBlackSession.pendingTimers = 0 ∧
    (run humanBlackSession [Event.click 6 4, Event.click 5 4]).toOption.map
        (fun s => (s.currentTurn, s.gameActive, s.pendingTimers)) = some (Side.b, true, 1) ∧
    (run humanBlackSession
        [Event.click 6 4, Event.click 5 4, Event.timer ⟨0, 1⟩]).toOption.map
        (fun s => (s.currentTurn, s.gameActive, s.pendingTimers)) = some (Side.w, true, 0) := by
  refine ⟨?_, rfl, rfl, rfl, rfl, by decide, by decide⟩
  intro s
  rw [switchTurn_pendingTimers, switchTurn_currentTurn]
  cases s.gameMode <;> cases s.currentTurn <;> cases s.gameActive <;> simp

/-! ## No destination twice, never the piece's own square -/

theorem slideRay_shape {boardState : Board} (hb : boardState.wellFormed) (color : Side)
    (d : Int × Int) (fuel : Nat) : ∀ (r c : Int) (moves : List Square),
    (∃ k : Nat, k ≤ fuel ∧ isOnBoard (r + k * d.1) (c + k * d.2) = false) →
    ∃ m : Nat, slideRay boardState color d fuel r c moves =
      .ok (moves ++ (List.range m).map
        (fun k : Nat => (⟨r + k * d.1, c + k * d.2⟩ : Square))) := by
  induction fuel with
  | zero =>
    rintro r c moves ⟨k, hk, hoff⟩
    have hk0 : k = 0 := by omega
    subst hk0
    simp only [Nat.cast_zero, zero_mul, add_zero] at hoff
    exact ⟨0, by simp [slideRay, hoff, pure, Except.pure]⟩
  | succ fuel ih =>
    rintro r c moves ⟨k, hk, hoff⟩
    cases hon : isOnBoard r c with
    | false => exact ⟨0, by simp [slideRay, hon, pure, Except.pure]⟩
    | true =>
      cases hp : pieceAt boardState r c with
      | none =>
        have hk1 : ∃ k' : Nat, k' ≤ fuel ∧
            isOnBoard (r + d.1 + k' * d.1) (c + d.2 + k' * d.2) = false := by
          cases k with
          | zero => simp [hon] at hoff
          | succ k' =>
            refine ⟨k', by omega, ?_⟩
            have e1 : r + ((k' + 1 : Nat) : Int) * d.1 = r + d.1 + (k' : Int) * d.1 := by
              push_cast; ring
            have e2 : c + ((k' + 1 : Nat) : Int) * d.2 = c + d.2 + (k' : Int) * d.2 := by
              push_cast; ring
            rwa [e1, e2] at hoff
        obtain ⟨m, hm⟩ := ih (r + d.1) (c + d.2) (moves ++ [⟨r, c⟩]) hk1
        refine ⟨m + 1, ?_⟩
        simp only [slideRay, hon, readCell_of_onBoard hb hon, hp, bind, Except.bind, hm,
          if_true]
        congr 1
        rw [List.range_succ_eq_map, List.map_cons, List.map_map, List.append_assoc]
        congr 1
        simp only [Nat.cast_zero, zero_mul, add_zero, List.singleton_append,
          List.cons.injEq, true_and]
        apply List.map_congr_left
        intro k _
        simp only [Function.comp, Nat.succ_eq_add_one, Square.mk.injEq]
        constructor <;> (push_cast; ring)
      | some q =>
        by_cases hc : q.color = color
        · exact ⟨0, by simp [slideRay, hon, readCell_of_onBoard hb hon, hp, bind,
            Except.bind, hc, pure, Except.pure]⟩
        · exact ⟨1, by simp [slideRay, hon, readCell_of_onBoard hb hon, hp, bind,
            Except.bind, hc, pure, Except.pure, List.range_succ]⟩

theorem slidingMovesFrom_nodup {boardState : Board} (hb : boardState.wellFormed)
    {row col : Int} (hon : isOnBoard row col = true) (color : Side)
    (directions : List (Int × Int)) (hdirs : ∀ d ∈ directions, d ∈ queenDirs)
    (hnd : directions.Nodup) :
    ∀ moves : List Square,
    ∃ out, slidingMovesFrom boardState row col color directions moves = .ok (moves ++ out) ∧
      out.Nodup ∧
      ∀ sq ∈ out, ∃ d ∈ directions, ∃ k : Nat,
        sq = ⟨row + ((k + 1 : Nat) : Int) * d.1, col + ((k + 1 : Nat) : Int) * d.2⟩ := by
  induction directions with
  | nil =>
    intro moves
    exact ⟨[], by simp [slidingMovesFrom, pure, Except.pure], List.nodup_nil, by simp⟩
  | cons d rest ih =>
    intro moves
    have hd : d ∈ queenDirs := hdirs d (List.mem_cons_self _ _)
    obtain ⟨m, hray⟩ := slideRay_shape hb color d rayFuel (row + d.1) (col + d.2) moves
      (ray_leaves hon hd)
    obtain ⟨hdnot, hrestnd⟩ := List.nodup_cons.1 hnd
    obtain ⟨out, hout, houtnd, houtmem⟩ :=
      ih (fun e he => hdirs e (List.mem_cons_of_mem _ he)) hrestnd
        (moves ++ (List.range m).map
          (fun k : Nat => (⟨row + d.1 + k * d.1, col + d.2 + k * d.2⟩ : Square)))
    have hshift : ∀ k : Nat,
        (⟨row + d.1 + k * d.1, col + d.2 + k * d.2⟩ : Square) =
          ⟨row + ((k + 1 : Nat) : Int) * d.1, col + ((k + 1 : Nat) : Int) * d.2⟩ := by
      intro k
      simp only [Square.mk.injEq]
      constructor <;> (push_cast; ring)
    refine ⟨(List.range m).map
        (fun k : Nat => (⟨row + d.1 + k * d.1, col + d.2 + k * d.2⟩ : Square)) ++ out,
      ?_, ?_, ?_⟩
    · simp [slidingMovesFrom, hray, bind, Except.bind, hout]
    · rw [List.nodup_append]
      refine ⟨?_, houtnd, ?_⟩
      · apply List.Nodup.map_on _ (List.nodup_range m)
        intro x _ y _ hxy
        rw [hshift, hshift] at hxy
        simp only [Square.mk.injEq] at hxy
        have := @ray_square_injective d d hd hd (x + 1) (y + 1) (by omega) (by omega)
          (by linarith [hxy.1]) (by linarith [hxy.2])
        omega
      · intro sq hsq1 hsq2
        obtain ⟨k, -, rfl⟩ := List.mem_map.1 hsq1
        obtain ⟨d', hd', k', hk'⟩ := houtmem _ hsq2
        rw [hshift] at hk'
        simp only [Square.mk.injEq] at hk'
        have := @ray_square_injective d d' hd (hdirs d' (List.mem_cons_of_mem _ hd'))
          (k + 1) (k' + 1) (by omega) (by omega)
          (by linarith [hk'.1]) (by linarith [hk'.2])
        exact hdnot (this.1 ▸ hd')
    · intro sq hsq
      rcases List.mem_append.1 hsq with h | h
      · obtain ⟨k, -, rfl⟩ := List.mem_map.1 h
        exact ⟨d, List.mem_cons_self _ _, k, hshift k⟩
      · obtain ⟨d', hd', k', hk'⟩ := houtmem _ h
        exact ⟨d', List.mem_cons_of_mem _ hd', k', hk'⟩

theorem directionSet_nodup (k : Kind) : (directionSet k).Nodup := by
  cases k <;> decide

theorem knightDeltas_nodup : knightDeltas.Nodup := by decide

theorem kingDeltas_nodup : kingDeltas.Nodup := by decide

theorem deltaMoves_nodup {boardState : Board} (hb : boardState.wellFormed) (row col : Int)
    (color : Side) {deltas : List (Int × Int)} (hnd : deltas.Nodup) :
    ∃ moves, deltaMoves boardState row col color deltas [] = .ok moves ∧ moves.Nodup := by
  refine ⟨_, deltaMoves_eq hb row col color deltas [], ?_⟩
  rw [List.nil_append]
  apply List.Nodup.map _ (List.Nodup.filter _ hnd)
  rintro ⟨a, b⟩ ⟨a', b'⟩ h
  simp only [Square.mk.injEq] at h
  simp only [Prod.mk.injEq]
  constructor <;> omega

theorem getLegalMoves_nodup {boardState : Board} (hb : boardState.wellFormed) {row col : Int}
    (hon : isOnBoard row col = true) :
    ∃ moves, getLegalMoves boardState row col = .ok moves ∧ moves.Nodup := by
  cases hp : pieceAt boardState row col with
  | none => exact ⟨[], getLegalMoves_empty hb hon hp, List.nodup_nil⟩
  | some p =>
    have hkind : p.type = Kind.P ∨ p.type = Kind.N ∨ p.type = Kind.K ∨
        (p.type = Kind.B ∨ p.type = Kind.R ∨ p.type = Kind.Q) := by
      cases p.type <;> simp
    rcases hkind with hk | hk | hk | hk
    · refine ⟨_, (getLegalMoves_pawn hb hon hp hk).trans (pawnMoves_eq hb row col p.color), ?_⟩
      split_ifs <;> simp <;> omega
    · obtain ⟨moves, hm, hnd⟩ := deltaMoves_nodup hb row col p.color knightDeltas_nodup
      exact ⟨moves, (getLegalMoves_knight hb hon hp hk).trans hm, hnd⟩
    · obtain ⟨moves, hm, hnd⟩ := deltaMoves_nodup hb row col p.color kingDeltas_nodup
      exact ⟨moves, (getLegalMoves_king hb hon hp hk).trans hm, hnd⟩
    · obtain ⟨out, hout, hnd, -⟩ := slidingMovesFrom_nodup hb hon p.color (directionSet p.type)
        (directionSet_sub p.type) (directionSet_nodup p.type) []
      refine ⟨out, ?_, hnd⟩
      rw [List.nil_append] at hout
      rcases hk with hk | hk | hk <;>
      · simp only [hk, directionSet] at hout
        simp [getLegalMoves, readCell_of_onBoard hb hon, hp, bind, Except.bind, hk,
          slidingMoves, hout, pure, Except.pure]

/-- C20: on an 8x8 board and for an on-board square, the list `getLegalMoves`
returns has no square twice and does not contain the queried square; so a move
taken from it has `from` different from `to`, and `movePiece` on it leaves the
moving piece on `to`. -/
theorem getLegalMoves_nodup_not_self (boardState : Board) (row col : Int)
    (hb : boardState.wellFormed) (hrow : 0 ≤ row ∧ row < 8) (hcol : 0 ≤ col ∧ col < 8) :
    ∃ moves, getLegalMoves boardState row col = .ok moves ∧
      moves.Nodup ∧
      (⟨row, col⟩ : Square) ∉ moves ∧
      (∀ m ∈ moves, ¬ (row = m.row ∧ col = m.col)) ∧
      (∀ (s : State) (p : Piece), s.boardState = boardState →
        pieceAt boardState row col = some p → ∀ m ∈ moves,
        ∃ s', movePiece s row col m.row m.col = .ok s' ∧
          pieceAt s'.boardState m.row m.col = some p ∧
          pieceAt s'.boardState row col = none) := by
  have hon : isOnBoard row col = true :=
    (isOnBoard_iff row col).2 ⟨hrow.1, hrow.2, hcol.1, hcol.2⟩
  obtain ⟨moves, hm, hnd⟩ := getLegalMoves_nodup hb hon
  have hne : ∀ m ∈ moves, ¬ (row = m.row ∧ col = m.col) := by
    intro m hmem
    exact (@legal_ne_source boardState hb ⟨row, col⟩ m hon ⟨moves, hm, hmem⟩).1
  refine ⟨moves, hm, hnd, ?_, hne, ?_⟩
  · intro hmem
    exact hne _ hmem ⟨rfl, rfl⟩
  · intro s p hs hp m hmem
    subst hs
    obtain ⟨htoOn, -⟩ :=
      @isLegal_source_piece s.boardState hb ⟨row, col⟩ m hon ⟨moves, hm, hmem⟩
    obtain ⟨b2, hmove, -, hcells⟩ := movePiece_eq s hb hon htoOn hp
    have hne' : ¬ (m.row = row ∧ m.col = col) := fun h => hne m hmem ⟨h.1.symm, h.2.symm⟩
    exact ⟨_, hmove, by simp [hcells, hne'], by simp [hcells]⟩

/-- Witness for C20: the queen of `duelBoard` beside the black king has 25
destinations, all different, her own square `(4, 4)` not among them. -/
theorem getLegalMoves_nodup_not_self_witness :
    (duelBoard ⟨Side.w, Kind.Q⟩ ⟨Side.b, Kind.K⟩).wellFormed ∧
      (getLegalMoves (duelBoard ⟨Side.w, Kind.Q⟩ ⟨Side.b, Kind.K⟩) 4 4).toOption.map
        List.length = some 25 ∧
      ∃ moves, getLegalMoves (duelBoard ⟨Side.w, Kind.Q⟩ ⟨Side.b, Kind.K⟩) 4 4 = .ok moves ∧
        moves.Nodup ∧
        (⟨4, 4⟩ : Square) ∉ moves ∧
        (∀ m ∈ moves, ¬ ((4 : Int) = m.row ∧ (4 : Int) = m.col)) ∧
        (∀ (s : State) (p : Piece),
          s.boardState = duelBoard ⟨Side.w, Kind.Q⟩ ⟨Side.b, Kind.K⟩ →
          pieceAt (duelBoard ⟨Side.w, Kind.Q⟩ ⟨Side.b, Kind.K⟩) 4 4 = some p → ∀ m ∈ moves,
          ∃ s', movePiece s 4 4 m.row m.col = .ok s' ∧
            pieceAt s'.boardState m.row m.col = some p ∧
            pieceAt s'.boardState 4 4 = none) :=
  ⟨by decide, by decide,
    getLegalMoves_nodup_not_self (duelBoard ⟨Side.w, Kind.Q⟩ ⟨Side.b, Kind.K⟩) 4 4
      (by decide) (by decide) (by decide)⟩

/-! ## The selection invariant -/

theorem appliedMove_click_some {s : State} {row col : Int} {mv : Square × Square}
    (h : appliedMove s (Event.click row col) = some mv) :
    s.gameActive = true ∧ s.selectedCell = some mv.1 ∧ mv.2 = ⟨row, col⟩ ∧
      IsLegal s.boardState mv.1 mv.2 := by
  cases hact : s.gameActive with
  | false => simp [appliedMove, hact] at h
  | true =>
    cases hsel : s.selectedCell with
    | none => simp [appliedMove, hact, hsel] at h
    | some sel =>
      by_cases hsame : sel.row = row ∧ sel.col = col
      · simp [appliedMove, hact, hsel, hsame] at h
      · cases hm : getLegalMoves s.boardState sel.row sel.col with
        | error e => simp [appliedMove, hact, hsel, hsame, hm] at h
        | ok moves =>
          by_cases hmem : (⟨row, col⟩ : Square) ∈ moves
          · simp [appliedMove, hact, hsel, hsame, hm, hmem] at h
            subst h
            exact ⟨rfl, rfl, rfl, moves, hm, hmem⟩
          · simp [appliedMove, hact, hsel, hsame, hm, hmem] at h

theorem appliedMove_timer_some {s : State} (hb : s.boardState.wellFormed) {rnd : Draw}
    {mv : Square × Square} (h : appliedMove s (Event.timer rnd) = some mv) :
    isOnBoard mv.1.row mv.1.col = true ∧ holdsSide s.boardState Side.b mv.1 ∧
      IsLegal s.boardState mv.1 mv.2 := by
  obtain ⟨cands, hc, hmem⟩ := candidates_spec hb
  by_cases hp : s.pendingTimers = 0
  · simp [appliedMove, hp] at h
  · simp only [appliedMove, hp, if_false, hc] at h
    exact (hmem mv).1 (List.getElem?_mem h)

theorem click_selectedCell (s : State) (hs : s.sound) {row col : Int}
    (hon : 0 ≤ row ∧ row < 8 ∧ 0 ≤ col ∧ col < 8) :
    ∃ s', handleCellClick s row col = .ok s' ∧
      (s'.selectedCell = none ∨
        (s'.boardState = s.boardState ∧ s'.currentTurn = s.currentTurn ∧
          (s'.selectedCell = s.selectedCell ∨
            (s'.selectedCell = some ⟨row, col⟩ ∧
              holdsSide s.boardState s.currentTurn ⟨row, col⟩)))) := by
  obtain ⟨hb, hselOn⟩ := hs
  have hon' : isOnBoard row col = true := (isOnBoard_iff row col).2 hon
  have hpick : ∀ t : State, t = ({ s with selectedCell :=
        (if (∃ p, pieceAt s.boardState row col = some p ∧ p.color = s.currentTurn)
          then some (Square.mk row col) else s.selectedCell) } : State) →
      (t.selectedCell = none ∨
        (t.boardState = s.boardState ∧ t.currentTurn = s.currentTurn ∧
          (t.selectedCell = s.selectedCell ∨
            (t.selectedCell = some ⟨row, col⟩ ∧
              holdsSide s.boardState s.currentTurn ⟨row, col⟩)))) := by
    intro t ht
    subst ht
    by_cases hown : ∃ p, pieceAt s.boardState row col = some p ∧ p.color = s.currentTurn
    · exact Or.inr ⟨rfl, rfl, Or.inr ⟨by simp [hown], hown⟩⟩
    · exact Or.inr ⟨rfl, rfl, Or.inl (by simp [hown])⟩
  cases hact : s.gameActive with
  | false => exact ⟨s, handleCellClick_ended s row col hact, Or.inr ⟨rfl, rfl, Or.inl rfl⟩⟩
  | true =>
    have hopt : s.selectedCell = none ∨ ∃ sel, s.selectedCell = some sel := by
      cases s.selectedCell <;> simp
    rcases hopt with hsel | ⟨sel, hsel⟩
    · exact ⟨_, handleCellClick_unselected s hb hon' hact hsel, hpick _ rfl⟩
    · have hselOn' := hselOn sel hsel
      by_cases hsame : sel.row = row ∧ sel.col = col
      · have hsel' : s.selectedCell = some ⟨row, col⟩ := by
          rw [hsel, ← hsame.1, ← hsame.2]
        exact ⟨_, handleCellClick_same s hb hon' hact hsel', Or.inl rfl⟩
      · obtain ⟨moves, hm⟩ := getLegalMoves_ok hb hselOn'
        by_cases hmem : (⟨row, col⟩ : Square) ∈ moves
        · obtain ⟨-, fp, hf⟩ := isLegal_source_piece hb hselOn' ⟨moves, hm, hmem⟩
          obtain ⟨b2, hmove, -, -⟩ := movePiece_eq s hb hselOn' hon' hf
          refine ⟨switchTurn
            { clearHighlights
                { captureEffect s fp (pieceAt s.boardState row col) with boardState := b2 } with
              selectedCell := none }, ?_, Or.inl (switchTurn_selectedCell _)⟩
          rw [handleCellClick_move s hb hon' hact hsel hsame hm hmem, hmove]
          rfl
        · exact ⟨_, handleCellClick_reselect s hb hon' hact hsel hsame hm hmem, hpick _ rfl⟩

theorem timer_selectedCell (s : State) (hs : s.sound) {rnd : Draw}
    (hr : rnd.inUnit) :
    ∃ s', step s (Event.timer rnd) = .ok s' ∧
      (s'.selectedCell = none ∨
        (s'.boardState = s.boardState ∧ s'.currentTurn = s.currentTurn ∧
          s'.selectedCell = s.selectedCell)) := by
  by_cases hnone : appliedMove s (Event.timer rnd) = none
  · by_cases hp : s.pendingTimers = 0
    · exact ⟨s, by simp [step, hp, pure, Except.pure], Or.inr ⟨rfl, rfl, rfl⟩⟩
    · have hb1 : ({ s with pendingTimers := s.pendingTimers - 1 } :
          State).boardState.wellFormed := hs.1
      obtain ⟨cands, hc, hnil, hcons⟩ :=
        computerMove_spec { s with pendingTimers := s.pendingTimers - 1 } hb1 hr
      have hc' : collectRows s.boardState 8 0 [] = .ok cands := hc
      by_cases hne : cands = []
      · refine ⟨{ s with pendingTimers := s.pendingTimers - 1 }, ?_, Or.inr ⟨rfl, rfl, rfl⟩⟩
        simp only [step, hp, if_false]
        exact hnil hne
      · obtain ⟨mv, hidx, -, -⟩ := hcons hne
        simp [appliedMove, hp, hc', hidx] at hnone
  · obtain ⟨mv, hmv⟩ := Option.ne_none_iff_exists'.1 hnone
    obtain ⟨hfromOn, ⟨fp, hf, -⟩, hlegal⟩ := appliedMove_timer_some hs.1 hmv
    obtain ⟨htoOn, -⟩ := isLegal_source_piece hs.1 hfromOn hlegal
    have hb1 : ({ s with pendingTimers := s.pendingTimers - 1 } :
        State).boardState.wellFormed := hs.1
    obtain ⟨b2, hmove, -, -⟩ :=
      movePiece_eq { s with pendingTimers := s.pendingTimers - 1 } hb1 hfromOn htoOn hf
    refine ⟨switchTurn
      { captureEffect { s with pendingTimers := s.pendingTimers - 1 } fp
          (pieceAt s.boardState mv.2.row mv.2.col) with boardState := b2 }, ?_,
      Or.inl (switchTurn_selectedCell _)⟩
    rw [(appliedMove_timer s hs hr).1 mv hmv, hmove]
    rfl

theorem step_invariant (s : State) (hs : s.sound) (hown : s.selectionOwn) (e : Event)
    (he : e.wellFormed) :
    ∃ s', step s e = .ok s' ∧ s'.sound ∧ s'.selectionOwn := by
  cases e with
  | start mode p1 p2 p side =>
    refine ⟨_, rfl, (startGame_sound s mode p1 p2 p side).1, ?_⟩
    intro sel h
    simp [startGame, initGame] at h
  | restart =>
    refine ⟨restart s, rfl, ⟨initBoardState_wellFormed, ?_⟩, ?_⟩
    · intro sel h
      simp [restart, clearHighlights] at h
    · intro sel h
      simp [restart, clearHighlights] at h
  | click row col =>
    obtain ⟨s', h1, hsound, -⟩ := click_points s hs he
    obtain ⟨s'', h1', hcases⟩ := click_selectedCell s hs he
    have h1c : handleCellClick s row col = .ok s' := h1
    rw [h1c] at h1'
    cases h1'
    refine ⟨s', h1, hsound, ?_⟩
    intro sel hsel
    rcases hcases with h | ⟨hb, ht, h | ⟨h, hh⟩⟩
    · rw [h] at hsel; cases hsel
    · rw [hb, ht]
      exact hown sel (h ▸ hsel)
    · rw [h] at hsel
      cases hsel
      rw [hb, ht]
      exact hh
  | timer rnd =>
    obtain ⟨s', h1, hsound, -⟩ := timer_points s hs he
    obtain ⟨s'', h1', hcases⟩ := timer_selectedCell s hs he
    rw [h1] at h1'
    cases h1'
    refine ⟨s', h1, hsound, ?_⟩
    intro sel hsel
    rcases hcases with h | ⟨hb, ht, h⟩
    · rw [h] at hsel; cases hsel
    · rw [hb, ht]
      exact hown sel (h ▸ hsel)

theorem run_invariant (es : List Event) :
    ∀ s : State, s.sound → s.selectionOwn → (∀ e ∈ es, e.wellFormed) →
    ∃ s', run s es = .ok s' ∧ s'.sound ∧ s'.selectionOwn := by
  induction es with
  | nil =>
    intro s hs hown _
    exact ⟨s, rfl, hs, hown⟩
  | cons e es ih =>
    intro s hs hown hall
    obtain ⟨s1, hstep, hs1, hown1⟩ := step_invariant s hs hown e (hall e (List.mem_cons_self _ _))
    obtain ⟨s2, hrun, hs2, hown2⟩ :=
      ih s1 hs1 hown1 (fun e' he' => hall e' (List.mem_cons_of_mem _ he'))
    exact ⟨s2, by simp [run, hstep, bind, Except.bind, hrun], hs2, hown2⟩

theorem loaded_sound : loaded.sound ∧ loaded.selectionOwn := by
  refine ⟨⟨initBoardState_wellFormed, ?_⟩, ?_⟩
  · intro sel h
    simp [loaded, initGame] at h
  · intro sel h
    simp [loaded, initGame] at h

/-- C18: after any sequence of start-button presses, clicks on cells, scheduled
computer moves and restarts from the loaded page, the events are all handled
without fault, and in the state reached: a selected cell holds a piece of the
side to move; a move that a click applies goes from the selected cell, which
holds a piece of the side to move, to one of its `getLegalMoves` destinations;
and whenever a click or a scheduled computer move applies a move, the `from`
square holds a piece, so `movePiece` does not meet an empty `from`. -/
theorem selection_is_side_to_move (es : List Event) (hes : ∀ e ∈ es, e.wellFormed) :
    ∃ s, run loaded es = .ok s ∧
      (∀ sel, s.selectedCell = some sel →
        ∃ p, pieceAt s.boardState sel.row sel.col = some p ∧ p.color = s.currentTurn) ∧
      (∀ (row col : Int) (mv : Square × Square),
        (0 ≤ row ∧ row < 8 ∧ 0 ≤ col ∧ col < 8) →
        appliedMove s (Event.click row col) = some mv →
        handleCellClick s row col =
            (movePiece s mv.1.row mv.1.col mv.2.row mv.2.col).map
              (fun s' => switchTurn { clearHighlights s' with selectedCell := none }) ∧
          (∃ p, pieceAt s.boardState mv.1.row mv.1.col = some p ∧ p.color = s.currentTurn) ∧
          (∃ moves, getLegalMoves s.boardState mv.1.row mv.1.col = .ok moves ∧
            mv.2 ∈ moves)) ∧
      (∀ (e : Event) (mv : Square × Square), e.wellFormed → appliedMove s e = some mv →
        (∃ p, pieceAt s.boardState mv.1.row mv.1.col = some p) ∧
          ∃ s1, movePiece s mv.1.row mv.1.col mv.2.row mv.2.col = .ok s1) ∧
      (∀ e : Event, e.wellFormed → ∃ s', step s e = .ok s') := by
  obtain ⟨s, hrun, hsound, hown⟩ := run_invariant es loaded loaded_sound.1 loaded_sound.2 hes
  refine ⟨s, hrun, hown, ?_, ?_, ?_⟩
  · intro row col mv hon hmv
    obtain ⟨-, hsel, -, hlegal⟩ := appliedMove_click_some hmv
    exact ⟨(appliedMove_click s hsound hon).1 mv hmv, hown _ hsel, hlegal⟩
  · intro e mv he hmv
    have hkey : isOnBoard mv.1.row mv.1.col = true ∧ IsLegal s.boardState mv.1 mv.2 := by
      cases e with
      | start mode p1 p2 p side => simp [appliedMove] at hmv
      | restart => simp [appliedMove] at hmv
      | click row col =>
        obtain ⟨-, hsel, -, hlegal⟩ := appliedMove_click_some hmv
        exact ⟨hsound.2 _ hsel, hlegal⟩
      | timer rnd =>
        obtain ⟨h1, -, h3⟩ := appliedMove_timer_some hsound.1 hmv
        exact ⟨h1, h3⟩
    obtain ⟨htoOn, fp, hf⟩ := isLegal_source_piece hsound.1 hkey.1 hkey.2
    obtain ⟨b2, hmove, -, -⟩ := movePiece_eq s hsound.1 hkey.1 htoOn hf
    exact ⟨⟨fp, hf⟩, _, hmove⟩
  · intro e he
    obtain ⟨s', h, -, -⟩ := step_invariant s hsound hown e he
    exact ⟨s', h⟩

/-- Witness for C18: in the two-player session of `pawnCaptureTrace`, stopped
after white's pawn on `(4, 4)` has been selected, the selected cell holds a white
piece and white is to move. -/
theorem selection_is_side_to_move_witness :
    (∀ e ∈ pawnCaptureTrace.take 9, e.wellFormed) ∧
      (run loaded (pawnCaptureTrace.take 9)).toOption.map
          (fun s => (s.selectedCell, s.currentTurn, pieceAt s.boardState 4 4)) =
        some (some ⟨4, 4⟩, Side.w, some ⟨Side.w, Kind.P⟩) ∧
      ∃ s, run loaded (pawnCaptureTrace.take 9) = .ok s ∧
        (∀ sel, s.selectedCell = some sel →
          ∃ p, pieceAt s.boardState sel.row sel.col = some p ∧ p.color = s.currentTurn) ∧
        (∀ (row col : Int) (mv : Square × Square),
          (0 ≤ row ∧ row < 8 ∧ 0 ≤ col ∧ col < 8) →
          appliedMove s (Event.click row col) = some mv →
          handleCellClick s row col =
              (movePiece s mv.1.row mv.1.col mv.2.row mv.2.col).map
                (fun s' => switchTurn { clearHighlights s' with selectedCell := none }) ∧
            (∃ p, pieceAt s.boardState mv.1.row mv.1.col = some p ∧
              p.color = s.currentTurn) ∧
            (∃ moves, getLegalMoves s.boardState mv.1.row mv.1.col = .ok moves ∧
              mv.2 ∈ moves)) ∧
        (∀ (e : Event) (mv : Square × Square), e.wellFormed → appliedMove s e = some mv →
          (∃ p, pieceAt s.boardState mv.1.row mv.1.col = some p) ∧
            ∃ s1, movePiece s mv.1.row mv.1.col mv.2.row mv.2.col = .ok s1) ∧
        (∀ e : Event, e.wellFormed → ∃ s', step s e = .ok s') :=
  ⟨by decide, by decide, selection_is_side_to_move (pawnCaptureTrace.take 9) (by decide)⟩

/-! ## Counting pieces -/

theorem allSquares_nodup : allSquares.Nodup := by decide

theorem mem_allSquares {r c : Int} (h : isOnBoard r c = true) : (r, c) ∈ allSquares := by
  have hrc := (isOnBoard_iff r c).1 h
  have h1 : r.toNat < 8 := by omega
  have h2 : c.toNat < 8 := by omega
  refine List.mem_flatMap.2 ⟨r.toNat, List.mem_range.2 h1,
    List.mem_map.2 ⟨c.toNat, List.mem_range.2 h2, ?_⟩⟩
  rw [Int.ofNat_eq_coe, Int.ofNat_eq_coe, Int.toNat_of_nonneg hrc.1,
    Int.toNat_of_nonneg hrc.2.2.1]

theorem countP_update {α : Type} [DecidableEq α] (p q : α → Bool) (a : α) :
    ∀ l : List α, l.Nodup → a ∈ l → (∀ x ∈ l, x ≠ a → q x = p x) →
    l.countP q + (if p a then 1 else 0) = l.countP p + (if q a then 1 else 0) := by
  intro l
  induction l with
  | nil => intro _ h; cases h
  | cons x xs ih =>
    intro hnd hmem hagree
    obtain ⟨hx, hxs⟩ := List.nodup_cons.1 hnd
    rw [List.countP_cons, List.countP_cons]
    by_cases hax : x = a
    · subst hax
      have hsame : xs.countP q = xs.countP p := by
        apply List.countP_congr
        intro y hy
        have hne : y ≠ x := fun h => hx (h ▸ hy)
        rw [hagree y (List.mem_cons_of_mem _ hy) hne]
      rw [hsame]
      omega
    · have hmem' : a ∈ xs := by
        rcases List.mem_cons.1 hmem with h | h
        · exact absurd h.symm hax
        · exact h
      have := ih hxs hmem' (fun y hy hne => hagree y (List.mem_cons_of_mem _ hy) hne)
      rw [hagree x (List.mem_cons_self _ _) hax]
      omega

theorem count_after_move {boardState b2 : Board} {fromRow fromCol toRow toCol : Int}
    {fp : Piece} (hfrom : isOnBoard fromRow fromCol = true)
    (hto : isOnBoard toRow toCol = true)
    (hf : pieceAt boardState fromRow fromCol = some fp)
    (hcells : ∀ r c, pieceAt b2 r c =
      if r = fromRow ∧ c = fromCol then none
      else if r = toRow ∧ c = toCol then some fp
      else pieceAt boardState r c) (p : Piece) :
    countPiece b2 p + (if pieceAt boardState toRow toCol = some p then 1 else 0) =
      countPiece boardState p := by
  have hA := countP_update
    (fun x : Int × Int => decide (pieceAt boardState x.1 x.2 = some p))
    (fun x : Int × Int => decide ((if x.1 = toRow ∧ x.2 = toCol then some fp
      else pieceAt boardState x.1 x.2) = some p))
    (toRow, toCol) allSquares allSquares_nodup (mem_allSquares hto)
    (by
      rintro ⟨r, c⟩ _ hne
      have : ¬ (r = toRow ∧ c = toCol) := fun h => hne (by rw [h.1, h.2])
      simp [this])
  have hB := countP_update
    (fun x : Int × Int => decide ((if x.1 = toRow ∧ x.2 = toCol then some fp
      else pieceAt boardState x.1 x.2) = some p))
    (fun x : Int × Int => decide (pieceAt b2 x.1 x.2 = some p))
    (fromRow, fromCol) allSquares allSquares_nodup (mem_allSquares hfrom)
    (by
      rintro ⟨r, c⟩ _ hne
      have : ¬ (r = fromRow ∧ c = fromCol) := fun h => hne (by rw [h.1, h.2])
      simp [hcells, this])
  have hfromVal : (if fromRow = toRow ∧ fromCol = toCol then some fp
      else pieceAt boardState fromRow fromCol) = some fp := by
    split_ifs
    · rfl
    · exact hf
  have e1 : pieceAt b2 fromRow fromCol = none := by simp [hcells]
  simp only [and_self, if_true, hfromVal, e1] at hA hB
  simp only [countPiece]
  generalize allSquares.countP (fun x : Int × Int =>
    decide (pieceAt boardState x.1 x.2 = some p)) = n0 at hA ⊢
  generalize allSquares.countP (fun x : Int × Int =>
    decide (pieceAt b2 x.1 x.2 = some p)) = n2 at hB ⊢
  generalize allSquares.countP (fun x : Int × Int =>
    decide ((if x.1 = toRow ∧ x.2 = toCol then some fp
      else pieceAt boardState x.1 x.2) = some p)) = n1 at hA hB
  by_cases h1 : fp = p <;> by_cases h2 : pieceAt boardState toRow toCol = some p <;>
    simp [h1, h2] at hA hB ⊢ <;> omega

/-! ## What a step does to the board -/

theorem step_effect (s : State) (hs : s.sound) (e : Event) (he : e.inSession)
    (hne : e ≠ Event.restart) :
    ∃ s', step s e = .ok s' ∧
      ((s'.boardState = s.boardState ∧ s'.gameActive = s.gameActive) ∨
        ∃ (mv : Square × Square) (fp : Piece),
          isOnBoard mv.1.row mv.1.col = true ∧ isOnBoard mv.2.row mv.2.col = true ∧
          pieceAt s.boardState mv.1.row mv.1.col = some fp ∧
          freeFor s.boardState fp.color mv.2.row mv.2.col ∧
          (∀ r c, pieceAt s'.boardState r c =
            if r = mv.1.row ∧ c = mv.1.col then none
            else if r = mv.2.row ∧ c = mv.2.col then some fp
            else pieceAt s.boardState r c) ∧
          s'.gameActive =
            (if (∃ dp, pieceAt s.boardState mv.2.row mv.2.col = some dp ∧
                dp.color ≠ fp.color ∧ dp.type = Kind.K) then false
             else s.gameActive)) := by
  cases e with
  | start mode p1 p2 p side => exact absurd he (by simp [Event.inSession])
  | restart => exact absurd rfl hne
  | click row col =>
    by_cases hnone : appliedMove s (Event.click row col) = none
    · obtain ⟨s', h1, h2, -, -, h5⟩ := (appliedMove_click s hs he).2 hnone
      exact ⟨s', h1, Or.inl ⟨h2, h5⟩⟩
    · obtain ⟨mv, hmv⟩ := Option.ne_none_iff_exists'.1 hnone
      obtain ⟨-, hsel, -, hlegal⟩ := appliedMove_click_some hmv
      have hfromOn := hs.2 _ hsel
      obtain ⟨htoOn, -⟩ := isLegal_source_piece hs.1 hfromOn hlegal
      obtain ⟨-, fp, hf, hfree⟩ := legal_ne_source hs.1 hfromOn hlegal
      obtain ⟨b2, hmove, -, hcells⟩ := movePiece_eq s hs.1 hfromOn htoOn hf
      refine ⟨switchTurn
        { clearHighlights
            { captureEffect s fp (pieceAt s.boardState mv.2.row mv.2.col) with
              boardState := b2 } with
          selectedCell := none }, ?_, Or.inr ⟨mv, fp, hfromOn, htoOn, hf, hfree, ?_, ?_⟩⟩
      · show handleCellClick s row col = _
        rw [(appliedMove_click s hs he).1 mv hmv, hmove]
        rfl
      · intro r c
        rw [switchTurn_boardState]
        exact hcells r c
      · rw [switchTurn_gameActive]
        simp only [clearHighlights, captureEffect_gameActive]
  | timer rnd =>
    by_cases hnone : appliedMove s (Event.timer rnd) = none
    · obtain ⟨s', h1, h2, -, -, h5⟩ := (appliedMove_timer s hs he).2 hnone
      exact ⟨s', h1, Or.inl ⟨h2, h5⟩⟩
    · obtain ⟨mv, hmv⟩ := Option.ne_none_iff_exists'.1 hnone
      obtain ⟨hfromOn, -, hlegal⟩ := appliedMove_timer_some hs.1 hmv
      obtain ⟨htoOn, -⟩ := isLegal_source_piece hs.1 hfromOn hlegal
      obtain ⟨-, fp, hf, hfree⟩ := legal_ne_source hs.1 hfromOn hlegal
      have hb1 : ({ s with pendingTimers := s.pendingTimers - 1 } :
          State).boardState.wellFormed := hs.1
      obtain ⟨b2, hmove, -, hcells⟩ :=
        movePiece_eq { s with pendingTimers := s.pendingTimers - 1 } hb1 hfromOn htoOn hf
      refine ⟨switchTurn
        { captureEffect { s with pendingTimers := s.pendingTimers - 1 } fp
            (pieceAt s.boardState mv.2.row mv.2.col) with boardState := b2 }, ?_,
        Or.inr ⟨mv, fp, hfromOn, htoOn, hf, hfree, ?_, ?_⟩⟩
      · rw [(appliedMove_timer s hs he).1 mv hmv, hmove]
        rfl
      · intro r c
        rw [switchTurn_boardState]
        exact hcells r c
      · rw [switchTurn_gameActive]
        simp only [captureEffect_gameActive]

theorem initBoardState_kings (side : Side) : countPiece initBoardState ⟨side, Kind.K⟩ = 1 := by
  cases side <;> decide

theorem step_counts (s : State) (hs : s.sound) (e : Event) (he : e.inSession)
    (hne : e ≠ Event.restart) :
    ∃ s', step s e = .ok s' ∧
      (∀ p, countPiece s'.boardState p ≤ countPiece s.boardState p) ∧
      (s.kingsPresent → s'.kingsPresent) := by
  obtain ⟨s', hstep, hcases⟩ := step_effect s hs e he hne
  refine ⟨s', hstep, ?_, ?_⟩
  · intro p
    rcases hcases with ⟨hb, -⟩ | ⟨mv, fp, hfromOn, htoOn, hf, -, hcells, -⟩
    · rw [hb]
    · have := count_after_move hfromOn htoOn hf hcells p
      omega
  · intro hk hact side
    rcases hcases with ⟨hb, ha⟩ | ⟨mv, fp, hfromOn, htoOn, hf, hfree, hcells, ha⟩
    · rw [hb]
      exact hk (ha ▸ hact) side
    · have hcount := count_after_move hfromOn htoOn hf hcells ⟨side, Kind.K⟩
      by_cases hking : ∃ dp, pieceAt s.boardState mv.2.row mv.2.col = some dp ∧
          dp.color ≠ fp.color ∧ dp.type = Kind.K
      · rw [ha, if_pos hking] at hact
        cases hact
      · rw [ha, if_neg hking] at hact
        have hdest : pieceAt s.boardState mv.2.row mv.2.col ≠ some ⟨side, Kind.K⟩ := by
          intro hd
          rcases hfree with h | ⟨q, hq, hqc⟩
          · rw [hd] at h
            cases h
          · rw [hd] at hq
            cases hq
            exact hking ⟨_, hd, hqc, rfl⟩
        rw [if_neg hdest] at hcount
        rw [Nat.add_zero] at hcount
        rw [hcount]
        exact hk hact side

theorem step_kings (s : State) (hs : s.sound) (hk : s.kingsPresent) (e : Event)
    (he : e.wellFormed) :
    ∃ s', step s e = .ok s' ∧ s'.sound ∧ s'.kingsPresent := by
  cases e with
  | start mode p1 p2 p side =>
    exact ⟨_, rfl, (startGame_sound s mode p1 p2 p side).1, fun _ sd => initBoardState_kings sd⟩
  | restart =>
    refine ⟨restart s, rfl, ⟨initBoardState_wellFormed, ?_⟩, fun _ sd => initBoardState_kings sd⟩
    intro sel h
    simp [restart, clearHighlights] at h
  | click row col =>
    obtain ⟨s', h1, hsound, -⟩ := step_points s hs (Event.click row col) he
    obtain ⟨s'', h1', -, hkings⟩ := step_counts s hs (Event.click row col) he (by simp)
    rw [h1] at h1'
    cases h1'
    exact ⟨s', h1, hsound, hkings hk⟩
  | timer rnd =>
    obtain ⟨s', h1, hsound, -⟩ := step_points s hs (Event.timer rnd) he
    obtain ⟨s'', h1', -, hkings⟩ := step_counts s hs (Event.timer rnd) he (by simp)
    rw [h1] at h1'
    cases h1'
    exact ⟨s', h1, hsound, hkings hk⟩

theorem run_kings (es : List Event) :
    ∀ s : State, s.sound → s.kingsPresent → (∀ e ∈ es, e.wellFormed) →
    ∃ s', run s es = .ok s' ∧ s'.sound ∧ s'.kingsPresent := by
  induction es with
  | nil =>
    intro s hs hk _
    exact ⟨s, rfl, hs, hk⟩
  | cons e es ih =>
    intro s hs hk hall
    obtain ⟨s1, hstep, hs1, hk1⟩ := step_kings s hs hk e (hall e (List.mem_cons_self _ _))
    obtain ⟨s2, hrun, hs2, hk2⟩ :=
      ih s1 hs1 hk1 (fun e' he' => hall e' (List.mem_cons_of_mem _ he'))
    exact ⟨s2, by simp [run, hstep, bind, Except.bind, hrun], hs2, hk2⟩

/-- C19: after any sequence of start-button presses, clicks, scheduled computer
moves and restarts from the loaded page, a click or a scheduled computer move
never raises the number of pieces of any side and kind on the board (so no piece
is created, recoloured or promoted), and whenever `gameActive` is true each side
has exactly one king on the board. -/
theorem no_piece_created_one_king_each (es : List Event) (hes : ∀ e ∈ es, e.wellFormed) :
    ∃ s, run loaded es = .ok s ∧
      (s.gameActive = true → ∀ side : Side, countPiece s.boardState ⟨side, Kind.K⟩ = 1) ∧
      (∀ e : Event, e.inSession → e ≠ Event.restart →
        ∃ s', step s e = .ok s' ∧
          ∀ p : Piece, countPiece s'.boardState p ≤ countPiece s.boardState p) := by
  have hk0 : loaded.kingsPresent := fun _ sd => initBoardState_kings sd
  obtain ⟨s, hrun, hsound, hk⟩ := run_kings es loaded loaded_sound.1 hk0 hes
  refine ⟨s, hrun, hk, ?_⟩
  intro e he hne
  obtain ⟨s', h1, h2, -⟩ := step_counts s hsound e he hne
  exact ⟨s', h1, h2⟩

/-- Witness for C19: after the ten clicks of `pawnCaptureTrace` a black pawn has
gone, no count has grown, and both kings stand. -/
theorem no_piece_created_one_king_each_witness :
    (∀ e ∈ pawnCaptureTrace, e.wellFormed) ∧
      (run loaded pawnCaptureTrace).toOption.map
          (fun s => (s.gameActive, countPiece s.boardState ⟨Side.b, Kind.P⟩,
            countPiece s.boardState ⟨Side.w, Kind.P⟩,
            countPiece s.boardState ⟨Side.w, Kind.K⟩,
            countPiece s.boardState ⟨Side.b, Kind.K⟩)) = some (true, 7, 8, 1, 1) ∧
      ∃ s, run loaded pawnCaptureTrace = .ok s ∧
        (s.gameActive = true → ∀ side : Side, countPiece s.boardState ⟨side, Kind.K⟩ = 1) ∧
        (∀ e : Event, e.inSession → e ≠ Event.restart →
          ∃ s', step s e = .ok s' ∧
            ∀ p : Piece, countPiece s'.boardState p ≤ countPiece s.boardState p) :=
  ⟨by decide, by decide, no_piece_created_one_king_each pawnCaptureTrace (by decide)⟩

/-! ## Attempts that are not moves -/

/-- C10: in every state `s` that the loaded page reaches through start-button
presses, clicks on cells, scheduled computer moves and restarts, and for all
squares `src`, `dst` of the grid such that `dst` is not in `getLegalMoves(src)`,
or `src` is empty, or `src` holds a piece of the side that is not `currentTurn`:
with `src` selected, `handleCellClick` on `dst` returns without fault and leaves
`boardState`, `scoreData`, `currentTurn` and `gameActive` as they were; and with
nothing selected, the click on `src` followed by the click on `dst` does so too. -/
theorem illegal_attempt_rejected (es : List Event) (hes : ∀ e ∈ es, e.wellFormed)
    (src dst : Square)
    (hsrc : 0 ≤ src.row ∧ src.row < 8 ∧ 0 ≤ src.col ∧ src.col < 8)
    (hdst : 0 ≤ dst.row ∧ dst.row < 8 ∧ 0 ≤ dst.col ∧ dst.col < 8) :
    ∃ s, run loaded es = .ok s ∧
      (((∃ moves, getLegalMoves s.boardState src.row src.col = .ok moves ∧ dst ∉ moves) ∨
          pieceAt s.boardState src.row src.col = none ∨
          (∃ p, pieceAt s.boardState src.row src.col = some p ∧ p.color ≠ s.currentTurn)) →
        (s.selectedCell = some src →
          ∃ s', handleCellClick s dst.row dst.col = .ok s' ∧
            s'.boardState = s.boardState ∧ s'.scoreData = s.scoreData ∧
            s'.currentTurn = s.currentTurn ∧ s'.gameActive = s.gameActive) ∧
        (s.selectedCell = none →
          ∃ s1 s2, handleCellClick s src.row src.col = .ok s1 ∧
            handleCellClick s1 dst.row dst.col = .ok s2 ∧
            s2.boardState = s.boardState ∧ s2.scoreData = s.scoreData ∧
            s2.currentTurn = s.currentTurn ∧ s2.gameActive = s.gameActive)) := by
  obtain ⟨s, hrun, hsound, hown⟩ := run_invariant es loaded loaded_sound.1 loaded_sound.2 hes
  refine ⟨s, hrun, fun hrej => ⟨?_, ?_⟩⟩
  · intro hsel
    obtain ⟨p, hp, hc⟩ := hown src hsel
    have hnot : ∃ moves, getLegalMoves s.boardState src.row src.col = .ok moves ∧
        (⟨dst.row, dst.col⟩ : Square) ∉ moves := by
      rcases hrej with h | h | ⟨q, hq, hne⟩
      · exact h
      · rw [h] at hp; cases hp
      · rw [hq] at hp; cases hp; exact absurd hc hne
    exact (handleCellClick_no_move s dst.row dst.col hsound.1 hdst).1 src hsel hsrc
      (Or.inl hnot)
  · intro hnone
    have hsrcOn : isOnBoard src.row src.col = true := (isOnBoard_iff _ _).2 hsrc
    have hdstOn : isOnBoard dst.row dst.col = true := (isOnBoard_iff _ _).2 hdst
    cases hact : s.gameActive with
    | false =>
      exact ⟨s, s, handleCellClick_ended s _ _ hact, handleCellClick_ended s _ _ hact,
        rfl, rfl, rfl, hact⟩
    | true =>
      by_cases hmine : ∃ p, pieceAt s.boardState src.row src.col = some p ∧
          p.color = s.currentTurn
      · obtain ⟨p, hp, hc⟩ := hmine
        have hnot : ∃ moves, getLegalMoves s.boardState src.row src.col = .ok moves ∧
            (⟨dst.row, dst.col⟩ : Square) ∉ moves := by
          rcases hrej with h | h | ⟨q, hq, hne⟩
          · exact h
          · rw [h] at hp; cases hp
          · rw [hq] at hp; cases hp; exact absurd hc hne
        have h1 : handleCellClick s src.row src.col =
            .ok { s with selectedCell := some src } := by
          rw [handleCellClick_unselected s hsound.1 hsrcOn hact hnone, if_pos ⟨p, hp, hc⟩]
        obtain ⟨s2, h2, hb2, hsc2, ht2, hg2⟩ :=
          (handleCellClick_no_move { s with selectedCell := some src } dst.row dst.col
            hsound.1 hdst).1 src rfl hsrc (Or.inl hnot)
        exact ⟨_, s2, h1, h2, hb2, hsc2, ht2, hg2.trans hact⟩
      · have h1 : handleCellClick s src.row src.col = .ok s := by
          rw [handleCellClick_unselected s hsound.1 hsrcOn hact hnone, if_neg hmine]
        refine ⟨s, _, h1, handleCellClick_unselected s hsound.1 hdstOn hact hnone,
          rfl, rfl, rfl, hact⟩

/-- Witness for C10: with the white king's pawn selected by a click on `(6, 4)`,
a click on `(3, 4)`, two squares ahead, is not a move: the board, the scores and
the turn stay, the game stays active.  From the loaded page, where nothing is
selected, a click on the black pawn of `(1, 4)` and a click on `(2, 4)` leave the
state as it is. -/
theorem illegal_attempt_rejected_witness :
    (∀ e ∈ [Event.click 6 4], e.wellFormed) ∧
      (run loaded [Event.click 6 4]).toOption.map
          (fun s => (s.selectedCell, getLegalMoves s.boardState 6 4)) =
        some (some ⟨6, 4⟩, .ok [⟨5, 4⟩]) ∧
      (run loaded [Event.click 6 4, Event.click 3 4]).toOption.map
          (fun s => (decide (s.boardState = loaded.boardState),
            decide (s.scoreData = loaded.scoreData), s.currentTurn, s.gameActive)) =
        some (true, true, Side.w, true) ∧
      run loaded [Event.click 1 4, Event.click 2 4] = .ok loaded ∧
      ∃ s, run loaded [Event.click 6 4] = .ok s ∧
        (((∃ moves, getLegalMoves s.boardState 6 4 = .ok moves ∧
              (⟨3, 4⟩ : Square) ∉ moves) ∨
            pieceAt s.boardState 6 4 = none ∨
            (∃ p, pieceAt s.boardState 6 4 = some p ∧ p.color ≠ s.currentTurn)) →
          (s.selectedCell = some ⟨6, 4⟩ →
            ∃ s', handleCellClick s 3 4 = .ok s' ∧
              s'.boardState = s.boardState ∧ s'.scoreData = s.scoreData ∧
              s'.currentTurn = s.currentTurn ∧ s'.gameActive = s.gameActive) ∧
          (s.selectedCell = none →
            ∃ s1 s2, handleCellClick s 6 4 = .ok s1 ∧
              handleCellClick s1 3 4 = .ok s2 ∧
              s2.boardState = s.boardState ∧ s2.scoreData = s.scoreData ∧
              s2.currentTurn = s.currentTurn ∧ s2.gameActive = s.gameActive)) :=
  ⟨by decide, by decide, by decide, by decide,
    illegal_attempt_rejected [Event.click 6 4] (by decide) ⟨6, 4⟩ ⟨3, 4⟩ (by decide)
      (by decide)⟩

/-! ## The name fields -/

/-- A field holding only a no-break space, or only spaces, falls back to the
default name; white space around a name is removed and kept inside it. -/
theorem nameOr_examples :
    nameOr (String.mk [Char.ofNat 0xA0]) "White" = "White" ∧
      nameOr (String.mk [Char.ofNat 0x3000, 'A', 'n', 'n', ' ', Char.ofNat 0xFEFF]) "White" =
        "Ann" ∧
      nameOr "  " "Black" = "Black" ∧
      nameOr " A b " "Black" = "A b" := by
  decide

end Chess
